import Mathlib

/-!
Verification development for the automatic-jav repository.

The Python sources under scripts/ are shallowly embedded below:
Python strings are Lean `String`s (lists of unicode scalar values);
`str.lower()` is modeled as the simple per-character ASCII case mapping;
CPython's `urllib.parse` (version 3.11 semantics) is embedded at the level
of character lists, including its UTF-8 percent-codec; functions that can
raise are embedded with `Option`/`Except`.  Nonterminating Python loops and
uncaught exceptions are both modeled as the error case of `Except` and are
distinguished in comments where they matter.
-/

set_option maxHeartbeats 2000000
set_option maxRecDepth 4000

namespace AutoJav

-- ===================== 1. Python string helpers =====================

/-- The set of characters `str.strip()` removes (Python's `str.isspace`). -/
def pyWhitespace : List Char :=
  [' ', '\t', '\n', '\r', '\x0b', '\x0c',
   '\x1c', '\x1d', '\x1e', '\x1f', '\x85', '\xa0',
   ' ', ' ', ' ', ' ', ' ', ' ', ' ',
   ' ', ' ', ' ', ' ', ' ', ' ', ' ',
   ' ', ' ', '　']

def isPySpace (c : Char) : Bool := pyWhitespace.contains c

def dropWhileEnd (p : Char → Bool) (l : List Char) : List Char :=
  (l.reverse.dropWhile p).reverse

/-- Python `str.strip()` on character lists. -/
def pyStripL (l : List Char) : List Char :=
  dropWhileEnd isPySpace (l.dropWhile isPySpace)

def pyStrip (s : String) : String := ⟨pyStripL s.data⟩

def isAsciiUpper (c : Char) : Bool := 'A' ≤ c && c ≤ 'Z'
def isAsciiLower (c : Char) : Bool := 'a' ≤ c && c ≤ 'z'
def isAsciiAlpha (c : Char) : Bool := isAsciiUpper c || isAsciiLower c
def isAsciiDigit (c : Char) : Bool := '0' ≤ c && c ≤ '9'

/-- Python `str.lower()`, modeled as the simple ASCII case mapping
(full Unicode case folding is immaterial to the claims below). -/
def pyLowerChar (c : Char) : Char :=
  if isAsciiUpper c then Char.ofNat (c.toNat + 32) else c

def pyLowerL (l : List Char) : List Char := l.map pyLowerChar

def pyLower (s : String) : String := ⟨pyLowerL s.data⟩

/-- Python `str.strip(chars)`: remove the given characters from both ends. -/
def pyStripCharsL (cs : List Char) (l : List Char) : List Char :=
  dropWhileEnd (cs.contains ·) (l.dropWhile (cs.contains ·))

def isPfxL : List Char → List Char → Bool
  | [], _ => true
  | _ :: _, [] => false
  | a :: as, b :: bs => a = b && isPfxL as bs

/-- Index of the first occurrence of `pat` as a contiguous sublist of `l`
(Python `str.find` returning `None` instead of `-1`). -/
def findSubL (pat : List Char) : List Char → Option Nat
  | [] => if pat = [] then some 0 else none
  | c :: cs =>
    if isPfxL pat (c :: cs) then some 0
    else (findSubL pat cs).map (· + 1)

def containsSub (l pat : List Char) : Bool := (findSubL pat l).isSome

/-- Python `str.split(sep)` for a single-character separator. -/
def splitOnCharL (sep : Char) : List Char → List (List Char)
  | [] => [[]]
  | c :: cs =>
    if c = sep then [] :: splitOnCharL sep cs
    else
      match splitOnCharL sep cs with
      | [] => [[c]]
      | h :: t => (c :: h) :: t

/-- Python `str.split(sep, 1)` when the separator occurs
(used for `nv.split('=', 1)` and `partition`). -/
def splitFirstL (sep : Char) : List Char → Option (List Char × List Char)
  | [] => none
  | c :: cs =>
    if c = sep then some ([], cs)
    else (splitFirstL sep cs).map (fun pr => (c :: pr.1, pr.2))

/-- Python `str.replace(a, b)` for single characters. -/
def replaceCharL (a b : Char) (l : List Char) : List Char :=
  l.map (fun c => if c = a then b else c)

def intercalateL (sep : List Char) : List (List Char) → List Char
  | [] => []
  | [x] => x
  | x :: y :: t => x ++ sep ++ intercalateL sep (y :: t)

/-- Python `str(int)` for the integers produced by `n % base` in
`int_to_base` (used because `digits.append(str(d))`). -/
def pyIntRepr (d : Int) : List Char := (toString d).data

-- ===================== 2. UTF-8 codec =====================

/-- UTF-8 encoding of one unicode scalar value (`str.encode("utf-8")`). -/
def utf8EncodeChar (c : Char) : List Nat :=
  let n := c.toNat
  if n < 0x80 then [n]
  else if n < 0x800 then [0xC0 + n / 64, 0x80 + n % 64]
  else if n < 0x10000 then
    [0xE0 + n / 4096, 0x80 + n / 64 % 64, 0x80 + n % 64]
  else
    [0xF0 + n / 262144, 0x80 + n / 4096 % 64, 0x80 + n / 64 % 64, 0x80 + n % 64]

def utf8Encode (l : List Char) : List Nat := (l.map utf8EncodeChar).flatten

def isCont (b : Nat) : Bool := 0x80 ≤ b && b ≤ 0xBF

/-- The replacement character U+FFFD used by `errors="replace"`. -/
def replChar : Char := '�'

/-- CPython's UTF-8 decoder with `errors="replace"` (one U+FFFD per maximal
invalid subpart).  Structured as one step consuming at least one byte. -/
def utf8DecStep (b : Nat) (rest : List Nat) : Char × Nat :=
  if b < 0x80 then (Char.ofNat b, 0)
  else if 0xC2 ≤ b && b ≤ 0xDF then
    match rest with
    | b1 :: _ =>
      if isCont b1 then (Char.ofNat ((b - 0xC0) * 64 + (b1 - 0x80)), 1)
      else (replChar, 0)
    | [] => (replChar, 0)
  else if 0xE0 ≤ b && b ≤ 0xEF then
    let lo1 := if b = 0xE0 then 0xA0 else 0x80
    let hi1 := if b = 0xED then 0x9F else 0xBF
    match rest with
    | b1 :: rest1 =>
      if lo1 ≤ b1 && b1 ≤ hi1 then
        match rest1 with
        | b2 :: _ =>
          if isCont b2 then
            (Char.ofNat ((b - 0xE0) * 4096 + (b1 - 0x80) * 64 + (b2 - 0x80)), 2)
          else (replChar, 1)
        | [] => (replChar, 1)
      else (replChar, 0)
    | [] => (replChar, 0)
  else if 0xF0 ≤ b && b ≤ 0xF4 then
    let lo1 := if b = 0xF0 then 0x90 else 0x80
    let hi1 := if b = 0xF4 then 0x8F else 0xBF
    match rest with
    | b1 :: rest1 =>
      if lo1 ≤ b1 && b1 ≤ hi1 then
        match rest1 with
        | b2 :: rest2 =>
          if isCont b2 then
            match rest2 with
            | b3 :: _ =>
              if isCont b3 then
                (Char.ofNat ((b - 0xF0) * 262144 + (b1 - 0x80) * 4096 +
                  (b2 - 0x80) * 64 + (b3 - 0x80)), 3)
              else (replChar, 2)
            | [] => (replChar, 2)
          else (replChar, 1)
        | [] => (replChar, 1)
      else (replChar, 0)
    | [] => (replChar, 0)
  else (replChar, 0)

/-- Fuelled driver for the UTF-8 decoder; `fuel ≥ length` always suffices. -/
def utf8DecGo : Nat → List Nat → List Char
  | 0, _ => []
  | _ + 1, [] => []
  | fuel + 1, b :: rest =>
    let st := utf8DecStep b rest
    st.1 :: utf8DecGo fuel (rest.drop st.2)

def utf8Dec (l : List Nat) : List Char := utf8DecGo l.length l

-- ===================== 3. urllib.parse percent-codec =====================

/-- `urllib.parse`'s `_ALWAYS_SAFE` byte set (ASCII letters, digits, `_.-~`). -/
def alwaysSafe (b : Nat) : Bool :=
  (0x41 ≤ b && b ≤ 0x5A) || (0x61 ≤ b && b ≤ 0x7A) ||
  (0x30 ≤ b && b ≤ 0x39) || b = 0x5F || b = 0x2E || b = 0x2D || b = 0x7E

def hexDigitUpper (d : Nat) : Char :=
  if d < 10 then Char.ofNat (0x30 + d) else Char.ofNat (0x41 + d - 10)

/-- `%XX` escape of one byte (uppercase hex, as `urllib.parse.quote` emits). -/
def pctEscape (b : Nat) : List Char :=
  ['%', hexDigitUpper (b / 16), hexDigitUpper (b % 16)]

/-- `urllib.parse.quote_plus`: UTF-8 encode, keep always-safe bytes, map
space to `+`, percent-escape everything else.  (Equivalent to CPython's
quote-then-replace formulation because `+` itself is never left raw.) -/
def quotePlusL (l : List Char) : List Char :=
  ((utf8Encode l).map (fun b =>
    if b = 0x20 then ['+']
    else if alwaysSafe b then [Char.ofNat b]
    else pctEscape b)).flatten

def isHexDigit (c : Char) : Bool :=
  isAsciiDigit c || ('a' ≤ c && c ≤ 'f') || ('A' ≤ c && c ≤ 'F')

def hexVal (c : Char) : Nat :=
  if isAsciiDigit c then c.toNat - 0x30
  else if 'a' ≤ c && c ≤ 'f' then c.toNat - 0x61 + 10
  else c.toNat - 0x41 + 10

/-- `urllib.parse.unquote_to_bytes` on an ASCII chunk: `%XX` pairs become
bytes, anything else passes through as its own byte. -/
def pctBytes : List Char → List Nat
  | [] => []
  | '%' :: h1 :: h2 :: rest =>
    if isHexDigit h1 && isHexDigit h2 then
      (hexVal h1 * 16 + hexVal h2) :: pctBytes rest
    else 0x25 :: pctBytes (h1 :: h2 :: rest)
  | '%' :: rest => 0x25 :: pctBytes rest
  | c :: rest => c.toNat :: pctBytes rest

def isAsciiChar (c : Char) : Bool := c.toNat ≤ 0x7F

/-- `urllib.parse.unquote` (errors="replace"): maximal ASCII runs are
percent-decoded to bytes and UTF-8 decoded; non-ASCII runs pass through.
Driven by fuel `≥ length`. -/
def unquoteGo : Nat → List Char → List Char
  | 0, _ => []
  | _ + 1, [] => []
  | fuel + 1, c :: cs =>
    if isAsciiChar c then
      utf8Dec (pctBytes ((c :: cs).takeWhile isAsciiChar)) ++
        unquoteGo fuel ((c :: cs).dropWhile isAsciiChar)
    else c :: unquoteGo fuel cs

def unquoteL (l : List Char) : List Char := unquoteGo l.length l

/-- The key/value transform of `parse_qsl`: `.replace('+', ' ')` then
`unquote`. -/
def unquotePlusL (l : List Char) : List Char :=
  unquoteL (replaceCharL '+' ' ' l)

/-- `urllib.parse.parse_qsl(qs, keep_blank_values=True)` with the modern
single separator `&` (empty fields skipped, a field without `=` keeps a
blank value). -/
def parseQsl (qs : List Char) : List (List Char × List Char) :=
  if qs = [] then []
  else
    (splitOnCharL '&' qs).foldr (fun nv acc =>
      if nv = [] then acc
      else
        match splitFirstL '=' nv with
        | none => (unquotePlusL nv, []) :: acc
        | some (n, v) => (unquotePlusL n, unquotePlusL v) :: acc) []

/-- `urllib.parse.urlencode(pairs, doseq=True)` for string pairs
(doseq is immaterial for string values): `quote_plus` each side. -/
def urlencodeL (pairs : List (List Char × List Char)) : List Char :=
  intercalateL ['&'] (pairs.map fun kv => quotePlusL kv.1 ++ '=' :: quotePlusL kv.2)

-- ===================== 4. urlsplit / urlunsplit =====================

/-- Characters allowed after the first one in a URL scheme. -/
def isSchemeChar (c : Char) : Bool :=
  isAsciiAlpha c || isAsciiDigit c || c = '+' || c = '-' || c = '.'

/-- The WHATWG C0-control-or-space set that `urlsplit` lstrips. -/
def isC0OrSpace (c : Char) : Bool := c.toNat ≤ 0x20

/-- `_UNSAFE_URL_BYTES_TO_REMOVE`: tab, carriage return, newline. -/
def isUnsafeUrlByte (c : Char) : Bool := c = '\t' || c = '\r' || c = '\n'

def removeUnsafe (l : List Char) : List Char :=
  l.filter (fun c => !isUnsafeUrlByte c)

/-- The scheme-detection step of CPython 3.11 `urlsplit`: a leading
`scheme:` is recognised when the colon is at index ≥ 1, the first character
is an ASCII letter and the rest are scheme characters; the scheme is
lowercased.  Returns `(scheme, rest)` on success. -/
def schemeSplit (l : List Char) : Option (List Char × List Char) :=
  match splitFirstL ':' l with
  | none => none
  | some (pre, rest) =>
    match pre with
    | [] => none
    | c0 :: tail =>
      if isAsciiAlpha c0 && tail.all isSchemeChar then
        some (pyLowerL (c0 :: tail), rest)
      else none

/-- `_splitnetloc`: the netloc extends from after `//` to the first of
`/`, `?`, `#`. -/
def isNetlocEnd (c : Char) : Bool := c = '/' || c = '?' || c = '#'

structure SplitResult where
  scheme : List Char
  netloc : List Char
  path : List Char
  query : List Char
  fragment : List Char
  deriving Repr, DecidableEq

/-- `urllib.parse.uses_netloc` (CPython 3.11). -/
def usesNetloc : List (List Char) :=
  ["".data, "ftp".data, "http".data, "gopher".data, "nntp".data,
   "telnet".data, "imap".data, "wais".data, "file".data, "mms".data,
   "https".data, "shttp".data, "snews".data, "prospero".data, "rtsp".data,
   "rtsps".data, "rtspu".data, "rsync".data, "svn".data, "svn+ssh".data,
   "sftp".data, "nfs".data, "git".data, "git+ssh".data, "ws".data,
   "wss".data]

/-- `urllib.parse.uses_relative` (CPython 3.11). -/
def usesRelative : List (List Char) :=
  ["".data, "ftp".data, "http".data, "gopher".data, "nntp".data,
   "imap".data, "wais".data, "file".data, "https".data, "shttp".data,
   "mms".data, "prospero".data, "rtsp".data, "rtsps".data, "rtspu".data,
   "sftp".data, "svn".data, "svn+ssh".data, "ws".data, "wss".data]

/-- `urllib.parse.uses_params` (CPython 3.11). -/
def usesParams : List (List Char) :=
  ["".data, "ftp".data, "hdl".data, "prospero".data, "http".data,
   "imap".data, "https".data, "shttp".data, "rtsp".data, "rtsps".data,
   "rtspu".data, "sip".data, "sips".data, "mms".data, "sftp".data,
   "tel".data]

/-- CPython 3.11 `urllib.parse.urlsplit(url, scheme=default)` with
`allow_fragments=True`.  `none` models the `ValueError` raised on a netloc
containing exactly one of `[`, `]`.  The `_checknetloc` NFKC check and the
`_check_bracketed_host` IP validation (which reject certain non-ASCII and
bracketed netlocs) are not modeled; no claim below involves such netlocs. -/
def urlsplitL (url0 : List Char) (dflt : List Char) : Option SplitResult :=
  let url1 := removeUnsafe (url0.dropWhile isC0OrSpace)
  let dflt := removeUnsafe (dropWhileEnd isC0OrSpace (dflt.dropWhile isC0OrSpace))
  let (scheme, rest) :=
    match schemeSplit url1 with
    | some (s, r) => (s, r)
    | none => (dflt, url1)
  let (netloc, rest, bad) :=
    if isPfxL ['/', '/'] rest then
      let after := rest.drop 2
      let nl := after.takeWhile (fun c => !isNetlocEnd c)
      let rest2 := after.dropWhile (fun c => !isNetlocEnd c)
      (nl, rest2, (nl.contains '[' != nl.contains ']'))
    else ([], rest, false)
  if bad then none
  else
    let (rest, fragment) :=
      match splitFirstL '#' rest with
      | some (a, b) => (a, b)
      | none => (rest, [])
    let (path, query) :=
      match splitFirstL '?' rest with
      | some (a, b) => (a, b)
      | none => (rest, [])
    some ⟨scheme, netloc, path, query, fragment⟩

/-- CPython 3.11 `urllib.parse.urlunsplit`. -/
def urlunsplitL (scheme netloc path query fragment : List Char) : List Char :=
  let url := path
  let url :=
    if netloc ≠ [] ||
        (scheme ≠ [] && usesNetloc.contains scheme && !isPfxL ['/', '/'] url) then
      let url := if url ≠ [] && !isPfxL ['/'] url then '/' :: url else url
      '/' :: '/' :: (netloc ++ url)
    else url
  let url := if scheme ≠ [] then scheme ++ ':' :: url else url
  let url := if query ≠ [] then url ++ '?' :: query else url
  if fragment ≠ [] then url ++ '#' :: fragment else url

-- ===================== 5. normalize_url (dupe_filter.py) =====================

/-- The tracking-parameter denylist of `normalize_url`. -/
def dropParams : List (List Char) :=
  ["utm_source".data, "utm_medium".data, "utm_campaign".data, "utm_term".data,
   "utm_content".data, "gclid".data, "fbclid".data]

/-- Code-point lexicographic `≤` on character lists (how Python compares
strings), as an executable Boolean. -/
def strLeB : List Char → List Char → Bool
  | [], _ => true
  | _ :: _, [] => false
  | c :: cs, d :: ds =>
    if c.toNat < d.toNat then true
    else if d.toNat < c.toNat then false
    else strLeB cs ds

/-- `sorted()`'s comparison on Python strings. -/
def strLe (a b : String) : Prop := strLeB a.data b.data = true

instance : DecidableRel strLe :=
  fun a b => inferInstanceAs (Decidable (strLeB a.data b.data = true))

instance : IsTotal String strLe :=
  ⟨fun a b => by
    unfold strLe
    have H : ∀ (x y : List Char), strLeB x y = true ∨ strLeB y x = true := by
      intro x
      induction x with
      | nil => intro y; exact Or.inl rfl
      | cons cx xs ih =>
        intro y
        cases y with
        | nil => exact Or.inr rfl
        | cons cy ys =>
          rcases Nat.lt_trichotomy cx.toNat cy.toNat with h | h | h
          · exact Or.inl (by simp [strLeB, h])
          · rcases ih ys with h2 | h2
            · exact Or.inl (by
                simp [strLeB, show ¬ cx.toNat < cy.toNat by omega,
                  show ¬ cy.toNat < cx.toNat by omega, h2])
            · exact Or.inr (by
                simp [strLeB, show ¬ cx.toNat < cy.toNat by omega,
                  show ¬ cy.toNat < cx.toNat by omega, h2])
          · exact Or.inr (by simp [strLeB, h])
    exact H a.data b.data⟩

instance : IsTrans String strLe :=
  ⟨fun a b c => by
    unfold strLe
    have H : ∀ (x y z : List Char), strLeB x y = true → strLeB y z = true →
        strLeB x z = true := by
      intro x
      induction x with
      | nil => intro y z _ _; rfl
      | cons cx xs ih =>
        intro y z hxy hyz
        cases y with
        | nil => exact absurd hxy (by simp [strLeB])
        | cons cy ys =>
          cases z with
          | nil => exact absurd hyz (by simp [strLeB])
          | cons cz zs =>
            rcases Nat.lt_trichotomy cx.toNat cy.toNat with h1 | h1 | h1
            · rcases Nat.lt_trichotomy cy.toNat cz.toNat with h2 | h2 | h2
              · simp [strLeB, show cx.toNat < cz.toNat by omega]
              · simp [strLeB, show cx.toNat < cz.toNat by omega]
              · exact absurd hyz (by
                  simp [strLeB, show ¬ cy.toNat < cz.toNat by omega, h2])
            · rcases Nat.lt_trichotomy cy.toNat cz.toNat with h2 | h2 | h2
              · simp [strLeB, show cx.toNat < cz.toNat by omega]
              · have hxy2 : strLeB xs ys = true := by
                  simpa [strLeB, show ¬ cx.toNat < cy.toNat by omega,
                    show ¬ cy.toNat < cx.toNat by omega] using hxy
                have hyz2 : strLeB ys zs = true := by
                  simpa [strLeB, show ¬ cy.toNat < cz.toNat by omega,
                    show ¬ cz.toNat < cy.toNat by omega] using hyz
                simp [strLeB, show ¬ cx.toNat < cz.toNat by omega,
                  show ¬ cz.toNat < cx.toNat by omega, ih ys zs hxy2 hyz2]
              · exact absurd hyz (by
                  simp [strLeB, show ¬ cy.toNat < cz.toNat by omega, h2])
            · exact absurd hxy (by
                simp [strLeB, show ¬ cx.toNat < cy.toNat by omega, h1])
    exact H a.data b.data c.data⟩

/-- Python's `sorted` on `(key, value)` pairs of strings compares tuples
lexicographically (key strictly smaller, or keys equal and value no
larger); since that order is antisymmetric, the stable sort is modeled by
insertion sort with the same total order. -/
def pairLe (a b : List Char × List Char) : Prop :=
  strLeB b.1 a.1 = false ∨ (a.1 = b.1 ∧ strLeB a.2 b.2 = true)

instance : DecidableRel pairLe := fun a b => by
  unfold pairLe; infer_instance

def sortPairs (l : List (List Char × List Char)) :
    List (List Char × List Char) :=
  List.insertionSort pairLe l

/-- The query-rebuild step of `normalize_url`: parse, drop tracking keys,
sort, re-encode. -/
def normQuery (query : List Char) : List Char :=
  urlencodeL (sortPairs ((parseQsl query).filter
    (fun kv => !dropParams.contains (pyLowerL kv.1))))

/-- `scripts/dupe_filter.py` `normalize_url` (the `None` input returns `""`
before this function is entered; strings only here).  The `except` branch
returns the stripped URL unchanged. -/
def normalizeUrlL (url0 : List Char) : List Char :=
  let url := pyStripL url0
  if url = [] then []
  else
    match urlsplitL url [] with
    | none => url
    | some parts =>
      urlunsplitL (pyLowerL parts.scheme) (pyLowerL parts.netloc)
        parts.path (normQuery parts.query) []

def normalize_url (s : String) : String := ⟨normalizeUrlL s.data⟩

-- ===================== 6. merge_csvs (dupe_filter.py) =====================

/-- `DEDUP_COL` of dupe_filter.py. -/
def DEDUP_COL : String := "page_url"

/-- One input CSV snapshot as `csv.DictReader` presents it: a filename, its
mtime (timestamps compare by `>` only, so they are modeled as naturals),
the header, and the data rows, each an association list whose keys are
drawn from `fieldnames`.  An empty `fieldnames` models a headerless file
(`reader.fieldnames` is `None`). -/
structure CsvFile where
  fname : String
  mtime : Nat
  fieldnames : List String
  rows : List (List (String × String))
  deriving Repr

/-- Python `row.get(col, "")` (`csv.DictReader` rows have unique keys, so
first-match lookup models the dict). -/
def rowGet (row : List (String × String)) (col : String) : String :=
  match row.find? (fun kv => kv.1 = col) with
  | some kv => kv.2
  | none => ""

/-- One value of the `seen` dict: `seen[key] = (mtime, fname, row)`. -/
structure SeenEntry where
  key : String
  mtime : Nat
  fname : String
  row : List (String × String)
  deriving Repr

/-- The fold state of the reading loop of `merge_csvs` (`all_columns`,
`seen` in dict insertion order, and the three counters). -/
structure MergeState where
  allColumns : List String
  seen : List SeenEntry
  totalRows : Nat
  skipped : Nat
  dupes : Nat
  deriving Repr

def initMergeState : MergeState := ⟨[], [], 0, 0, 0⟩

def seenHas (seen : List SeenEntry) (key : String) : Bool :=
  seen.any (·.key = key)

/-- The `if mtime > prev_mtime` in-place dict update: the entry keeps its
position, the newer row wins on strictly greater mtime. -/
def seenReplace (seen : List SeenEntry) (e : SeenEntry) : List SeenEntry :=
  seen.map (fun o => if o.key = e.key then (if e.mtime > o.mtime then e else o) else o)

/-- The body of `for row in reader` (lines 98-114 of dupe_filter.py). -/
def processRow (fname : String) (mtime : Nat) (st : MergeState)
    (row : List (String × String)) : MergeState :=
  let st := { st with totalRows := st.totalRows + 1 }
  let normPage := normalize_url (rowGet row DEDUP_COL)
  if normPage = "" then { st with skipped := st.skipped + 1 }
  else if seenHas st.seen normPage then
    { st with dupes := st.dupes + 1,
              seen := seenReplace st.seen ⟨normPage, mtime, fname, row⟩ }
  else { st with seen := st.seen ++ [⟨normPage, mtime, fname, row⟩] }

/-- Append the columns of one header to `all_columns`, keeping first
occurrences (lines 88-91). -/
def trackColumns (acc : List String) (fieldnames : List String) : List String :=
  fieldnames.foldl (fun acc c => if acc.contains c then acc else acc ++ [c]) acc

/-- Per-file step of `merge_csvs`: headerless files are skipped before
column tracking; files without the dedup column are skipped (with a
warning) after it. -/
def processFile (st : MergeState) (f : CsvFile) : MergeState :=
  if f.fieldnames = [] then st
  else
    let st := { st with allColumns := trackColumns st.allColumns f.fieldnames }
    if !f.fieldnames.contains DEDUP_COL then st
    else f.rows.foldl (processRow f.fname f.mtime) st

/-- The reading phase of `merge_csvs` over the files in the order
`list_csv_files()` yields them (the claims below hold for every order). -/
def mergeState (files : List CsvFile) : MergeState :=
  files.foldl processFile initMergeState

/-- `out_columns = all_columns + the three extras` (appended unless already
present). -/
def outColumns (allColumns : List String) : List String :=
  trackColumns allColumns ["normalized_page_url", "source_file", "source_file_mtime"]

/-- `sorted(seen.items(), key=lambda kv: kv[1][0], reverse=True)`:
Python's sort is stable, so it is modeled by insertion sort under the
non-strict "newer or equal" comparison, which is the unique stable
descending order. -/
def newerEq (a b : SeenEntry) : Prop := b.mtime ≤ a.mtime

instance : DecidableRel newerEq := fun a b => by unfold newerEq; infer_instance

def mergeItems (files : List CsvFile) : List SeenEntry :=
  List.insertionSort newerEq (mergeState files).seen

/-- Python dict assignment `d[k] = v` on an association-list model:
replace in place or append. -/
def assocSet (l : List (String × String)) (k v : String) :
    List (String × String) :=
  if l.any (·.1 = k) then l.map (fun kv => if kv.1 = k then (k, v) else kv)
  else l ++ [(k, v)]

/-- `datetime.fromtimestamp(mtime).strftime(...)` stand-in: any injective
rendering of the timestamp (the claims only use that the value is carried). -/
def renderMtime (mtime : Nat) : String := toString mtime

/-- One written output row (lines 130-135): the row projected to
`all_columns`, then the three provenance assignments. -/
def outRowFor (allColumns : List String) (e : SeenEntry) :
    List (String × String) :=
  assocSet (assocSet (assocSet (allColumns.map fun c => (c, rowGet e.row c))
    "normalized_page_url" e.key) "source_file" e.fname)
    "source_file_mtime" (renderMtime e.mtime)

/-- The full written dataset of `merge_csvs` (header excluded). -/
def mergeRows (files : List CsvFile) : List (List (String × String)) :=
  (mergeItems files).map (outRowFor (mergeState files).allColumns)

/-- The normalized dedup key of one row (`normalize_url(row.get("page_url",""))`). -/
def keyOf (row : List (String × String)) : String :=
  normalize_url (rowGet row DEDUP_COL)

/-- Whether the merge reads a file's rows at all: a non-`None` header that
contains the dedup column. -/
def rowEligible (f : CsvFile) : Bool :=
  f.fieldnames ≠ [] && f.fieldnames.contains DEDUP_COL

/-- The `seen`-component of one row step (projection of `processRow`). -/
def seenStep (fname : String) (mtime : Nat) (seen : List SeenEntry)
    (row : List (String × String)) : List SeenEntry :=
  let key := keyOf row
  if key = "" then seen
  else if seenHas seen key then seenReplace seen ⟨key, mtime, fname, row⟩
  else seen ++ [⟨key, mtime, fname, row⟩]

/-- The `seen`-component of one file step (projection of `processFile`). -/
def fileSeen (seen : List SeenEntry) (f : CsvFile) : List SeenEntry :=
  if rowEligible f then f.rows.foldl (seenStep f.fname f.mtime) seen else seen

def seenOf (files : List CsvFile) : List SeenEntry := files.foldl fileSeen []

/-- One visited row together with its file's name and mtime. -/
abbrev RowTriple := String × Nat × List (String × String)

def seenStepT (s : List SeenEntry) (t : RowTriple) : List SeenEntry :=
  seenStep t.1 t.2.1 s t.2.2

def seenFoldT (l : List RowTriple) : List SeenEntry := l.foldl seenStepT []

/-- The sequence of rows the reading loop actually visits. -/
def visited (files : List CsvFile) : List RowTriple :=
  files.flatMap (fun f =>
    if rowEligible f then f.rows.map (fun r => (f.fname, f.mtime, r)) else [])

instance : IsTotal SeenEntry newerEq :=
  ⟨fun a b => by unfold newerEq; omega⟩

instance : IsTrans SeenEntry newerEq :=
  ⟨fun a b c h1 h2 => by unfold newerEq at *; omega⟩

-- ===================== 7. decode_packed_eval (missav.py) =====================

/-- `int(s)` for base-10 string literals: optional sign, ASCII digits with
single underscores between digits (non-ASCII unicode digits are not
modeled; no claim involves them). -/
def pyDigitsGo (acc : Nat) : List Char → Option Nat
  | [] => some acc
  | '_' :: c :: cs =>
    if isAsciiDigit c then pyDigitsGo (acc * 10 + (c.toNat - 0x30)) cs else none
  | ['_'] => none
  | c :: cs =>
    if isAsciiDigit c then pyDigitsGo (acc * 10 + (c.toNat - 0x30)) cs else none

def pyDigits : List Char → Option Nat
  | [] => none
  | c :: cs =>
    if isAsciiDigit c then pyDigitsGo (c.toNat - 0x30) cs else none

def pyIntParse (l : List Char) : Option Int :=
  match pyStripL l with
  | '+' :: rest => (pyDigits rest).map Int.ofNat
  | '-' :: rest => (pyDigits rest).map (fun n => -(n : Int))
  | rest => (pyDigits rest).map Int.ofNat

/-- `bytes.decode("unicode_escape")` on a UTF-8 byte list.  `none` models
`UnicodeDecodeError` (truncated `\x`/`\u`/`\U`, `\` at end, `\N`; the
`\N{name}` lookup is not modeled).  Non-escape bytes map to their Latin-1
code points; `\u` surrogate values, which Lean `Char` cannot carry, map to
`Char.ofNat`'s fallback. -/
def unicodeEscapeGo : Nat → List Nat → Option (List Char)
  | 0, _ => some []
  | _ + 1, [] => some []
  | fuel + 1, b :: bs =>
    if b ≠ 0x5C then (unicodeEscapeGo fuel bs).map (Char.ofNat b :: ·)
    else
      match bs with
      | [] => none
      | e :: bs2 =>
        if e = 0x0A then unicodeEscapeGo fuel bs2
        else if e = 0x5C then (unicodeEscapeGo fuel bs2).map ('\\' :: ·)
        else if e = 0x27 then (unicodeEscapeGo fuel bs2).map ('\x27' :: ·)
        else if e = 0x22 then (unicodeEscapeGo fuel bs2).map ('"' :: ·)
        else if e = 0x62 then (unicodeEscapeGo fuel bs2).map ('\x08' :: ·)
        else if e = 0x66 then (unicodeEscapeGo fuel bs2).map ('\x0c' :: ·)
        else if e = 0x74 then (unicodeEscapeGo fuel bs2).map ('\t' :: ·)
        else if e = 0x6E then (unicodeEscapeGo fuel bs2).map ('\n' :: ·)
        else if e = 0x72 then (unicodeEscapeGo fuel bs2).map ('\r' :: ·)
        else if e = 0x76 then (unicodeEscapeGo fuel bs2).map ('\x0b' :: ·)
        else if e = 0x61 then (unicodeEscapeGo fuel bs2).map ('\x07' :: ·)
        else if 0x30 ≤ e && e ≤ 0x37 then
          match bs2 with
          | o2 :: o3 :: bs3 =>
            if 0x30 ≤ o2 && o2 ≤ 0x37 then
              if 0x30 ≤ o3 && o3 ≤ 0x37 then
                (unicodeEscapeGo fuel bs3).map
                  (Char.ofNat ((e - 0x30) * 64 + (o2 - 0x30) * 8 + (o3 - 0x30)) :: ·)
              else (unicodeEscapeGo fuel (o3 :: bs3)).map
                (Char.ofNat ((e - 0x30) * 8 + (o2 - 0x30)) :: ·)
            else (unicodeEscapeGo fuel (o2 :: o3 :: bs3)).map
              (Char.ofNat (e - 0x30) :: ·)
          | [o2] =>
            if 0x30 ≤ o2 && o2 ≤ 0x37 then
              (unicodeEscapeGo fuel []).map
                (Char.ofNat ((e - 0x30) * 8 + (o2 - 0x30)) :: ·)
            else (unicodeEscapeGo fuel [o2]).map (Char.ofNat (e - 0x30) :: ·)
          | [] => some [Char.ofNat (e - 0x30)]
        else if e = 0x78 then
          match bs2 with
          | h1 :: h2 :: bs3 =>
            if isHexDigit (Char.ofNat h1) && isHexDigit (Char.ofNat h2) then
              (unicodeEscapeGo fuel bs3).map
                (Char.ofNat (hexVal (Char.ofNat h1) * 16 + hexVal (Char.ofNat h2)) :: ·)
            else none
          | _ => none
        else if e = 0x75 then
          match bs2 with
          | h1 :: h2 :: h3 :: h4 :: bs3 =>
            if [h1, h2, h3, h4].all (fun h => isHexDigit (Char.ofNat h)) then
              (unicodeEscapeGo fuel bs3).map
                (Char.ofNat (hexVal (Char.ofNat h1) * 4096 + hexVal (Char.ofNat h2) * 256 +
                  hexVal (Char.ofNat h3) * 16 + hexVal (Char.ofNat h4)) :: ·)
            else none
          | _ => none
        else if e = 0x55 then
          match bs2 with
          | h1 :: h2 :: h3 :: h4 :: h5 :: h6 :: h7 :: h8 :: bs3 =>
            if [h1, h2, h3, h4, h5, h6, h7, h8].all (fun h => isHexDigit (Char.ofNat h)) then
              let v := hexVal (Char.ofNat h1) * 0x10000000 + hexVal (Char.ofNat h2) * 0x1000000 +
                hexVal (Char.ofNat h3) * 0x100000 + hexVal (Char.ofNat h4) * 0x10000 +
                hexVal (Char.ofNat h5) * 0x1000 + hexVal (Char.ofNat h6) * 0x100 +
                hexVal (Char.ofNat h7) * 16 + hexVal (Char.ofNat h8)
              if v ≤ 0x10FFFF then (unicodeEscapeGo fuel bs3).map (Char.ofNat v :: ·)
              else none
            else none
          | _ => none
        else if e = 0x4E then none
        else (unicodeEscapeGo fuel bs2).map (fun t => '\\' :: Char.ofNat e :: t)

def unicodeEscape (bytes : List Nat) : Option (List Char) :=
  unicodeEscapeGo bytes.length bytes

/-- `unquote_js_string` of missav.py: strip one layer of matching quotes,
then UTF-8 encode and unicode-escape decode. -/
def unquoteJsString (s : List Char) : Option (List Char) :=
  let inner :=
    if 2 ≤ s.length &&
        (s.head? = some '\x27' || s.head? = some '"') && s.getLast? = s.head?
    then (s.drop 1).dropLast else s
  unicodeEscape (utf8Encode inner)

/-- `int_to_base` of missav.py, generalised to the `int` arguments the
decoder can pass it.  `none` models the non-returning cases for `n > 0`:
base 0 (`ZeroDivisionError`) and base 1 (the `while` loop never ends).
For `n < 0` the loop body never runs and `""` is returned; digits are
`str(d)` for `d < 10` (which is multi-character for the negative `d`
arising from negative bases) and `chr(ord("a") + d - 10)` otherwise. -/
def digitRepr (d : Int) : List Char :=
  if d < 10 then (toString d).data
  else [Char.ofNat (0x61 + (d - 10).toNat)]

def intToBaseGo (base : Int) : Nat → Int → List (List Char)
  | 0, _ => []
  | fuel + 1, n =>
    if n > 0 then digitRepr (n.fmod base) :: intToBaseGo base fuel (n.fdiv base)
    else []

def int_to_base (n : Int) (base : Int) : Option (List Char) :=
  if n = 0 then some ['0']
  else if 0 < n && (base = 0 || base = 1) then none
  else some ((intToBaseGo base (n.toNat + 1) n).reverse.flatten)

/-- Word characters of the regex `\b` boundary (the ASCII core of `\w`;
non-ASCII letters are not modeled, and no claim involves them). -/
def isWordChar (c : Char) : Bool :=
  isAsciiAlpha c || isAsciiDigit c || c = '_'

def isWordOpt : Option Char → Bool
  | some c => isWordChar c
  | none => false

/-- `\b` between two (possibly absent) neighbouring characters. -/
def wordBoundary (a b : Option Char) : Bool := isWordOpt a != isWordOpt b

/-- Whether `\b<key>\b` matches at the head of `l`, where `prev` is the
character just before this position. -/
def wwMatchesAt (key : List Char) (prev : Option Char) (l : List Char) : Bool :=
  isPfxL key l && wordBoundary prev key.head? &&
    wordBoundary key.getLast? (l.drop key.length).head?

/-- `re.sub(r"\b" + re.escape(key) + r"\b", repl, s)` with a fixed
replacement string: scan left to right, replace non-overlapping matches.
`fuel ≥ length` always suffices (each step consumes at least one
character; `key` is never empty at the call sites). -/
def wholeWordSubGo (key repl : List Char) : Nat → Option Char → List Char → List Char
  | 0, _, l => l
  | _ + 1, _, [] => []
  | fuel + 1, prev, c :: cs =>
    if key ≠ [] && wwMatchesAt key prev (c :: cs) then
      repl ++ wholeWordSubGo key repl fuel key.getLast? ((c :: cs).drop key.length)
    else c :: wholeWordSubGo key repl fuel (some c) cs

def wholeWordSub (key repl s : List Char) : List Char :=
  wholeWordSubGo key repl s.length none s

/-- `sre_parse.parse_template` for a pattern with zero groups whose whole
match is always `key`: processes the replacement string's escapes
(`none` models `re.error`: bad escape, invalid group reference). -/
def parseTemplateGo (key : List Char) : Nat → List Char → Option (List Char)
  | 0, _ => some []
  | _ + 1, [] => some []
  | fuel + 1, '\\' :: rest =>
    match rest with
    | [] => none
    | c :: rest2 =>
      if c = 'g' then
        match rest2 with
        | '<' :: rest3 =>
          match splitFirstL '>' rest3 with
          | some (name, rest4) =>
            if name = ['0'] then (parseTemplateGo key fuel rest4).map (key ++ ·)
            else none
          | none => none
        | _ => none
      else if c = '0' then
        match rest2 with
        | o2 :: o3 :: rest3 =>
          if 0x30 ≤ o2.toNat && o2.toNat ≤ 0x37 then
            if 0x30 ≤ o3.toNat && o3.toNat ≤ 0x37 then
              (parseTemplateGo key fuel rest3).map
                (Char.ofNat ((o2.toNat - 0x30) * 8 + (o3.toNat - 0x30)) :: ·)
            else (parseTemplateGo key fuel (o3 :: rest3)).map
              (Char.ofNat (o2.toNat - 0x30) :: ·)
          else (parseTemplateGo key fuel (o2 :: o3 :: rest3)).map (Char.ofNat 0 :: ·)
        | [o2] =>
          if 0x30 ≤ o2.toNat && o2.toNat ≤ 0x37 then
            some [Char.ofNat (o2.toNat - 0x30)]
          else (parseTemplateGo key fuel [o2]).map (Char.ofNat 0 :: ·)
        | [] => some [Char.ofNat 0]
      else if isAsciiDigit c then
        match rest2 with
        | d2 :: d3 :: _ =>
          if isAsciiDigit d2 then
            if c.toNat ≤ 0x37 && 0x30 ≤ d2.toNat && d2.toNat ≤ 0x37 &&
                0x30 ≤ d3.toNat && d3.toNat ≤ 0x37 then
              let v := (c.toNat - 0x30) * 64 + (d2.toNat - 0x30) * 8 + (d3.toNat - 0x30)
              if v ≤ 255 then
                (parseTemplateGo key fuel ((rest2.drop 2))).map (Char.ofNat v :: ·)
              else none
            else none
          else none
        | [d2] => if isAsciiDigit d2 then none else none
        | [] => none
      else if c = 'n' then (parseTemplateGo key fuel rest2).map ('\n' :: ·)
      else if c = 'r' then (parseTemplateGo key fuel rest2).map ('\r' :: ·)
      else if c = 't' then (parseTemplateGo key fuel rest2).map ('\t' :: ·)
      else if c = 'v' then (parseTemplateGo key fuel rest2).map ('\x0b' :: ·)
      else if c = 'f' then (parseTemplateGo key fuel rest2).map ('\x0c' :: ·)
      else if c = 'a' then (parseTemplateGo key fuel rest2).map ('\x07' :: ·)
      else if c = 'b' then (parseTemplateGo key fuel rest2).map ('\x08' :: ·)
      else if c = '\\' then (parseTemplateGo key fuel rest2).map ('\\' :: ·)
      else if isAsciiAlpha c then none
      else (parseTemplateGo key fuel rest2).map (fun t => '\\' :: c :: t)
  | fuel + 1, c :: rest => (parseTemplateGo key fuel rest).map (c :: ·)

def parseTemplate (key tmpl : List Char) : Option (List Char) :=
  parseTemplateGo key tmpl.length tmpl

/-- One iteration of the substitution loop (lines 149-152 of missav.py). -/
def substStep (a : Int) (k : List (List Char)) (decoded : List Char) (n : Nat) :
    Except Unit (List Char) :=
  match int_to_base (n : Int) a with
  | none => .error ()
  | some key =>
    let val := if n < k.length then (if k.getD n [] ≠ [] then k.getD n [] else key)
               else key
    match parseTemplate key val with
    | none => .error ()
    | some repl => .ok (wholeWordSub key repl decoded)

/-- The substitution loop: `for n in range(c - 1, -1, -1)`. -/
def substDown (p : List Char) (a c : Int) (k : List (List Char)) :
    Except Unit (List Char) :=
  (List.range c.toNat).reverse.foldlM (substStep a k) p

/-- CPython `while i < len(chunk) and depth > 0` paren scan (lines 67-78):
returns the argument region excluding its closing parenthesis, or `none`
when the depth never returns to zero. -/
def parenScanGo : Nat → List Char → Option (List Char)
  | _, [] => none
  | depth, c :: cs =>
    let d2 := if c = '(' then depth + 1 else if c = ')' then depth - 1 else depth
    if d2 = 0 then some []
    else (parenScanGo d2 cs).map (c :: ·)

/-- The state of the hand-rolled argument scanner (lines 80-118). -/
structure ArgScanState where
  parts : List (List Char)
  cur : List Char
  inSq : Bool
  inDq : Bool
  esc : Bool
  depth : Int

def argScanStep (st : ArgScanState) (ch : Char) : ArgScanState :=
  if st.esc then { st with cur := st.cur ++ [ch], esc := false }
  else if ch = '\\' then { st with cur := st.cur ++ [ch], esc := true }
  else if ch = '\x27' && !st.inDq then
    { st with inSq := !st.inSq, cur := st.cur ++ [ch] }
  else if ch = '"' && !st.inSq then
    { st with inDq := !st.inDq, cur := st.cur ++ [ch] }
  else if ch = '(' && !st.inSq && !st.inDq then
    { st with depth := st.depth + 1, cur := st.cur ++ [ch] }
  else if ch = ')' && !st.inSq && !st.inDq then
    { st with depth := st.depth - 1, cur := st.cur ++ [ch] }
  else if ch = ',' && !st.inSq && !st.inDq && st.depth = 0 then
    { st with parts := st.parts ++ [pyStripL st.cur], cur := [] }
  else { st with cur := st.cur ++ [ch] }

def argScanFull (argsStr : List Char) : ArgScanState :=
  argsStr.foldl argScanStep ⟨[], [], false, false, false, 0⟩

def argScan (argsStr : List Char) : List (List Char) :=
  let st := argScanFull argsStr
  if st.cur ≠ [] then st.parts ++ [pyStripL st.cur] else st.parts

/-- `k_part.split(".split")[0]`. -/
def takeBeforeSub (pat l : List Char) : List Char :=
  match findSubL pat l with
  | some i => l.take i
  | none => l

/-- The anchored regex on the dictionary argument
(`('(?:\\')|[^'])*'|"..."\)\.split\('\\|'\)`): a quoted JS literal whose
`\<quote>` pairs are consumed eagerly (the backtracking the real engine
could do differs only on inputs where the eager parse fails), followed by
the literal text `.split('\|')`.  Returns group 1 (quotes included). -/
def jsQuotedGo (qu : Char) : List Char → Option (List Char × List Char)
  | [] => none
  | '\\' :: c2 :: cs2 =>
    if c2 = qu then (jsQuotedGo qu cs2).map (fun pr => ('\\' :: c2 :: pr.1, pr.2))
    else (jsQuotedGo qu (c2 :: cs2)).map (fun pr => ('\\' :: pr.1, pr.2))
  | c :: cs =>
    if c = qu then some ([], cs)
    else if c = '\\' then none
    else (jsQuotedGo qu cs).map (fun pr => (c :: pr.1, pr.2))

def splitPipeLit : List Char := ".split(\x27\\|\x27)".data

def regexKMatch (k : List Char) : Option (List Char) :=
  match k with
  | c :: rest =>
    if c = '\x27' || c = '"' then
      match jsQuotedGo c rest with
      | some (content, rest2) =>
        if isPfxL splitPipeLit rest2 then some (c :: content ++ [c]) else none
      | none => none
    else none
  | [] => none

def startMarker : List Char := "eval(function(p,a,c,k,e,d)".data

def returnMarker : List Char := "return p\x7d(".data

/-- The dictionary-string stage (lines 136-146): regex match or
`.split`-prefix fallback; both call `unquote_js_string` outside any
`try`, so a decode failure propagates (`Except.error`). -/
def kStringOf (kPart : List Char) : Except Unit (List Char) :=
  match regexKMatch kPart with
  | some g1 =>
    match unquoteJsString g1 with
    | some ks => .ok ks
    | none => .error ()
  | none =>
    match unquoteJsString (pyStripL (takeBeforeSub ".split".data kPart)) with
    | some ks => .ok ks
    | none => .error ()

/-- The payload stage (lines 131-134): `unquote_js_string` under `try`,
falling back to stripping quote characters. -/
def pOf (pPart : List Char) : List Char :=
  match unquoteJsString pPart with
  | some p => p
  | none => pyStripCharsL ['\x27', '"'] pPart

/-- `payload.find(start_marker)`. -/
def pkStart (payload : List Char) : Option Nat := findSubL startMarker payload

/-- `chunk = payload[start:start + 20000]`. -/
def pkChunk (payload : List Char) (start : Nat) : List Char :=
  (payload.drop start).take 20000

/-- Locate the start of the argument list in the chunk: after
`"return p}("`, or after the first `")("` when that marker is absent. -/
def pkArgStart (chunk : List Char) : Option Nat :=
  match findSubL returnMarker chunk with
  | some idx => some (idx + returnMarker.length)
  | none => (findSubL [')', '('] chunk).map (· + 2)

/-- The raw argument region `args_str` (lines 48-78): `none` on a missing
marker, a missing argument-list start, or an unterminated parenthesis
scan. -/
def packedArgsStr (payload : List Char) : Option (List Char) :=
  match pkStart payload with
  | none => none
  | some start =>
    let chunk := pkChunk payload start
    match pkArgStart chunk with
    | none => none
    | some startArgs => parenScanGo 1 (chunk.drop startArgs)

/-- The argument-extraction stage of `decode_packed_eval` (lines 48-118):
everything before integer conversion.  Returns the scanned parts. -/
def packedParts (payload : List Char) : Option (List (List Char)) :=
  (packedArgsStr payload).map argScan

/-- `decode_packed_eval` (missav.py lines 48-154).  `Except.ok none`
models `return None`; `Except.error ()` models an uncaught exception
(unquoting the dictionary string, a bad replacement template, base zero)
or the base-one nonterminating loop. -/
def decodePackedEval (payload : List Char) : Except Unit (Option (List Char)) :=
  match packedParts payload with
  | none => .ok none
  | some parts =>
    if parts.length < 4 then .ok none
    else
      match pyIntParse (parts.getD 1 []), pyIntParse (parts.getD 2 []) with
      | some a, some c =>
        let p := pOf (parts.getD 0 [])
        match kStringOf (parts.getD 3 []) with
        | .error e => .error e
        | .ok kString =>
          match substDown p a c (splitOnCharL '|' kString) with
          | .error e => .error e
          | .ok decoded => .ok (some decoded)
      | _, _ => .ok none

def decode_packed_eval (payload : String) : Except Unit (Option String) :=
  (decodePackedEval payload.data).map (fun r => r.map (⟨·⟩))

/-- The spec-side textual key: `n` written in base `a`, digits `0`-`9`
then lowercase letters for digit values at least ten (stated from the
spec's words, to be compared with the source's `int_to_base`). -/
def specKeyChar (d : Nat) : Char :=
  if d < 10 then Char.ofNat (0x30 + d) else Char.ofNat (0x61 + d - 10)

/-- Little-endian base-`a` digits of `n` (fuel-driven; `fuel > n`
suffices for `a ≥ 2`; agrees with `Nat.digits`). -/
def specDigits (a : Nat) : Nat → Nat → List Nat
  | 0, _ => []
  | fuel + 1, n => if n = 0 then [] else n % a :: specDigits a fuel (n / a)

def specKey (a : Int) (n : Nat) : List Char :=
  if n = 0 then ['0']
  else ((specDigits a.toNat (n + 1) n).map specKeyChar).reverse

/-- The spec-side substitution step: the key written per the claim's digit
alphabet, replaced whole-word by the dictionary entry at index `n` (the
entry processed as the regex replacement template the code hands to
`re.sub`), or by the key itself when that slot is empty or absent. -/
def specSubstStep (a : Int) (k : List (List Char)) (decoded : List Char)
    (n : Nat) : Except Unit (List Char) :=
  let key := specKey a n
  let val := if n < k.length then (if k.getD n [] ≠ [] then k.getD n [] else key)
             else key
  match parseTemplate key val with
  | none => .error ()
  | some repl => .ok (wholeWordSub key repl decoded)

/-- The spec-side loop: indices counting down from `c - 1` to `0`. -/
def specSubstDown (p : List Char) (a c : Int) (k : List (List Char)) :
    Except Unit (List Char) :=
  (List.range c.toNat).reverse.foldlM (specSubstStep a k) p

/-- The substitution exactly as the claim words it: the dictionary entry
is inserted literally (no replacement-template processing). -/
def claimLiteralStep (a : Int) (k : List (List Char)) (decoded : List Char)
    (n : Nat) : List Char :=
  let key := specKey a n
  let val := if n < k.length then (if k.getD n [] ≠ [] then k.getD n [] else key)
             else key
  wholeWordSub key val decoded

def claimLiteralSubst (p : List Char) (a c : Int) (k : List (List Char)) :
    List Char :=
  (List.range c.toNat).reverse.foldl (claimLiteralStep a k) p

-- ===================== 8. fetching (missav.py / scraper.py) =====================

/-- One backend outcome of `self.session.get(url)` inside
`Fetcher.fetch` / `fetch_aiohttp`: a response with status and text, or an
exception from the awaited call (cancellation, which is re-raised and is a
scheduler action rather than a fetch outcome, is outside the oracle's
alphabet). -/
inductive AioOutcome where
  | resp (status : Nat) (text : String)
  | exn
  deriving Repr

/-- One outcome of `crawler.arun(url)` (crawl4ai backend). -/
inductive CrawlOutcome where
  | res (success : Bool) (html : String)
  | exn
  deriving Repr

/-- A result of Python code that may raise. -/
inductive PyResult (α : Type) where
  | ok (a : α)
  | raised
  deriving Repr, DecidableEq

/-- The body of the `try` in `Fetcher.fetch` (missav.py lines 227-240),
session branch: non-200 is `None`, otherwise the text. -/
def fetchTryBody (o : AioOutcome) : PyResult (Option String) :=
  match o with
  | .resp status text => .ok (if status ≠ 200 then none else some text)
  | .exn => .raised

/-- `Fetcher.fetch` (session branch): the `except Exception: return None`
wrapper around the body. -/
def fetcherFetch (o : AioOutcome) : PyResult (Option String) :=
  match fetchTryBody o with
  | .raised => .ok none
  | .ok v => .ok v

/-- `Fetcher.fetch`, crawler branch: failures and exceptions give `None`,
success gives `res.html or ""`. -/
def fetcherFetchCrawl (o : CrawlOutcome) : PyResult (Option String) :=
  match o with
  | .res success html => .ok (if success then some html else none)
  | .exn => .ok none

/-- Python truthiness of the fetched html: `if html:` (an empty string is
a failure and triggers a retry). -/
def truthy : Option String → Bool
  | some s => s ≠ ""
  | none => false

/-- `fetch_with_retries` of missav.py (lines 248-268) over an oracle
giving each attempt's backend outcome; the sleep between attempts is a
pure suspension.  `retries` is the `retries` parameter (3 at call sites). -/
def fetchWithRetriesGo (oracle : Nat → AioOutcome) (attempt : Nat) :
    Nat → PyResult (Option String)
  | 0 =>
    match fetcherFetch (oracle attempt) with
    | .raised => .raised
    | .ok html => if truthy html then .ok html else .ok none
  | left + 1 =>
    match fetcherFetch (oracle attempt) with
    | .raised => .raised
    | .ok html =>
      if truthy html then .ok html
      else fetchWithRetriesGo oracle (attempt + 1) left

def fetchWithRetries (oracle : Nat → AioOutcome) (retries : Nat) :
    PyResult (Option String) :=
  fetchWithRetriesGo oracle 0 retries

/-- scraper.py `RETRIES`. -/
def RETRIES : Nat := 3

/-- `fetch_aiohttp` of scraper.py (lines 72-90): additionally rejects
Cloudflare challenge pages by substring. -/
def fetchAiohttpScraper (o : AioOutcome) : PyResult (Option String) :=
  match o with
  | .exn => .ok none
  | .resp status text =>
    .ok (if status ≠ 200 then none
         else if containsSub (pyLower text).data "cf-browser-verification".data
         then none else some text)

/-- `fetch_crawl4ai` of scraper.py (lines 93-99): everything is wrapped in
`try`, `res.html if res and res.html else None`. -/
def fetchCrawl4aiScraper (o : CrawlOutcome) : PyResult (Option String) :=
  match o with
  | .exn => .ok none
  | .res _ html => .ok (if html ≠ "" then some html else none)

/-- `fetch_with_retries` of scraper.py (lines 102-118): `RETRIES + 1`
attempts on the aiohttp backend; on the final attempt the crawl4ai
fallback's result is returned directly. -/
def scraperFetchGo (oracle : Nat → AioOutcome) (fallback : CrawlOutcome)
    (attempt : Nat) : Nat → PyResult (Option String)
  | 0 =>
    match fetchAiohttpScraper (oracle attempt) with
    | .raised => .raised
    | .ok html =>
      if truthy html then .ok html else fetchCrawl4aiScraper fallback
  | left + 1 =>
    match fetchAiohttpScraper (oracle attempt) with
    | .raised => .raised
    | .ok html =>
      if truthy html then .ok html
      else scraperFetchGo oracle fallback (attempt + 1) left

def scraperFetchWithRetries (oracle : Nat → AioOutcome)
    (fallback : CrawlOutcome) : PyResult (Option String) :=
  scraperFetchGo oracle fallback 0 RETRIES

-- ===================== 9. urljoin and crawl_listing_posts =====================

/-- `urllib.parse._splitparams` (only called when `;` occurs in the path). -/
def splitParamsL (url : List Char) : List Char × List Char :=
  if url.contains '/' then
    let lastSlash := url.length - 1 - (url.reverse.findIdx (· = '/'))
    match findSubL [';'] (url.drop lastSlash) with
    | some j => (url.take (lastSlash + j), url.drop (lastSlash + j + 1))
    | none => (url, [])
  else
    match findSubL [';'] url with
    | some i => (url.take i, url.drop (i + 1))
    | none => (url, [])

structure ParseResult where
  scheme : List Char
  netloc : List Char
  path : List Char
  params : List Char
  query : List Char
  fragment : List Char
  deriving Repr, DecidableEq

/-- CPython `urllib.parse.urlparse(url, scheme=dflt)`. -/
def urlparseL (url : List Char) (dflt : List Char) : Option ParseResult :=
  (urlsplitL url dflt).map (fun sr =>
    if usesParams.contains sr.scheme && sr.path.contains ';' then
      let pr := splitParamsL sr.path
      ⟨sr.scheme, sr.netloc, pr.1, pr.2, sr.query, sr.fragment⟩
    else ⟨sr.scheme, sr.netloc, sr.path, [], sr.query, sr.fragment⟩)

/-- CPython `urllib.parse.urlunparse`. -/
def urlunparseL (scheme netloc path params query fragment : List Char) :
    List Char :=
  let url := if params ≠ [] then path ++ ';' :: params else path
  urlunsplitL scheme netloc url query fragment

/-- The dot-segment resolution loop of `urljoin`. -/
def resolveSegs (segments : List (List Char)) : List (List Char) :=
  segments.foldl (fun acc seg =>
    if seg = ['.', '.'] then acc.dropLast
    else if seg = ['.'] then acc
    else acc ++ [seg]) []

/-- CPython 3.11 `urllib.parse.urljoin`.  `none` models the `ValueError`
that `urlparse` can raise on a malformed netloc. -/
def urljoinL (base url : List Char) : Option (List Char) :=
  if base = [] then some url
  else if url = [] then some base
  else
    match urlparseL base [] with
    | none => none
    | some b =>
      match urlparseL url b.scheme with
      | none => none
      | some u =>
        if u.scheme ≠ b.scheme || !usesRelative.contains u.scheme then some url
        else
          let netlocStep : Option (List Char) × List Char :=
            if usesNetloc.contains u.scheme then
              if u.netloc ≠ [] then
                (some (urlunparseL u.scheme u.netloc u.path u.params u.query u.fragment),
                 u.netloc)
              else (none, b.netloc)
            else (none, u.netloc)
          match netlocStep.1 with
          | some out => some out
          | none =>
            let netloc := netlocStep.2
            if u.path = [] && u.params = [] then
              let query := if u.query = [] then b.query else u.query
              some (urlunparseL u.scheme netloc b.path b.params query u.fragment)
            else
              let baseParts := splitOnCharL '/' b.path
              let baseParts :=
                if baseParts.getLast? ≠ some [] then baseParts.dropLast
                else baseParts
              let segments :=
                if isPfxL ['/'] u.path then splitOnCharL '/' u.path
                else
                  let segs := baseParts ++ splitOnCharL '/' u.path
                  match segs with
                  | [] => []
                  | s0 :: rest =>
                    match rest.getLast? with
                    | none => [s0]
                    | some lastSeg =>
                      s0 :: ((rest.dropLast.filter (· ≠ [])) ++ [lastSeg])
              let resolved := resolveSegs segments
              let resolved :=
                if segments.getLast? = some ['.'] ||
                   segments.getLast? = some ['.', '.'] then resolved ++ [[]]
                else resolved
              let joined := intercalateL ['/'] resolved
              let path := if joined = [] then ['/'] else joined
              some (urlunparseL u.scheme netloc path u.params u.query u.fragment)

def urljoin (base url : String) : Option String :=
  (urljoinL base.data url.data).map (⟨·⟩)

/-- `sorted()` on Python strings: code-point lexicographic order, modeled
by insertion sort under the executable comparison (antisymmetric, so
stability is immaterial). -/
def sortStrings (l : List String) : List String :=
  List.insertionSort strLe l

/-- Set insertion for `all_posts.add(...)` (membership-based, insertion
order retained; only the sorted image is ever observed). -/
def setInsert (l : List String) (x : String) : List String :=
  if l.contains x then l else l ++ [x]

/-- The state of the listing walk. -/
structure CrawlState where
  allPosts : List String
  seenPages : List String
  deriving Repr

/-- `crawl_listing_posts` (missav.py lines 334-362) over oracles for the
network and the BeautifulSoup layers: `fetchO url` is
`fetch_with_retries`' final value for that url, `postsO html` the list
`extract_posts` returns, and `nextO html` the raw next-page href
`find_next_page_url` selects (before `urljoin`; `none` when no heuristic
matches).  A `ValueError` from `urljoin` (`none`) aborts the crawl. -/
def crawlGo (fetchO : String → Option String) (postsO : String → List String)
    (nextO : String → Option String) :
    Nat → CrawlState → Option String → Option (CrawlState)
  | 0, st, _ => some st
  | _ + 1, st, none => some st
  | fuel + 1, st, some url =>
    if url = "" || st.seenPages.contains url then some st
    else
      let st := { st with seenPages := st.seenPages ++ [url] }
      match fetchO url with
      | none => some st
      | some html =>
        let posts := postsO html
        match posts.foldlM (fun acc p =>
            (urljoin url p).map (setInsert acc)) st.allPosts with
        | none => none
        | some all =>
          let st := { st with allPosts := all }
          match nextO html with
          | none => crawlGo fetchO postsO nextO fuel st none
          | some href =>
            match urljoin url (pyStrip href) with
            | none => none
            | some nxt => crawlGo fetchO postsO nextO fuel st (some nxt)

/-- The full crawl: walk up to `maxPages` pages, return
`sorted(all_posts)`. -/
def crawlListingPosts (fetchO : String → Option String)
    (postsO : String → List String) (nextO : String → Option String)
    (startUrl : String) (maxPages : Nat) : Option (List String) :=
  (crawlGo fetchO postsO nextO maxPages ⟨[], []⟩ (some startUrl)).map
    (fun st => sortStrings st.allPosts)

/-- A nonempty valid scheme text: ASCII letter first, scheme characters
after (the shape `urlsplit` recognises before the first `:`). -/
def validSchemeText (s : List Char) : Bool :=
  match s with
  | [] => false
  | c0 :: tail => isAsciiAlpha c0 && tail.all isSchemeChar

/-- `urlsplit` would assign this URL a scheme of its own (rather than the
default): the observable meaning of "absolute URL". -/
def urlHasScheme (u : List Char) : Bool :=
  (schemeSplit (removeUnsafe (u.dropWhile isC0OrSpace))).isSome

/-- The scheme `urlsplit` extracts from the URL itself, if any. -/
def schemeOf (u : List Char) : Option (List Char) :=
  (schemeSplit (removeUnsafe (u.dropWhile isC0OrSpace))).map Prod.fst

-- ===================== 10. media-reference labels =====================

/-- Modelled from the spec: the quality/source labeling of the media
reference extractor.  The script that writes the per-run snapshot CSV
(whose `quality` and `source` columns build_missav.py consumes) is not
among the provided sources; per spec section 4.4 the quality label is the
first matching known resolution digit group found as a substring of the
URL, checked in descending quality order, defaulting to a generic
`playlist` label or `unknown`, and the source label is the URL's host,
lowercased. -/
def RESOLUTION_ORDER : List String :=
  ["2160", "1440", "1080", "720", "480", "360", "240"]

def qualityLabel (url : String) : String :=
  match RESOLUTION_ORDER.find? (fun r => containsSub url.data r.data) with
  | some r => r ++ "p"
  | none => if containsSub url.data "playlist".data then "playlist" else "unknown"

/-- Modelled from the spec: the source label is the URL's host, lowercased. -/
def sourceLabel (url : String) : String :=
  match urlsplitL url.data [] with
  | some parts => ⟨pyLowerL parts.netloc⟩
  | none => ""

-- ===================== 11. concrete inputs used by the claims =====================

/-- A packed payload whose base argument is not an integer literal. -/
def c5cex : String :=
  "eval(function(p,a,c,k,e,d)\x7breturn p\x7d(\x27x\x27,z,1,\x27a\x27)"

/-- A packed payload whose dictionary entry `a\nb` contains a backslash
escape that `re.sub` interprets as a replacement template. -/
def c2cex : String :=
  "eval(function(p,a,c,k,e,d)\x7breturn p\x7d(\x271\x27,2,2,\x27x|a\\\\nb\x27.split(\x27|\x27))"

/-- A well-behaved packed payload (base 3, three tokens). -/
def c2wit : String :=
  "eval(function(p,a,c,k,e,d)\x7breturn p\x7d(\x272 1 0\x27,3,3,\x27c|b|a\x27.split(\x27|\x27))"

/-- A snapshot containing two rows with equal mtimes whose normalized keys
arrive in descending order. -/
def c4file : CsvFile :=
  ⟨"f.csv", 5, ["page_url"],
   [[("page_url", "http://b")], [("page_url", "http://a")]]⟩

/-- A snapshot lacking the `page_url` column but containing a data row. -/
def c9file : CsvFile := ⟨"g.csv", 1, ["x"], [[("x", "1")]]⟩

/-- The per-byte piece of `quote_plus` after `parse_qsl`'s `+ → space`
replacement. -/
def qpPiece (b : Nat) : List Char :=
  if b = 0x20 then [' ']
  else if alwaysSafe b then [Char.ofNat b]
  else pctEscape b

/-- One `k=v` piece of `urlencode`. -/
def encPiece (kv : List Char × List Char) : List Char :=
  quotePlusL kv.1 ++ '=' :: quotePlusL kv.2

/-- The condition under which `urlunsplit` emits a `//` authority part
(written exactly as in the source). -/
def unsplitCond (scheme netloc url : List Char) : Bool :=
  netloc ≠ [] || (scheme ≠ [] && usesNetloc.contains scheme && !isPfxL ['/', '/'] url)

/-- The `'/'`-padding `urlunsplit` applies to the path when an authority
part is present (written exactly as in the source). -/
def padSlash (url : List Char) : List Char :=
  if url ≠ [] && !isPfxL ['/'] url then '/' :: url else url

/-- The tail of `urlsplit` after the scheme has been extracted: netloc,
fragment and query splitting (identical to the corresponding part of
`urlsplitL`). -/
def urlsplitTail (scheme rest0 : List Char) : Option SplitResult :=
  let (netloc, rest, bad) :=
    if isPfxL ['/', '/'] rest0 then
      let after := rest0.drop 2
      let nl := after.takeWhile (fun c => !isNetlocEnd c)
      let rest2 := after.dropWhile (fun c => !isNetlocEnd c)
      (nl, rest2, (nl.contains '[' != nl.contains ']'))
    else ([], rest0, false)
  if bad then none
  else
    let (rest, fragment) :=
      match splitFirstL '#' rest with
      | some (a, b) => (a, b)
      | none => (rest, [])
    let (path, query) :=
      match splitFirstL '?' rest with
      | some (a, b) => (a, b)
      | none => (rest, [])
    some ⟨scheme, netloc, path, query, fragment⟩

-- =====================================================================
-- ========================== THEOREMS ================================
-- =====================================================================

-- ---------- fetch layer (C7) ----------

theorem fetcherFetch_ok (o : AioOutcome) : ∃ v, fetcherFetch o = .ok v := by
  cases o <;> exact ⟨_, rfl⟩

theorem fetchAiohttpScraper_ok (o : AioOutcome) :
    ∃ v, fetchAiohttpScraper o = .ok v := by
  cases o <;> exact ⟨_, rfl⟩

theorem fwrGo_spec (oracle : Nat → AioOutcome) :
    ∀ (left att : Nat),
      (∃ v, fetchWithRetriesGo oracle att left = .ok v) ∧
      (fetchWithRetriesGo oracle att left = .ok none ↔
        ∀ i, att ≤ i → i ≤ att + left →
          ∀ v, fetcherFetch (oracle i) = .ok v → truthy v = false) := by
  intro left
  induction left with
  | zero =>
    intro att
    obtain ⟨v, hv⟩ := fetcherFetch_ok (oracle att)
    simp only [fetchWithRetriesGo, hv]
    by_cases ht : truthy v
    · simp only [ht, if_true]
      constructor
      · exact ⟨v, rfl⟩
      · constructor
        · intro h
          have hvn : v = none := by injection h
          rw [hvn] at ht; simp [truthy] at ht
        · intro h
          have := h att (le_refl _) (by omega) v hv
          rw [this] at ht; simp at ht
    · simp only [ht, if_false]
      constructor
      · exact ⟨none, rfl⟩
      · constructor
        · intro _ i h1 h2 w hw
          have hia : i = att := by omega
          rw [hia] at hw
          rw [hv] at hw
          have : v = w := by injection hw
          rw [← this]
          exact Bool.not_eq_true _ ▸ (by simpa using ht)
        · intro _; rfl
  | succ left ih =>
    intro att
    obtain ⟨v, hv⟩ := fetcherFetch_ok (oracle att)
    simp only [fetchWithRetriesGo, hv]
    by_cases ht : truthy v
    · simp only [ht, if_true]
      refine ⟨⟨v, rfl⟩, ?_, ?_⟩
      · intro h
        have hvn : v = none := by injection h
        rw [hvn] at ht; simp [truthy] at ht
      · intro h
        have := h att (le_refl _) (by omega) v hv
        rw [this] at ht; simp at ht
    · simp only [ht, if_false]
      obtain ⟨hex, hiff⟩ := ih (att + 1)
      refine ⟨hex, ?_, ?_⟩
      · intro h i h1 h2 w hw
        rcases Nat.eq_or_lt_of_le h1 with heq | hlt
        · subst heq
          rw [hv] at hw
          have hvw : v = w := by injection hw
          rw [← hvw]; simpa using ht
        · exact hiff.mp h i hlt (by omega) w hw
      · intro h
        exact hiff.mpr (fun i h1 h2 w hw => h i (by omega) (by omega) w hw)

theorem scraperGo_spec (oracle : Nat → AioOutcome) (fb : CrawlOutcome) :
    ∀ (left att : Nat),
      (∃ v, scraperFetchGo oracle fb att left = .ok v) ∧
      ((∀ i, att ≤ i → i ≤ att + left →
          ∀ v, fetchAiohttpScraper (oracle i) = .ok v → truthy v = false) →
        scraperFetchGo oracle fb att left = fetchCrawl4aiScraper fb) := by
  intro left
  induction left with
  | zero =>
    intro att
    obtain ⟨v, hv⟩ := fetchAiohttpScraper_ok (oracle att)
    simp only [scraperFetchGo, hv]
    by_cases ht : truthy v
    · simp only [ht, if_true]
      refine ⟨⟨v, rfl⟩, ?_⟩
      intro h
      have := h att (le_refl _) (by omega) v hv
      rw [this] at ht; simp at ht
    · simp only [ht, if_false]
      refine ⟨?_, fun _ => rfl⟩
      cases fb with
      | exn => exact ⟨none, rfl⟩
      | res s html => exact ⟨_, rfl⟩
  | succ left ih =>
    intro att
    obtain ⟨v, hv⟩ := fetchAiohttpScraper_ok (oracle att)
    simp only [scraperFetchGo, hv]
    by_cases ht : truthy v
    · simp only [ht, if_true]
      refine ⟨⟨v, rfl⟩, ?_⟩
      intro h
      have := h att (le_refl _) (by omega) v hv
      rw [this] at ht; simp at ht
    · simp only [ht, if_false]
      obtain ⟨hex, himp⟩ := ih (att + 1)
      refine ⟨hex, ?_⟩
      intro h
      exact himp (fun i h1 h2 w hw => h i (by omega) (by omega) w hw)

/-- C7: the fetch operation with retries never raises to its caller — it
always returns an `ok` value, it returns "no content" (`None`) exactly
when every attempt up to the retry bound produced no truthy content, and
the scraper variant hands the exhausted case to its crawl4ai fallback
(whose failures are themselves caught), so exhaustion with a failed
fallback also yields `None` rather than an exception. -/
theorem fetch_retries_never_raises :
    ∀ (oracle : Nat → AioOutcome) (retries : Nat) (fb : CrawlOutcome),
      (∃ v, fetchWithRetries oracle retries = .ok v) ∧
      (fetchWithRetries oracle retries = .ok none ↔
        ∀ i, i ≤ retries → ∀ v, fetcherFetch (oracle i) = .ok v → truthy v = false) ∧
      (∃ w, scraperFetchWithRetries oracle fb = .ok w) ∧
      ((∀ i, i ≤ RETRIES → ∀ v, fetchAiohttpScraper (oracle i) = .ok v → truthy v = false) →
        scraperFetchWithRetries oracle fb = fetchCrawl4aiScraper fb) := by
  intro oracle retries fb
  obtain ⟨hex, hiff⟩ := fwrGo_spec oracle retries 0
  obtain ⟨hex2, himp⟩ := scraperGo_spec oracle fb RETRIES 0
  refine ⟨hex, ?_, hex2, ?_⟩
  · unfold fetchWithRetries
    rw [hiff]
    constructor
    · intro h i hi v hv; exact h i (by omega) (by omega) v hv
    · intro h i _ hi v hv; exact h i (by omega) v hv
  · intro h
    exact himp (fun i h1 h2 v hv => h i (by omega) v hv)

theorem fetch_retries_never_raises_wit :
    fetchWithRetries (fun _ => AioOutcome.exn) 3 = .ok none ∧
    scraperFetchWithRetries (fun _ => AioOutcome.exn) CrawlOutcome.exn = .ok none := by
  have h := fetch_retries_never_raises (fun _ => AioOutcome.exn) 3 CrawlOutcome.exn
  constructor
  · refine h.2.1.mpr ?_
    intro i _ v hv
    have hvn : none = v := by injection hv
    rw [← hvn]; rfl
  · have h4 := h.2.2.2 ?_
    · rw [h4]; rfl
    · intro i _ v hv
      have hvn : none = v := by injection hv
      rw [← hvn]; rfl

-- ---------- media reference labels (C8) ----------

theorem find?_append_first {α : Type} (p : α → Bool) (pre post : List α)
    (r : α) (hr : p r = true) (hpre : ∀ x ∈ pre, p x = false) :
    (pre ++ r :: post).find? p = some r := by
  induction pre with
  | nil => simp [List.find?, hr]
  | cons x xs ih =>
    have hx := hpre x (by simp)
    simp only [List.cons_append, List.find?, hx]
    exact ih (fun y hy => hpre y (by simp [hy]))

/-- C8: the media-reference labels (modelled from the spec, the producing
script being absent from the sources): the quality label is the first
matching resolution digit group in descending quality order, suffixed
`p`; with no resolution hint it is the generic `playlist` label when the
URL mentions a playlist and `unknown` otherwise; the source label is the
URL's host, lowercased. -/
theorem media_reference_label_rules :
    qualityLabel "https://cdn.example/video/abc/720/playlist.m3u8" = "720p" ∧
    sourceLabel "https://SURRIT.com/x/playlist.m3u8" = "surrit.com" ∧
    (∀ url : String, (∀ r ∈ RESOLUTION_ORDER, containsSub url.data r.data = false) →
      qualityLabel url =
        if containsSub url.data "playlist".data then "playlist" else "unknown") ∧
    (∀ url : String, ∀ pre post : List String, ∀ r : String,
      RESOLUTION_ORDER = pre ++ r :: post →
      containsSub url.data r.data = true →
      (∀ r2 ∈ pre, containsSub url.data r2.data = false) →
      qualityLabel url = r ++ "p") ∧
    (∀ url : String, ∀ parts, urlsplitL url.data [] = some parts →
      sourceLabel url = pyLower ⟨parts.netloc⟩) := by
  refine ⟨rfl, rfl, ?_, ?_, ?_⟩
  · intro url h
    unfold qualityLabel
    rw [List.find?_eq_none.mpr (fun r hr => by simp [h r hr])]
  · intro url pre post r hsplit hr hpre
    unfold qualityLabel
    rw [hsplit, find?_append_first _ pre post r hr (fun x hx => hpre x hx)]
  · intro url parts hp
    unfold sourceLabel
    rw [hp]
    rfl

theorem media_reference_label_rules_wit :
    qualityLabel "https://h/x/720/y" = "720p" ∧
    sourceLabel "http://AB.c/q" = "ab.c" := by
  have h := media_reference_label_rules
  constructor
  · exact h.2.2.2.1 "https://h/x/720/y" ["2160", "1440", "1080"] ["480", "360", "240"]
      "720" rfl (by decide) (by decide)
  · exact h.2.2.2.2 "http://AB.c/q" ⟨"http".data, "AB.c".data, "/q".data, [], []⟩ rfl

-- ---------- counterexamples on concrete inputs (C2, C4, C5, C6, C9) ----------

/-- C6 counterexample: dropping the fragment of `"a #"` exposes a trailing
space, so a second normalization strips it and the result changes. -/
theorem normalize_idempotent_cex :
    normalize_url "a #" = "a " ∧
    normalize_url (normalize_url "a #") = "a" ∧
    normalize_url (normalize_url "a #") ≠ normalize_url "a #" := by
  refine ⟨rfl, rfl, ?_⟩
  decide

/-- C4 counterexample: two rows with equal snapshot timestamps are emitted
in first-merged order, not ordered by their normalized keys. -/
theorem merge_tie_order_cex :
    ((mergeItems [c4file]).map (·.key) = ["http://b", "http://a"]) ∧
    ((mergeItems [c4file]).map (·.mtime) = [5, 5]) ∧
    ¬ ((mergeItems [c4file]).map (·.key)).Sorted (· ≤ ·) := by
  have h1 : (mergeItems [c4file]).map (·.key) = ["http://b", "http://a"] := rfl
  refine ⟨h1, rfl, ?_⟩
  rw [h1]
  intro h
  have h2 : ("http://b" : String) ≤ "http://a" :=
    List.rel_of_sorted_cons h _ (List.mem_singleton.mpr rfl)
  have h3 : ("http://a" : String) < "http://b" := by
    rw [String.lt_iff_toList_lt]
    decide
  exact absurd h3 (not_lt.mpr h2)

/-- C9 counterexample: a row in a snapshot that lacks the primary-URL
column is excluded from the merge but is not added to the dropped-row
counter. -/
theorem merge_dropped_rows_cex :
    c9file.rows.length = 1 ∧
    normalize_url (rowGet (c9file.rows.getD 0 []) DEDUP_COL) = "" ∧
    (mergeState [c9file]).seen = [] ∧
    (mergeState [c9file]).skipped = 0 := ⟨rfl, rfl, rfl, rfl⟩

/-- C5 counterexample: a payload with the marker present, a terminated
parenthesis scan, no unterminated quotes and exactly four arguments on
which the decoder still returns `None`, because the base argument is not
an integer literal. -/
theorem decode_unavailable_cex :
    decodePackedEval c5cex.data = .ok none ∧
    (pkStart c5cex.data).isSome = true ∧
    (packedArgsStr c5cex.data).isSome = true ∧
    ((packedParts c5cex.data).getD []).length = 4 ∧
    (argScanFull ((packedArgsStr c5cex.data).getD [])).inSq = false ∧
    (argScanFull ((packedArgsStr c5cex.data).getD [])).inDq = false ∧
    (argScanFull ((packedArgsStr c5cex.data).getD [])).depth = 0 :=
  ⟨rfl, rfl, rfl, rfl, rfl, rfl, rfl⟩

-- ---------- merge engine lemmas (C1, C4, C9) ----------

theorem processRow_seen (fn : String) (m : Nat) (st : MergeState)
    (row : List (String × String)) :
    (processRow fn m st row).seen = seenStep fn m st.seen row := by
  unfold processRow seenStep keyOf
  dsimp only
  split_ifs <;> rfl

theorem processRow_skipped (fn : String) (m : Nat) (st : MergeState)
    (row : List (String × String)) :
    (processRow fn m st row).skipped =
      st.skipped + (if keyOf row = "" then 1 else 0) := by
  unfold processRow keyOf
  dsimp only
  split_ifs <;> rfl

theorem foldRows_seen (fn : String) (m : Nat) :
    ∀ (rows : List (List (String × String))) (st : MergeState),
      (rows.foldl (processRow fn m) st).seen =
        rows.foldl (seenStep fn m) st.seen := by
  intro rows
  induction rows with
  | nil => intro st; rfl
  | cons r rs ih =>
    intro st
    rw [List.foldl_cons, List.foldl_cons, ih, processRow_seen]

theorem foldRows_skipped (fn : String) (m : Nat) :
    ∀ (rows : List (List (String × String))) (st : MergeState),
      (rows.foldl (processRow fn m) st).skipped =
        st.skipped + (rows.filter (fun r => keyOf r = "")).length := by
  intro rows
  induction rows with
  | nil => intro st; simp
  | cons r rs ih =>
    intro st
    rw [List.foldl_cons, ih, processRow_skipped]
    by_cases h : keyOf r = "" <;> simp [h, List.filter_cons] <;> omega

theorem processFile_seen (st : MergeState) (f : CsvFile) :
    (processFile st f).seen = fileSeen st.seen f := by
  by_cases h1 : f.fieldnames = []
  · simp [processFile, fileSeen, rowEligible, h1]
  · by_cases h2 : f.fieldnames.contains DEDUP_COL
    · have h2m : DEDUP_COL ∈ f.fieldnames := by simpa using h2
      simp [processFile, fileSeen, rowEligible, h1, h2, h2m, foldRows_seen]
    · have h2m : DEDUP_COL ∉ f.fieldnames := by simpa using h2
      simp [processFile, fileSeen, rowEligible, h1, h2, h2m]

theorem processFile_skipped (st : MergeState) (f : CsvFile) :
    (processFile st f).skipped = st.skipped +
      (if rowEligible f then (f.rows.filter (fun r => keyOf r = "")).length
       else 0) := by
  by_cases h1 : f.fieldnames = []
  · simp [processFile, rowEligible, h1]
  · by_cases h2 : f.fieldnames.contains DEDUP_COL
    · have h2m : DEDUP_COL ∈ f.fieldnames := by simpa using h2
      simp [processFile, rowEligible, h1, h2, h2m, foldRows_skipped]
    · have h2m : DEDUP_COL ∉ f.fieldnames := by simpa using h2
      simp [processFile, rowEligible, h1, h2, h2m]

theorem mergeState_seen_aux :
    ∀ (files : List CsvFile) (st : MergeState),
      (files.foldl processFile st).seen = files.foldl fileSeen st.seen := by
  intro files
  induction files with
  | nil => intro st; rfl
  | cons f fs ih =>
    intro st
    rw [List.foldl_cons, List.foldl_cons, ih, processFile_seen]

theorem mergeState_seen (files : List CsvFile) :
    (mergeState files).seen = seenOf files :=
  mergeState_seen_aux files initMergeState

theorem mergeState_skipped_aux :
    ∀ (files : List CsvFile) (st : MergeState),
      (files.foldl processFile st).skipped = st.skipped +
        ((files.filter rowEligible).map
          (fun f => (f.rows.filter (fun r => keyOf r = "")).length)).sum := by
  intro files
  induction files with
  | nil => intro st; simp
  | cons f fs ih =>
    intro st
    rw [List.foldl_cons, ih, processFile_skipped]
    by_cases h : rowEligible f <;> simp [h, List.filter_cons] <;> omega

theorem mergeState_skipped (files : List CsvFile) :
    (mergeState files).skipped =
      ((files.filter rowEligible).map
        (fun f => (f.rows.filter (fun r => keyOf r = "")).length)).sum := by
  have := mergeState_skipped_aux files initMergeState
  simpa [mergeState, initMergeState] using this

theorem seenOf_foldT (files : List CsvFile) :
    seenOf files = seenFoldT (visited files) := by
  suffices h : ∀ (files : List CsvFile) (s : List SeenEntry),
      files.foldl fileSeen s = (visited files).foldl seenStepT s by
    simpa [seenOf, seenFoldT] using h files []
  intro files
  induction files with
  | nil => intro s; simp [visited]
  | cons f fs ih =>
    intro s
    rw [List.foldl_cons, ih]
    have hv : visited (f :: fs) =
        (if rowEligible f then f.rows.map (fun r => (f.fname, f.mtime, r)) else [])
          ++ visited fs := by
      simp [visited]
    rw [hv, List.foldl_append]
    congr 1
    by_cases h : rowEligible f
    · simp only [fileSeen, h, if_true, List.foldl_map]
      rfl
    · simp [fileSeen, h]

theorem seenReplace_keys (s : List SeenEntry) (e : SeenEntry) :
    (seenReplace s e).map (·.key) = s.map (·.key) := by
  induction s with
  | nil => rfl
  | cons o os ih =>
    simp only [seenReplace, List.map_cons] at *
    rw [ih]
    congr 1
    by_cases h : o.key = e.key
    · rw [if_pos h]
      split
      · exact h.symm
      · rfl
    · rw [if_neg h]

theorem seenHas_iff (s : List SeenEntry) (key : String) :
    seenHas s key = true ↔ ∃ e ∈ s, e.key = key := by
  simp [seenHas, List.any_eq_true]

theorem seenReplace_mem (s : List SeenEntry) (e : SeenEntry) :
    ∀ o' ∈ seenReplace s e, ∃ o ∈ s,
      o' = if o.key = e.key then (if e.mtime > o.mtime then e else o) else o := by
  intro o' ho'
  obtain ⟨o, ho, heq⟩ := List.mem_map.mp ho'
  exact ⟨o, ho, heq.symm⟩

theorem seenFoldT_append (l : List RowTriple) (t : RowTriple) :
    seenFoldT (l ++ [t]) = seenStepT (seenFoldT l) t := by
  simp [seenFoldT, List.foldl_append]

/-- Entries with non-blank key `key` exist in the store exactly when a
visited row normalizes to `key`. -/
theorem seenFoldT_keys_iff (l : List RowTriple) :
    ∀ key : String, key ≠ "" →
      ((∃ e ∈ seenFoldT l, e.key = key) ↔ ∃ t ∈ l, keyOf t.2.2 = key) := by
  induction l using List.reverseRecOn with
  | nil => intro key _; simp [seenFoldT]
  | append_singleton l t ih =>
    intro key hkne
    rw [seenFoldT_append]
    have hsplit : (∃ t' ∈ l ++ [t], keyOf t'.2.2 = key) ↔
        ((∃ t' ∈ l, keyOf t'.2.2 = key) ∨ keyOf t.2.2 = key) := by
      constructor
      · intro ⟨t', ht', hk⟩
        rcases List.mem_append.mp ht' with h | h
        · exact Or.inl ⟨t', h, hk⟩
        · have : t' = t := by simpa using h
          subst this; exact Or.inr hk
      · intro h
        rcases h with ⟨t', ht', hk⟩ | hk
        · exact ⟨t', List.mem_append.mpr (Or.inl ht'), hk⟩
        · exact ⟨t, List.mem_append.mpr (Or.inr (by simp)), hk⟩
    rw [hsplit]
    by_cases hk0 : keyOf t.2.2 = ""
    · have hstep : seenStepT (seenFoldT l) t = seenFoldT l := by
        simp [seenStepT, seenStep, hk0]
      rw [hstep, ih key hkne]
      constructor
      · exact Or.inl
      · intro h
        rcases h with h | h
        · exact h
        · rw [hk0] at h; exact absurd h.symm hkne
    · by_cases hhas : seenHas (seenFoldT l) (keyOf t.2.2)
      · have hstep : seenStepT (seenFoldT l) t =
            seenReplace (seenFoldT l) ⟨keyOf t.2.2, t.2.1, t.1, t.2.2⟩ := by
          simp [seenStepT, seenStep, hk0, hhas]
        rw [hstep]
        have hrep : (∃ e ∈ seenReplace (seenFoldT l)
            ⟨keyOf t.2.2, t.2.1, t.1, t.2.2⟩, e.key = key) ↔
            ∃ e ∈ seenFoldT l, e.key = key := by
          constructor
          · intro ⟨e', he', hk⟩
            obtain ⟨o, ho, heq⟩ := seenReplace_mem _ _ e' he'
            by_cases hok : o.key = keyOf t.2.2
            · refine ⟨o, ho, ?_⟩
              rw [if_pos hok] at heq
              subst heq
              split at hk
              · rw [hok]; simpa using hk
              · exact hk
            · rw [if_neg hok] at heq
              rw [heq] at hk
              exact ⟨o, ho, hk⟩
          · intro ⟨o, ho, hk⟩
            by_cases hok : o.key = keyOf t.2.2
            · refine ⟨if o.key = keyOf t.2.2 then
                  (if t.2.1 > o.mtime then ⟨keyOf t.2.2, t.2.1, t.1, t.2.2⟩ else o)
                  else o, List.mem_map.mpr ⟨o, ho, rfl⟩, ?_⟩
              rw [if_pos hok]
              have hkk : key = keyOf t.2.2 := by rw [← hk, hok]
              split
              · simp [hkk]
              · exact hk
            · exact ⟨o, List.mem_map.mpr ⟨o, ho, by rw [if_neg hok]⟩, hk⟩
        rw [hrep, ih key hkne]
        constructor
        · exact Or.inl
        · intro h
          rcases h with h | h
          · exact h
          · obtain ⟨e0, he0, hke0⟩ := (seenHas_iff _ _).mp hhas
            exact (ih key hkne).mp ⟨e0, he0, by rw [hke0, h]⟩
      · have hstep : seenStepT (seenFoldT l) t =
            seenFoldT l ++ [⟨keyOf t.2.2, t.2.1, t.1, t.2.2⟩] := by
          simp [seenStepT, seenStep, hk0, hhas]
        rw [hstep]
        constructor
        · intro ⟨e, he, hk⟩
          rcases List.mem_append.mp he with h | h
          · exact Or.inl ((ih key hkne).mp ⟨e, h, hk⟩)
          · have : e = ⟨keyOf t.2.2, t.2.1, t.1, t.2.2⟩ := by simpa using h
            subst this
            exact Or.inr hk
        · intro h
          rcases h with h | h
          · obtain ⟨e, he, hk⟩ := (ih key hkne).mpr h
            exact ⟨e, List.mem_append.mpr (Or.inl he), hk⟩
          · exact ⟨⟨keyOf t.2.2, t.2.1, t.1, t.2.2⟩,
              List.mem_append.mpr (Or.inr (by simp)), h⟩

/-- Keys in the dedup store are unique. -/
theorem seenFoldT_nodup (l : List RowTriple) :
    ((seenFoldT l).map (·.key)).Nodup := by
  induction l using List.reverseRecOn with
  | nil => simp [seenFoldT]
  | append_singleton l t ih =>
    rw [seenFoldT_append]
    by_cases hk0 : keyOf t.2.2 = ""
    · have hstep : seenStepT (seenFoldT l) t = seenFoldT l := by
        simp [seenStepT, seenStep, hk0]
      rw [hstep]; exact ih
    · by_cases hhas : seenHas (seenFoldT l) (keyOf t.2.2)
      · have hstep : seenStepT (seenFoldT l) t =
            seenReplace (seenFoldT l) ⟨keyOf t.2.2, t.2.1, t.1, t.2.2⟩ := by
          simp [seenStepT, seenStep, hk0, hhas]
        rw [hstep, seenReplace_keys]; exact ih
      · have hstep : seenStepT (seenFoldT l) t =
            seenFoldT l ++ [⟨keyOf t.2.2, t.2.1, t.1, t.2.2⟩] := by
          simp [seenStepT, seenStep, hk0, hhas]
        rw [hstep, List.map_append]
        refine List.Nodup.append ih (by simp) ?_
        intro a ha hb
        have haeq : a = keyOf t.2.2 := by simpa using hb
        subst haeq
        obtain ⟨e0, he0, hke0⟩ := List.mem_map.mp ha
        exact hhas ((seenHas_iff _ _).mpr ⟨e0, he0, hke0⟩)

/-- Every entry of the dedup store is a visited row of its key carrying
the maximal mtime among that key's occurrences. -/
theorem seenFoldT_entries (l : List RowTriple) :
    ∀ e ∈ seenFoldT l,
      e.key ≠ "" ∧
      (∃ t ∈ l, t.1 = e.fname ∧ t.2.1 = e.mtime ∧ t.2.2 = e.row ∧
        keyOf t.2.2 = e.key) ∧
      (∀ t ∈ l, keyOf t.2.2 = e.key → t.2.1 ≤ e.mtime) := by
  induction l using List.reverseRecOn with
  | nil => simp [seenFoldT]
  | append_singleton l t ih =>
    rw [seenFoldT_append]
    by_cases hk0 : keyOf t.2.2 = ""
    · have hstep : seenStepT (seenFoldT l) t = seenFoldT l := by
        simp [seenStepT, seenStep, hk0]
      rw [hstep]
      intro e he
      obtain ⟨h1, ⟨t', ht', hm⟩, hmax⟩ := ih e he
      refine ⟨h1, ⟨t', List.mem_append.mpr (Or.inl ht'), hm⟩, ?_⟩
      intro t'' ht'' hk
      rcases List.mem_append.mp ht'' with h | h
      · exact hmax t'' h hk
      · have : t'' = t := by simpa using h
        subst this
        rw [hk0] at hk
        exact absurd hk.symm h1
    · by_cases hhas : seenHas (seenFoldT l) (keyOf t.2.2)
      · have hstep : seenStepT (seenFoldT l) t =
            seenReplace (seenFoldT l) ⟨keyOf t.2.2, t.2.1, t.1, t.2.2⟩ := by
          simp [seenStepT, seenStep, hk0, hhas]
        rw [hstep]
        intro e' he'
        obtain ⟨o, ho, heq⟩ := seenReplace_mem _ _ e' he'
        obtain ⟨h1, ⟨t', ht', hf, hm, hr, hk⟩, hmax⟩ := ih o ho
        by_cases hok : o.key = keyOf t.2.2
        · rw [if_pos hok] at heq
          by_cases hgt : t.2.1 > o.mtime
          · rw [if_pos hgt] at heq
            subst heq
            refine ⟨hk0, ⟨t, List.mem_append.mpr (Or.inr (by simp)),
              rfl, rfl, rfl, rfl⟩, ?_⟩
            intro t'' ht'' hk''
            rcases List.mem_append.mp ht'' with h | h
            · have := hmax t'' h (by rw [hk'']; exact hok.symm)
              simp only []
              omega
            · have : t'' = t := by simpa using h
              subst this
              exact le_refl _
          · rw [if_neg hgt] at heq
            subst heq
            refine ⟨h1, ⟨t', List.mem_append.mpr (Or.inl ht'), hf, hm, hr, hk⟩, ?_⟩
            intro t'' ht'' hk''
            rcases List.mem_append.mp ht'' with h | h
            · exact hmax t'' h hk''
            · have : t'' = t := by simpa using h
              subst this
              omega
        · rw [if_neg hok] at heq
          subst heq
          refine ⟨h1, ⟨t', List.mem_append.mpr (Or.inl ht'), hf, hm, hr, hk⟩, ?_⟩
          intro t'' ht'' hk''
          rcases List.mem_append.mp ht'' with h | h
          · exact hmax t'' h hk''
          · have : t'' = t := by simpa using h
            subst this
            exact absurd hk''.symm hok
      · have hstep : seenStepT (seenFoldT l) t =
            seenFoldT l ++ [⟨keyOf t.2.2, t.2.1, t.1, t.2.2⟩] := by
          simp [seenStepT, seenStep, hk0, hhas]
        rw [hstep]
        intro e' he'
        rcases List.mem_append.mp he' with h | h
        · obtain ⟨h1, ⟨t', ht', hm⟩, hmax⟩ := ih e' h
          refine ⟨h1, ⟨t', List.mem_append.mpr (Or.inl ht'), hm⟩, ?_⟩
          intro t'' ht'' hk''
          rcases List.mem_append.mp ht'' with hh | hh
          · exact hmax t'' hh hk''
          · have : t'' = t := by simpa using hh
            subst this
            exact absurd ((seenHas_iff _ _).mpr ⟨e', h, hk''.symm⟩) hhas
        · have : e' = ⟨keyOf t.2.2, t.2.1, t.1, t.2.2⟩ := by simpa using h
          subst this
          refine ⟨hk0, ⟨t, List.mem_append.mpr (Or.inr (by simp)),
            rfl, rfl, rfl, rfl⟩, ?_⟩
          intro t'' ht'' hk''
          rcases List.mem_append.mp ht'' with hh | hh
          · obtain ⟨e0, he0, hke0⟩ :=
              (seenFoldT_keys_iff l _ hk0).mpr ⟨t'', hh, hk''⟩
            exact absurd ((seenHas_iff _ _).mpr ⟨e0, he0, hke0⟩) hhas
          · have : t'' = t := by simpa using hh
            subst this
            exact le_refl _

/-- The store size counts the distinct non-blank visited keys. -/
theorem seenFoldT_length (l : List RowTriple) :
    (seenFoldT l).length =
      ((l.map (fun t => keyOf t.2.2)).filter (· ≠ "")).toFinset.card := by
  induction l using List.reverseRecOn with
  | nil => simp [seenFoldT]
  | append_singleton l t ih =>
    rw [seenFoldT_append]
    have hmf : (((l ++ [t]).map (fun t => keyOf t.2.2)).filter (· ≠ "")) =
        ((l.map (fun t => keyOf t.2.2)).filter (· ≠ "")) ++
          (if keyOf t.2.2 = "" then [] else [keyOf t.2.2]) := by
      rw [List.map_append, List.filter_append]
      congr 1
      split_ifs with h <;> simp [h]
    by_cases hk0 : keyOf t.2.2 = ""
    · have hstep : seenStepT (seenFoldT l) t = seenFoldT l := by
        simp [seenStepT, seenStep, hk0]
      rw [hstep, hmf, if_pos hk0, List.append_nil]
      exact ih
    · rw [hmf, if_neg hk0, List.toFinset_append]
      by_cases hhas : seenHas (seenFoldT l) (keyOf t.2.2)
      · have hstep : seenStepT (seenFoldT l) t =
            seenReplace (seenFoldT l) ⟨keyOf t.2.2, t.2.1, t.1, t.2.2⟩ := by
          simp [seenStepT, seenStep, hk0, hhas]
        rw [hstep]
        have hlen2 : (seenReplace (seenFoldT l)
            ⟨keyOf t.2.2, t.2.1, t.1, t.2.2⟩).length = (seenFoldT l).length := by
          unfold seenReplace; rw [List.length_map]
        rw [hlen2, ih]
        obtain ⟨e0, he0, hke0⟩ := (seenHas_iff _ _).mp hhas
        obtain ⟨t', ht', hk'⟩ := (seenFoldT_keys_iff l _ hk0).mp ⟨e0, he0, hke0⟩
        have hmem : keyOf t.2.2 ∈
            ((l.map (fun t => keyOf t.2.2)).filter (· ≠ "")).toFinset := by
          rw [List.mem_toFinset, List.mem_filter]
          exact ⟨List.mem_map.mpr ⟨t', ht', hk'⟩, by simpa using hk0⟩
        congr 1
        symm
        rw [Finset.union_eq_left]
        intro a ha
        have : a = keyOf t.2.2 := by simpa using ha
        rw [this]
        exact hmem
      · have hstep : seenStepT (seenFoldT l) t =
            seenFoldT l ++ [⟨keyOf t.2.2, t.2.1, t.1, t.2.2⟩] := by
          simp [seenStepT, seenStep, hk0, hhas]
        rw [hstep, List.length_append, ih]
        have hnot : keyOf t.2.2 ∉
            ((l.map (fun t => keyOf t.2.2)).filter (· ≠ "")).toFinset := by
          intro hmem
          rw [List.mem_toFinset, List.mem_filter] at hmem
          obtain ⟨t', ht', hk'⟩ := List.mem_map.mp hmem.1
          obtain ⟨e0, he0, hke0⟩ := (seenFoldT_keys_iff l _ hk0).mpr ⟨t', ht', hk'⟩
          exact hhas ((seenHas_iff _ _).mpr ⟨e0, he0, hke0⟩)
        rw [Finset.union_comm]
        simp only [List.toFinset_cons, List.toFinset_nil]
        rw [Finset.insert_eq, Finset.union_assoc, Finset.empty_union] at *
        rw [Finset.card_union_of_disjoint (by simpa using hnot)]
        simp
        omega

theorem mergeItems_perm (files : List CsvFile) :
    List.Perm (mergeItems files) (mergeState files).seen :=
  List.perm_insertionSort newerEq _

theorem mem_visited (files : List CsvFile) (t : RowTriple) :
    t ∈ visited files ↔
      ∃ f ∈ files, rowEligible f = true ∧
        ∃ row ∈ f.rows, t = (f.fname, f.mtime, row) := by
  unfold visited
  rw [List.mem_flatMap]
  constructor
  · intro ⟨f, hf, hmem⟩
    by_cases he : rowEligible f
    · rw [if_pos he] at hmem
      obtain ⟨row, hrow, heq⟩ := List.mem_map.mp hmem
      exact ⟨f, hf, he, row, hrow, heq.symm⟩
    · rw [if_neg he] at hmem
      simp at hmem
  · intro ⟨f, hf, he, row, hrow, heq⟩
    exact ⟨f, hf, by rw [if_pos he]; exact List.mem_map.mpr ⟨row, hrow, heq.symm⟩⟩

theorem seen_visited (files : List CsvFile) :
    (mergeState files).seen = seenFoldT (visited files) := by
  rw [mergeState_seen, seenOf_foldT]

/-- C1: the canonical dataset has at most one row per normalized key; each
emitted entry is one of the visited rows and carries the maximal snapshot
timestamp among the rows sharing its key; in particular, when one key
occurs in exactly two snapshots with different timestamps, the emitted
row is the one from the snapshot with the greater timestamp, the other
being discarded. -/
theorem merge_unique_latest_wins (files : List CsvFile) :
    ((mergeItems files).map (·.key)).Nodup ∧
    (∀ e ∈ mergeItems files,
      (∃ f ∈ files, rowEligible f = true ∧ ∃ row ∈ f.rows,
        f.fname = e.fname ∧ f.mtime = e.mtime ∧ row = e.row ∧ keyOf row = e.key) ∧
      (∀ f ∈ files, rowEligible f = true → ∀ row ∈ f.rows,
        keyOf row = e.key → f.mtime ≤ e.mtime)) ∧
    (∀ f1 f2 : CsvFile, ∀ r1 r2 : List (String × String), ∀ key : String,
      rowEligible f1 = true → rowEligible f2 = true →
      f1.rows = [r1] → f2.rows = [r2] →
      keyOf r1 = key → keyOf r2 = key → key ≠ "" →
      f1.mtime < f2.mtime →
      mergeItems [f1, f2] = [⟨key, f2.mtime, f2.fname, r2⟩]) := by
  refine ⟨?_, ?_, ?_⟩
  · have hperm := (mergeItems_perm files).map (·.key)
    rw [hperm.nodup_iff, seen_visited]
    exact seenFoldT_nodup (visited files)
  · intro e he
    have hmem : e ∈ (mergeState files).seen := (mergeItems_perm files).mem_iff.mp he
    rw [seen_visited] at hmem
    obtain ⟨_, ⟨t, ht, hf, hm, hr, hk⟩, hmax⟩ :=
      seenFoldT_entries (visited files) e hmem
    constructor
    · obtain ⟨f, hfmem, hel, row, hrow, heq⟩ := (mem_visited files t).mp ht
      refine ⟨f, hfmem, hel, row, hrow, ?_, ?_, ?_, ?_⟩
      · rw [← hf, heq]
      · rw [← hm, heq]
      · rw [← hr, heq]
      · rw [← hk, heq]
    · intro f hfmem hel row hrow hkey
      have hvis : (f.fname, f.mtime, row) ∈ visited files :=
        (mem_visited files _).mpr ⟨f, hfmem, hel, row, hrow, rfl⟩
      exact hmax (f.fname, f.mtime, row) hvis hkey
  · intro f1 f2 r1 r2 key he1 he2 hr1 hr2 hk1 hk2 hkne hlt
    have hseen : (mergeState [f1, f2]).seen =
        [⟨key, f2.mtime, f2.fname, r2⟩] := by
      rw [mergeState_seen]
      unfold seenOf
      rw [List.foldl_cons, List.foldl_cons, List.foldl_nil]
      unfold fileSeen
      rw [if_pos he1, if_pos he2, hr1, hr2]
      rw [List.foldl_cons, List.foldl_nil, List.foldl_cons, List.foldl_nil]
      have hstep1 : seenStep f1.fname f1.mtime [] r1 =
          [⟨key, f1.mtime, f1.fname, r1⟩] := by
        unfold seenStep
        rw [hk1]
        simp [hkne, seenHas]
      rw [hstep1]
      unfold seenStep
      rw [hk2]
      have hhas : seenHas [⟨key, f1.mtime, f1.fname, r1⟩] key = true := by
        simp [seenHas]
      simp only [hkne, if_neg, hhas, if_true]
      unfold seenReplace
      simp [hlt]
    unfold mergeItems
    rw [hseen]
    rfl

theorem merge_unique_latest_wins_wit :
    mergeItems [(⟨"a.csv", 1, ["page_url"], [[("page_url", "http://x")]]⟩ : CsvFile),
                (⟨"b.csv", 2, ["page_url"], [[("page_url", "http://x"), ("i", "2")]]⟩ : CsvFile)] =
      [⟨"http://x", 2, "b.csv", [("page_url", "http://x"), ("i", "2")]⟩] := by
  exact (merge_unique_latest_wins []).2.2
    ⟨"a.csv", 1, ["page_url"], [[("page_url", "http://x")]]⟩
    ⟨"b.csv", 2, ["page_url"], [[("page_url", "http://x"), ("i", "2")]]⟩
    [("page_url", "http://x")] [("page_url", "http://x"), ("i", "2")]
    "http://x" (by decide) (by decide) rfl rfl (by decide) (by decide)
    (by decide) (by decide)

-- stability of the output sort

theorem filter_orderedInsert_mtime (t : Nat) (x : SeenEntry) :
    ∀ l : List SeenEntry,
      (List.orderedInsert newerEq x l).filter (fun e => e.mtime == t) =
        if x.mtime == t then x :: l.filter (fun e => e.mtime == t)
        else l.filter (fun e => e.mtime == t) := by
  intro l
  induction l with
  | nil => by_cases px : x.mtime == t <;> simp [List.orderedInsert, List.filter, px]
  | cons y ys ih =>
    by_cases hr : newerEq x y
    · rw [List.orderedInsert, if_pos hr]
      by_cases px : x.mtime == t <;> simp [List.filter_cons, px]
    · rw [List.orderedInsert, if_neg hr]
      rw [List.filter_cons, ih]
      have hgt : x.mtime < y.mtime := by
        unfold newerEq at hr; omega
      by_cases px : x.mtime == t
      · have hxt : x.mtime = t := by simpa using px
        have hyt : (y.mtime == t) = false := by
          simp; omega
        simp [px, hyt, List.filter_cons]
      · by_cases py : y.mtime == t <;> simp [px, py, List.filter_cons]

theorem filter_insertionSort_mtime (t : Nat) :
    ∀ l : List SeenEntry,
      (List.insertionSort newerEq l).filter (fun e => e.mtime == t) =
        l.filter (fun e => e.mtime == t) := by
  intro l
  induction l with
  | nil => rfl
  | cons a l ih =>
    rw [List.insertionSort, filter_orderedInsert_mtime, ih, List.filter_cons]

-- provenance columns

theorem rowGet_cons_of_ne (kv : String × String) (l : List (String × String))
    (k : String) (h : kv.1 ≠ k) : rowGet (kv :: l) k = rowGet l k := by
  unfold rowGet
  rw [List.find?_cons_of_neg]
  simpa using h

theorem rowGet_cons_of_eq (kv : String × String) (l : List (String × String))
    (k : String) (h : kv.1 = k) : rowGet (kv :: l) k = kv.2 := by
  unfold rowGet
  rw [List.find?_cons_of_pos]
  simpa using h

theorem rowGet_append_single (l : List (String × String)) (k v : String)
    (hnone : ∀ kv ∈ l, kv.1 ≠ k) :
    rowGet (l ++ [(k, v)]) k = v := by
  induction l with
  | nil => exact rowGet_cons_of_eq (k, v) [] k rfl
  | cons kv rest ih =>
    rw [List.cons_append, rowGet_cons_of_ne kv _ k (hnone kv (by simp))]
    exact ih (fun x hx => hnone x (by simp [hx]))

theorem rowGet_mapSet_self (k v : String) :
    ∀ l : List (String × String), l.any (·.1 = k) = true →
      rowGet (l.map (fun kv => if kv.1 = k then (k, v) else kv)) k = v := by
  intro l
  induction l with
  | nil => intro h; simp at h
  | cons kv rest ih =>
    intro h
    rw [List.map_cons]
    by_cases hk : kv.1 = k
    · rw [if_pos hk, rowGet_cons_of_eq (k, v) _ k rfl]
    · rw [if_neg hk, rowGet_cons_of_ne kv _ k hk]
      apply ih
      rcases List.any_eq_true.mp h with ⟨a, ha, hpa⟩
      rcases List.mem_cons.mp ha with h' | h'
      · subst h'; exact absurd (by simpa using hpa) hk
      · exact List.any_eq_true.mpr ⟨a, h', hpa⟩

theorem rowGet_assocSet_self (l : List (String × String)) (k v : String) :
    rowGet (assocSet l k v) k = v := by
  unfold assocSet
  split_ifs with h
  · exact rowGet_mapSet_self k v l h
  · apply rowGet_append_single
    intro kv hkv hk
    exact absurd (List.any_eq_true.mpr ⟨kv, hkv, by simpa using hk⟩) h

theorem rowGet_assocSet_other (l : List (String × String)) (k v k' : String)
    (hne : k' ≠ k) : rowGet (assocSet l k v) k' = rowGet l k' := by
  unfold assocSet
  split_ifs with h
  · clear h
    induction l with
    | nil => rfl
    | cons kv rest ih =>
      rw [List.map_cons]
      by_cases hk : kv.1 = k
      · rw [if_pos hk, rowGet_cons_of_ne (k, v) _ k' (fun hc => hne hc.symm),
          rowGet_cons_of_ne kv _ k' (by rw [hk]; exact fun hc => hne hc.symm)]
        exact ih
      · rw [if_neg hk]
        by_cases hk' : kv.1 = k'
        · rw [rowGet_cons_of_eq kv _ k' hk', rowGet_cons_of_eq kv _ k' hk']
        · rw [rowGet_cons_of_ne kv _ k' hk', rowGet_cons_of_ne kv _ k' hk']
          exact ih
  · clear h
    induction l with
    | nil =>
      rw [List.nil_append, rowGet_cons_of_ne (k, v) [] k' (fun hc => hne hc.symm)]
    | cons kv rest ih =>
      rw [List.cons_append]
      by_cases hk' : kv.1 = k'
      · rw [rowGet_cons_of_eq kv _ k' hk', rowGet_cons_of_eq kv _ k' hk']
      · rw [rowGet_cons_of_ne kv _ k' hk', rowGet_cons_of_ne kv _ k' hk']
        exact ih

-- all_columns bookkeeping

theorem processRow_allColumns (fn : String) (m : Nat) (st : MergeState)
    (row : List (String × String)) :
    (processRow fn m st row).allColumns = st.allColumns := by
  unfold processRow
  dsimp only
  split_ifs <;> rfl

theorem foldRows_allColumns (fn : String) (m : Nat) :
    ∀ (rows : List (List (String × String))) (st : MergeState),
      (rows.foldl (processRow fn m) st).allColumns = st.allColumns := by
  intro rows
  induction rows with
  | nil => intro st; rfl
  | cons r rs ih =>
    intro st
    rw [List.foldl_cons, ih, processRow_allColumns]

theorem trackColumns_nodup :
    ∀ (fns : List String) (acc : List String), acc.Nodup →
      (trackColumns acc fns).Nodup := by
  intro fns
  induction fns with
  | nil => intro acc h; exact h
  | cons c rest ih =>
    intro acc h
    unfold trackColumns
    rw [List.foldl_cons]
    by_cases hc : acc.contains c
    · simp only [hc, if_true]
      exact ih acc h
    · simp only [hc, if_false]
      refine ih _ ?_
      refine List.Nodup.append h (by simp) ?_
      intro a ha hb
      have : a = c := by simpa using hb
      subst this
      exact absurd (by simpa using ha : acc.contains a = true) (by simpa using hc)

theorem mergeState_allColumns_nodup (files : List CsvFile) :
    (mergeState files).allColumns.Nodup := by
  suffices h : ∀ (files : List CsvFile) (st : MergeState), st.allColumns.Nodup →
      (files.foldl processFile st).allColumns.Nodup by
    exact h files initMergeState (by simp [initMergeState])
  intro files
  induction files with
  | nil => intro st h; exact h
  | cons f fs ih =>
    intro st h
    rw [List.foldl_cons]
    refine ih _ ?_
    unfold processFile
    dsimp only
    split_ifs with h1 h2
    · exact h
    · exact trackColumns_nodup f.fieldnames st.allColumns h
    · rw [foldRows_allColumns]
      exact trackColumns_nodup f.fieldnames st.allColumns h

/-- C4 (amended): the merged dataset is ordered newest-snapshot-first;
rows whose snapshots have equal timestamps keep their first-merged
(insertion) order rather than being ordered by key — the sort is stable
on timestamp ties; each emitted row carries its normalized key and its
provenance (source snapshot name and timestamp) in addition to the
original columns. -/
theorem merge_output_sorted_newest_first (files : List CsvFile) :
    (mergeItems files).Sorted newerEq ∧
    List.Perm (mergeItems files) (mergeState files).seen ∧
    (∀ t : Nat, (mergeItems files).filter (fun e => e.mtime == t) =
        (mergeState files).seen.filter (fun e => e.mtime == t)) ∧
    (∀ e ∈ mergeItems files,
      rowGet (outRowFor (mergeState files).allColumns e) "normalized_page_url" =
        e.key ∧
      rowGet (outRowFor (mergeState files).allColumns e) "source_file" =
        e.fname ∧
      rowGet (outRowFor (mergeState files).allColumns e) "source_file_mtime" =
        renderMtime e.mtime) := by
  refine ⟨List.sorted_insertionSort newerEq _, mergeItems_perm files, ?_, ?_⟩
  · intro t
    exact filter_insertionSort_mtime t (mergeState files).seen
  · intro e _
    unfold outRowFor
    refine ⟨?_, ?_, ?_⟩
    · rw [rowGet_assocSet_other _ _ _ _ (by decide),
        rowGet_assocSet_other _ _ _ _ (by decide), rowGet_assocSet_self]
    · rw [rowGet_assocSet_other _ _ _ _ (by decide), rowGet_assocSet_self]
    · rw [rowGet_assocSet_self]

theorem merge_output_sorted_newest_first_wit :
    (mergeItems [c4file]).Sorted newerEq :=
  (merge_output_sorted_newest_first [c4file]).1

theorem rowGet_eq_default (row : List (String × String)) (k : String)
    (h : ∀ kv ∈ row, kv.1 ≠ k) : rowGet row k = "" := by
  unfold rowGet
  rw [List.find?_eq_none.mpr]
  intro kv hkv
  simpa using h kv hkv

/-- C9 (amended): rows read from a snapshot that contains the primary-URL
column and whose primary URL is missing, blank or unusable are excluded
and counted; snapshots lacking the column (or headerless ones) are
skipped wholesale, their rows excluded without being counted; the merged
row count equals the number of distinct normalized keys across all input
rows that have a usable primary URL, and no merged row has a blank key. -/
theorem merge_completeness (files : List CsvFile)
    (hdr : ∀ f ∈ files, ∀ row ∈ f.rows, ∀ kv ∈ row, kv.1 ∈ f.fieldnames) :
    (mergeItems files).length =
      (((files.flatMap (·.rows)).map keyOf).filter (· ≠ "")).toFinset.card ∧
    (mergeState files).skipped =
      ((files.filter rowEligible).map
        (fun f => (f.rows.filter (fun r => keyOf r = "")).length)).sum ∧
    (∀ e ∈ mergeItems files, e.key ≠ "") := by
  refine ⟨?_, mergeState_skipped files, ?_⟩
  · rw [(mergeItems_perm files).length_eq, seen_visited, seenFoldT_length]
    congr 1
    apply Finset.ext
    intro a
    rw [List.mem_toFinset, List.mem_toFinset, List.mem_filter, List.mem_filter]
    constructor
    · intro ⟨hmem, hane⟩
      obtain ⟨t, ht, hk⟩ := List.mem_map.mp hmem
      obtain ⟨f, hf, hel, row, hrow, heq⟩ := (mem_visited files t).mp ht
      refine ⟨List.mem_map.mpr ⟨row, ?_, ?_⟩, hane⟩
      · exact List.mem_flatMap.mpr ⟨f, hf, hrow⟩
      · rw [← hk, heq]
    · intro ⟨hmem, hane⟩
      obtain ⟨row, hrow, hk⟩ := List.mem_map.mp hmem
      obtain ⟨f, hf, hrowf⟩ := List.mem_flatMap.mp hrow
      have hane' : a ≠ "" := by simpa using hane
      by_cases hel : rowEligible f
      · refine ⟨List.mem_map.mpr ⟨(f.fname, f.mtime, row), ?_, hk⟩, hane⟩
        exact (mem_visited files _).mpr ⟨f, hf, hel, row, hrowf, rfl⟩
      · exfalso
        have hnomem : ∀ kv ∈ row, kv.1 ≠ DEDUP_COL := by
          intro kv hkv hkd
          have hmem' := hdr f hf row hrowf kv hkv
          rw [hkd] at hmem'
          apply hel
          have hne2 : f.fieldnames ≠ [] := by
            intro hnil; rw [hnil] at hmem'; simp at hmem'
          unfold rowEligible
          simp [hne2, hmem']
        have : keyOf row = "" := by
          unfold keyOf
          rw [rowGet_eq_default row DEDUP_COL hnomem]
          rfl
        rw [hk] at this
        exact hane' this
  · intro e he
    have hmem : e ∈ (mergeState files).seen := (mergeItems_perm files).mem_iff.mp he
    rw [seen_visited] at hmem
    exact (seenFoldT_entries (visited files) e hmem).1

theorem merge_completeness_wit :
    (mergeItems [c9file]).length =
      ((([c9file].flatMap (·.rows)).map keyOf).filter (· ≠ "")).toFinset.card ∧
    (mergeState [c9file]).skipped =
      (([c9file].filter rowEligible).map
        (fun f => (f.rows.filter (fun r => keyOf r = "")).length)).sum := by
  have h := merge_completeness [c9file] (by decide)
  exact ⟨h.1, h.2.1⟩

-- ---------- decoder lemmas (C2, C5) ----------

theorem digitRepr_eq_specKeyChar (d : Int) (h0 : 0 ≤ d) :
    digitRepr d = [specKeyChar d.toNat] := by
  by_cases h10 : d < 10
  · unfold digitRepr specKeyChar
    rw [if_pos h10, if_pos (by omega)]
    interval_cases d <;> rfl
  · unfold digitRepr specKeyChar
    rw [if_neg h10, if_neg (by omega)]
    congr 2
    omega

theorem intToBaseGo_spec (a : Int) (ha : 2 ≤ a) :
    ∀ (fuel : Nat) (m : Nat),
      intToBaseGo a fuel (m : Int) =
        (specDigits a.toNat fuel m).map (fun d => [specKeyChar d]) := by
  intro fuel
  induction fuel with
  | zero => intro m; rfl
  | succ fuel ih =>
    intro m
    rw [intToBaseGo, specDigits]
    by_cases hm : m = 0
    · simp [hm]
    · have hmpos : (0 : Int) < (m : Int) := by
        exact_mod_cast Nat.pos_of_ne_zero hm
      rw [if_pos hmpos, if_neg hm, List.map_cons]
      have hcast : a = ((a.toNat : Nat) : Int) := by omega
      have hfmod : (m : Int).fmod a = ((m % a.toNat : Nat) : Int) := by
        rw [Int.fmod_eq_emod _ (by omega), hcast]
        exact (Int.natCast_mod m a.toNat).symm
      have hfdiv : (m : Int).fdiv a = ((m / a.toNat : Nat) : Int) := by
        rw [Int.fdiv_eq_ediv _ (by omega), hcast]
        exact (Int.natCast_div m a.toNat).symm
      rw [hfmod, hfdiv, ih]
      congr 1
      rw [digitRepr_eq_specKeyChar _ (by positivity), Int.toNat_natCast]

theorem flatten_reverse_singletons (f : Nat → Char) :
    ∀ ds : List Nat,
      ((ds.map (fun d => [f d])).reverse).flatten = (ds.map f).reverse := by
  intro ds
  induction ds with
  | nil => rfl
  | cons d ds ih => simp [ih]

theorem int_to_base_eq_specKey (a : Int) (ha : 2 ≤ a) (n : Nat) :
    int_to_base (n : Int) a = some (specKey a n) := by
  unfold int_to_base specKey
  by_cases hn : n = 0
  · simp [hn]
  · rw [if_neg (by exact_mod_cast hn)]
    rw [if_neg (by simp; omega)]
    rw [if_neg hn]
    congr 1
    have hfuel : ((n : Int).toNat + 1) = n + 1 := by omega
    rw [hfuel, intToBaseGo_spec a ha (n + 1) n]
    exact flatten_reverse_singletons specKeyChar (specDigits a.toNat (n + 1) n)

theorem substStep_eq_spec (a : Int) (ha : 2 ≤ a) (k : List (List Char))
    (decoded : List Char) (n : Nat) :
    substStep a k decoded n = specSubstStep a k decoded n := by
  unfold substStep specSubstStep
  rw [int_to_base_eq_specKey a ha n]

theorem foldlM_subst_eq (a : Int) (ha : 2 ≤ a) (k : List (List Char)) :
    ∀ (ns : List Nat) (p : List Char),
      ns.foldlM (substStep a k) p = ns.foldlM (specSubstStep a k) p := by
  intro ns
  induction ns with
  | nil => intro p; rfl
  | cons n ns ih =>
    intro p
    rw [List.foldlM_cons, List.foldlM_cons, substStep_eq_spec a ha k p n]
    cases hq : specSubstStep a k p n with
    | error e => rfl
    | ok q => exact ih q

theorem substDown_eq_spec (p : List Char) (a c : Int) (k : List (List Char))
    (ha : 2 ≤ a) : substDown p a c k = specSubstDown p a c k :=
  foldlM_subst_eq a ha k _ p

/-- C2 (amended): whenever the decoder accepts an invocation and emits
text, and the base is at least two, the output is exactly the spec-side
substitution: indices counting down from `count - 1` to `0`, the key
written in the given base with digits then lowercase letters, every
whole-word occurrence replaced by the dictionary entry at that index
(processed as the regex replacement template `re.sub` applies), or by the
key itself when that slot is empty or absent. -/
theorem decode_substitution_algorithm (payload : List Char)
    (parts : List (List Char)) (a c : Int) (out : List Char)
    (hp : packedParts payload = some parts)
    (hl : ¬ parts.length < 4)
    (ha : pyIntParse (parts.getD 1 []) = some a)
    (hc : pyIntParse (parts.getD 2 []) = some c)
    (ha2 : 2 ≤ a)
    (hdec : decodePackedEval payload = .ok (some out)) :
    ∃ kString, kStringOf (parts.getD 3 []) = .ok kString ∧
      specSubstDown (pOf (parts.getD 0 [])) a c (splitOnCharL '|' kString) =
        .ok out := by
  unfold decodePackedEval at hdec
  rw [hp] at hdec
  dsimp only at hdec
  rw [if_neg hl, ha, hc] at hdec
  dsimp only at hdec
  cases hk : kStringOf (parts.getD 3 []) with
  | error e =>
    rw [hk] at hdec
    dsimp only at hdec
    exact Except.noConfusion hdec
  | ok ks =>
    rw [hk] at hdec
    dsimp only at hdec
    cases hs : substDown (pOf (parts.getD 0 [])) a c (splitOnCharL '|' ks) with
    | error e =>
      rw [hs] at hdec
      dsimp only at hdec
      exact Except.noConfusion hdec
    | ok d =>
      rw [hs] at hdec
      dsimp only at hdec
      have hd : d = out := by
        injection hdec with h1
        injection h1
      subst hd
      exact ⟨ks, rfl, by rw [← substDown_eq_spec _ _ _ _ ha2]; exact hs⟩

theorem decode_substitution_algorithm_wit :
    ∃ kString,
      kStringOf (((packedParts c2wit.data).getD []).getD 3 []) = .ok kString ∧
      specSubstDown (pOf (((packedParts c2wit.data).getD []).getD 0 [])) 3 3
        (splitOnCharL '|' kString) = .ok "a b c".data := by
  exact decode_substitution_algorithm c2wit.data
    ((packedParts c2wit.data).getD []) 3 3 "a b c".data rfl (by decide)
    rfl rfl (by decide) rfl

/-- C5 (amended): the decoder returns `None` exactly when the marker is
absent, no argument-list start is found, the parenthesis scan is
unterminated, fewer than four top-level arguments result, or the base or
count argument is not an integer literal; in all other cases it either
returns decoded text or propagates an exception (never `None`). -/
theorem decode_unavailable_iff (payload : List Char) :
    (decodePackedEval payload = .ok none ↔
      packedParts payload = none ∨
        ∃ parts, packedParts payload = some parts ∧
          (parts.length < 4 ∨ pyIntParse (parts.getD 1 []) = none ∨
            pyIntParse (parts.getD 2 []) = none)) ∧
    (packedParts payload = none ↔
      (pkStart payload = none ∨
        ∃ s, pkStart payload = some s ∧
          (pkArgStart (pkChunk payload s) = none ∨
            ∃ j, pkArgStart (pkChunk payload s) = some j ∧
              parenScanGo 1 ((pkChunk payload s).drop j) = none))) := by
  constructor
  · unfold decodePackedEval
    cases hp : packedParts payload with
    | none => simp
    | some parts =>
      dsimp only
      by_cases hl : parts.length < 4
      · rw [if_pos hl]
        constructor
        · intro _
          exact Or.inr ⟨parts, rfl, Or.inl hl⟩
        · intro _
          rfl
      · rw [if_neg hl]
        cases ha : pyIntParse (parts.getD 1 []) with
        | none =>
          constructor
          · intro _
            exact Or.inr ⟨parts, rfl, Or.inr (Or.inl ha)⟩
          · intro _
            cases pyIntParse (parts.getD 2 []) <;> rfl
        | some a =>
          cases hc : pyIntParse (parts.getD 2 []) with
          | none =>
            constructor
            · intro _
              exact Or.inr ⟨parts, rfl, Or.inr (Or.inr hc)⟩
            · intro _
              rfl
          | some c =>
            dsimp only
            constructor
            · intro h
              exfalso
              cases hk : kStringOf (parts.getD 3 []) with
              | error e =>
                rw [hk] at h
                exact Except.noConfusion h
              | ok ks =>
                rw [hk] at h
                dsimp only at h
                cases hs : substDown (pOf (parts.getD 0 [])) a c
                    (splitOnCharL '|' ks) with
                | error e =>
                  rw [hs] at h
                  exact Except.noConfusion h
                | ok d =>
                  rw [hs] at h
                  dsimp only at h
                  injection h with h1
                  exact Option.noConfusion h1
            · intro h
              exfalso
              rcases h with h | ⟨parts2, hp2, hcond⟩
              · exact Option.noConfusion h
              · injection hp2 with he
                subst he
                rcases hcond with h | h | h
                · exact absurd h hl
                · rw [ha] at h; exact Option.noConfusion h
                · rw [hc] at h; exact Option.noConfusion h
  · rw [packedParts, Option.map_eq_none']
    unfold packedArgsStr
    cases h1 : pkStart payload with
    | none => simp
    | some s =>
      dsimp only
      cases h2 : pkArgStart (pkChunk payload s) with
      | none => simp [h2]
      | some j =>
        dsimp only
        cases h3 : parenScanGo 1 ((pkChunk payload s).drop j) with
        | none => simp [h2, h3]
        | some as => simp [h2, h3]

theorem decode_unavailable_iff_wit :
    decodePackedEval c5cex.data = .ok none := by
  exact (decode_unavailable_iff c5cex.data).1.mpr
    (Or.inr ⟨(packedParts c5cex.data).getD [], rfl, Or.inr (Or.inl rfl)⟩)

/-- C2 counterexample: an accepted invocation (payload `1`, base 2, count
2, dictionary `x|a\nb`) where `re.sub` interprets the dictionary entry as
a replacement template, so the emitted text has a newline where the claim
required the literal entry `a\nb`. -/
theorem decode_substitution_literal_cex :
    decode_packed_eval c2cex = .ok (some "a\nb") ∧
    pyIntParse (((packedParts c2cex.data).getD []).getD 1 []) = some 2 ∧
    pyIntParse (((packedParts c2cex.data).getD []).getD 2 []) = some 2 ∧
    kStringOf (((packedParts c2cex.data).getD []).getD 3 []) = .ok "x|a\\nb".data ∧
    pOf (((packedParts c2cex.data).getD []).getD 0 []) = "1".data ∧
    claimLiteralSubst "1".data 2 2 (splitOnCharL '|' "x|a\\nb".data) = "a\\nb".data ∧
    ("a\nb" : String) ≠ "a\\nb" := by
  refine ⟨rfl, rfl, rfl, rfl, rfl, rfl, ?_⟩
  decide

-- ---------- crawl lemmas (C10): scheme characters ----------

theorem schemeChar_bounds (c : Char)
    (h : (isAsciiAlpha c || isSchemeChar c) = true) :
    32 < c.toNat ∧ c.toNat ≠ 58 := by
  simp only [isAsciiAlpha, isSchemeChar, isAsciiUpper, isAsciiLower,
    isAsciiDigit, Bool.or_eq_true, Bool.and_eq_true, decide_eq_true_eq] at h
  rcases h with (⟨h1, h2⟩ | ⟨h1, h2⟩) |
    ((((⟨h1, h2⟩ | ⟨h1, h2⟩) | ⟨h1, h2⟩) | h1) | h1) | h1
  · have a1 : 65 ≤ c.toNat := h1
    have a2 : c.toNat ≤ 90 := h2
    omega
  · have a1 : 97 ≤ c.toNat := h1
    have a2 : c.toNat ≤ 122 := h2
    omega
  · have a1 : 65 ≤ c.toNat := h1
    have a2 : c.toNat ≤ 90 := h2
    omega
  · have a1 : 97 ≤ c.toNat := h1
    have a2 : c.toNat ≤ 122 := h2
    omega
  · have a1 : 48 ≤ c.toNat := h1
    have a2 : c.toNat ≤ 57 := h2
    omega
  · subst h1
    exact ⟨by decide, by decide⟩
  · subst h1
    exact ⟨by decide, by decide⟩
  · subst h1
    exact ⟨by decide, by decide⟩

theorem schemeChar_c0 (c : Char)
    (h : (isAsciiAlpha c || isSchemeChar c) = true) : isC0OrSpace c = false := by
  have hb := (schemeChar_bounds c h).1
  simp only [isC0OrSpace, decide_eq_false_iff_not]
  omega

theorem schemeChar_safeByte (c : Char)
    (h : (isAsciiAlpha c || isSchemeChar c) = true) :
    isUnsafeUrlByte c = false := by
  have hb := (schemeChar_bounds c h).1
  have h9 : c ≠ '\t' := fun he => by subst he; exact absurd hb (by decide)
  have h13 : c ≠ '\r' := fun he => by subst he; exact absurd hb (by decide)
  have h10 : c ≠ '\n' := fun he => by subst he; exact absurd hb (by decide)
  simp [isUnsafeUrlByte, h9, h13, h10]

theorem schemeChar_ne_colon (c : Char)
    (h : (isAsciiAlpha c || isSchemeChar c) = true) : c ≠ ':' := by
  have hb := (schemeChar_bounds c h).2
  exact fun he => hb (by rw [he]; rfl)

theorem validScheme_mem (s : List Char) (hv : validSchemeText s = true) :
    ∀ c ∈ s, (isAsciiAlpha c || isSchemeChar c) = true := by
  match s, hv with
  | c0 :: tail, hv =>
    simp only [validSchemeText, Bool.and_eq_true] at hv
    intro c hc
    rcases List.mem_cons.mp hc with h | h
    · subst h
      simp [hv.1]
    · simp [List.all_eq_true.mp hv.2 c h]

theorem dropWhile_eq_self_all (p : Char → Bool) (l : List Char)
    (h : ∀ c ∈ l, p c = false) : l.dropWhile p = l := by
  cases l with
  | nil => rfl
  | cons a t => simp [List.dropWhile_cons, h a (by simp)]

theorem splitFirstL_scheme (s r : List Char) (hs : ∀ c ∈ s, c ≠ ':') :
    splitFirstL ':' (s ++ ':' :: r) = some (s, r) := by
  induction s with
  | nil => simp [splitFirstL]
  | cons c cs ih =>
    have hc : ¬ c = ':' := hs c (by simp)
    simp [splitFirstL, hc, ih (fun x hx => hs x (by simp [hx]))]

theorem preprocess_scheme_pfx (s r : List Char)
    (hv : validSchemeText s = true) :
    removeUnsafe ((s ++ ':' :: r).dropWhile isC0OrSpace) =
      s ++ ':' :: removeUnsafe r := by
  obtain ⟨c0, tail, rfl⟩ : ∃ c0 tail, s = c0 :: tail := by
    cases s with
    | nil => simp [validSchemeText] at hv
    | cons a b => exact ⟨a, b, rfl⟩
  have hall := validScheme_mem (c0 :: tail) hv
  have h0 : isC0OrSpace c0 = false := schemeChar_c0 c0 (hall c0 (by simp))
  rw [List.cons_append, List.dropWhile_cons]
  rw [h0]
  simp only [Bool.false_eq_true, if_false]
  unfold removeUnsafe
  rw [← List.cons_append, List.filter_append]
  have hkeep : List.filter (fun c => !isUnsafeUrlByte c) (c0 :: tail) =
      c0 :: tail :=
    List.filter_eq_self.mpr (fun c hc => by simp [schemeChar_safeByte c (hall c hc)])
  rw [hkeep, List.filter_cons]
  simp [show (!isUnsafeUrlByte ':') = true from by decide]

theorem schemeSplit_prefixed (s r : List Char)
    (hv : validSchemeText s = true) :
    schemeSplit (s ++ ':' :: r) = some (pyLowerL s, r) := by
  obtain ⟨c0, tail, rfl⟩ : ∃ c0 tail, s = c0 :: tail := by
    cases s with
    | nil => simp [validSchemeText] at hv
    | cons a b => exact ⟨a, b, rfl⟩
  have hall := validScheme_mem (c0 :: tail) hv
  unfold schemeSplit
  rw [splitFirstL_scheme (c0 :: tail) r (fun c hc => schemeChar_ne_colon c (hall c hc))]
  simp only [validSchemeText, Bool.and_eq_true] at hv
  simp [hv.1, hv.2]

theorem dfltProcess_id (s : List Char) (hv : validSchemeText s = true) :
    removeUnsafe (dropWhileEnd isC0OrSpace (s.dropWhile isC0OrSpace)) = s := by
  have hall := validScheme_mem s hv
  have hnc0 : ∀ c ∈ s, isC0OrSpace c = false := fun c hc => schemeChar_c0 c (hall c hc)
  rw [dropWhile_eq_self_all _ _ hnc0]
  unfold dropWhileEnd
  rw [dropWhile_eq_self_all _ _ (fun c hc => hnc0 c (List.mem_reverse.mp hc)),
    List.reverse_reverse]
  exact List.filter_eq_self.mpr (fun c hc => by simp [schemeChar_safeByte c (hall c hc)])

theorem urlHasScheme_of_prefix (s t : List Char)
    (hv : validSchemeText s = true) : urlHasScheme (s ++ ':' :: t) = true := by
  unfold urlHasScheme
  rw [preprocess_scheme_pfx s t hv, schemeSplit_prefixed s (removeUnsafe t) hv]
  rfl

theorem schemeOf_of_pfx (s t : List Char)
    (hv : validSchemeText s = true) (hlow : pyLowerL s = s) :
    schemeOf (s ++ ':' :: t) = some s := by
  unfold schemeOf
  rw [preprocess_scheme_pfx s t hv, schemeSplit_prefixed s (removeUnsafe t) hv]
  simp [hlow]

theorem urlHasScheme_of_schemeOf (u : List Char) (x : List Char)
    (h : schemeOf u = some x) : urlHasScheme u = true := by
  unfold schemeOf at h
  unfold urlHasScheme
  cases hs : schemeSplit (removeUnsafe (u.dropWhile isC0OrSpace)) with
  | none => rw [hs] at h; exact Option.noConfusion h
  | some pr => rfl

-- ---------- crawl lemmas (C10): parse/unparse scheme structure ----------

theorem urlsplit_scheme_cases (u d : List Char) (sr : SplitResult)
    (h : urlsplitL u d = some sr) :
    schemeOf u = some sr.scheme ∨
      (schemeOf u = none ∧
        sr.scheme = removeUnsafe (dropWhileEnd isC0OrSpace (d.dropWhile isC0OrSpace))) := by
  unfold schemeOf
  simp only [urlsplitL] at h
  cases hss : schemeSplit (removeUnsafe (u.dropWhile isC0OrSpace)) with
  | none =>
    right
    rw [hss] at h
    refine ⟨rfl, ?_⟩
    dsimp only at h
    repeat' split at h
    all_goals first
      | exact Option.noConfusion h
      | (injection h with h; subst h; rfl)
  | some pr2 =>
    left
    rw [hss] at h
    obtain ⟨s2, r2⟩ := pr2
    dsimp only at h
    repeat' split at h
    all_goals first
      | exact Option.noConfusion h
      | (injection h with h; subst h; rfl)

theorem urlparse_scheme (u d : List Char) (pr : ParseResult)
    (h : urlparseL u d = some pr) :
    ∃ sr, urlsplitL u d = some sr ∧ pr.scheme = sr.scheme := by
  unfold urlparseL at h
  cases hs : urlsplitL u d with
  | none => rw [hs] at h; exact Option.noConfusion h
  | some sr =>
    rw [hs] at h
    dsimp only [Option.map] at h
    refine ⟨sr, rfl, ?_⟩
    injection h with h
    subst h
    split <;> rfl

theorem isPfxL_self_append : ∀ (s t : List Char), isPfxL s (s ++ t) = true
  | [], _ => rfl
  | c :: cs, t => by simp [isPfxL, isPfxL_self_append cs t]

theorem isPfx_scheme (s t : List Char) :
    isPfxL (s ++ [':']) (s ++ ':' :: t) = true := by
  have h := isPfxL_self_append (s ++ [':']) t
  simpa [List.append_assoc] using h

theorem isPfxL_exists : ∀ (p l : List Char), isPfxL p l = true → ∃ t, l = p ++ t
  | [], l, _ => ⟨l, rfl⟩
  | _ :: _, [], h => by simp [isPfxL] at h
  | c :: cs, b :: bs, h => by
    simp only [isPfxL, Bool.and_eq_true, decide_eq_true_eq] at h
    obtain ⟨t, ht⟩ := isPfxL_exists cs bs h.2
    exact ⟨t, by rw [← h.1, ht]; rfl⟩

theorem exists_tail_of_pfx (s l : List Char)
    (h : isPfxL (s ++ [':']) l = true) : ∃ t, l = s ++ ':' :: t := by
  obtain ⟨t, ht⟩ := isPfxL_exists _ _ h
  exact ⟨t, by rw [ht]; simp⟩

theorem urlunsplit_hasPrefix (s n p q f : List Char) (hs : s ≠ []) :
    isPfxL (s ++ [':']) (urlunsplitL s n p q f) = true := by
  unfold urlunsplitL
  dsimp only
  rw [if_pos hs]
  split_ifs <;> simp [isPfx_scheme, List.append_assoc]

theorem urlunparse_prefix (s n p par q f : List Char) (hs : s ≠ []) :
    ∃ t, urlunparseL s n p par q f = s ++ ':' :: t := by
  unfold urlunparseL
  exact exists_tail_of_pfx s _ (urlunsplit_hasPrefix s n _ q f hs)

theorem urljoinL_cases (base url out : List Char)
    (h : urljoinL base url = some out) :
    (base = [] ∧ out = url) ∨
    (base ≠ [] ∧ url = [] ∧ out = base) ∨
    ∃ b u, urlparseL base [] = some b ∧ urlparseL url b.scheme = some u ∧
      (((u.scheme ≠ b.scheme ∨ usesRelative.contains u.scheme = false) ∧
         out = url) ∨
       (u.scheme = b.scheme ∧ usesRelative.contains u.scheme = true ∧
        ∃ n p par q f, out = urlunparseL u.scheme n p par q f)) := by
  unfold urljoinL at h
  by_cases hb0 : base = []
  · rw [if_pos hb0] at h
    injection h with h
    exact Or.inl ⟨hb0, h.symm⟩
  · rw [if_neg hb0] at h
    by_cases hu0 : url = []
    · rw [if_pos hu0] at h
      injection h with h
      exact Or.inr (Or.inl ⟨hb0, hu0, h.symm⟩)
    · rw [if_neg hu0] at h
      cases hbp : urlparseL base [] with
      | none => rw [hbp] at h; exact Option.noConfusion h
      | some b =>
        rw [hbp] at h
        dsimp only at h
        cases hup : urlparseL url b.scheme with
        | none => rw [hup] at h; exact Option.noConfusion h
        | some u =>
          rw [hup] at h
          dsimp only at h
          refine Or.inr (Or.inr ⟨b, u, rfl, hup, ?_⟩)
          split at h
          next hsp =>
            left
            refine ⟨?_, by injection h with h; exact h.symm⟩
            simpa only [Bool.or_eq_true, decide_eq_true_eq,
              Bool.not_eq_true'] using hsp
          next hsp =>
            right
            have hsp2 : u.scheme = b.scheme ∧
                usesRelative.contains u.scheme = true := by
              simp only [Bool.or_eq_true, decide_eq_true_eq,
                Bool.not_eq_true', not_or] at hsp
              exact ⟨not_not.mp hsp.1, by
                have := hsp.2
                revert this
                cases usesRelative.contains u.scheme <;> simp⟩
            refine ⟨hsp2.1, hsp2.2, ?_⟩
            by_cases hn1 : usesNetloc.contains u.scheme = true
            · rw [if_pos hn1] at h
              by_cases hn2 : u.netloc ≠ []
              · rw [if_pos hn2] at h
                dsimp only at h
                injection h with h
                exact ⟨_, _, _, _, _, h.symm⟩
              · rw [if_neg hn2] at h
                dsimp only at h
                repeat' split at h
                all_goals first
                  | exact Option.noConfusion h
                  | (injection h with h; exact ⟨_, _, _, _, _, h.symm⟩)
            · rw [if_neg hn1] at h
              dsimp only at h
              repeat' split at h
              all_goals first
                | exact Option.noConfusion h
                | (injection h with h; exact ⟨_, _, _, _, _, h.symm⟩)

-- ---------- crawl lemmas (C10): scheme propagation through urljoin ----------

theorem validScheme_ne_nil (s : List Char) (hv : validSchemeText s = true) :
    s ≠ [] := by
  intro he
  rw [he] at hv
  exact Bool.noConfusion hv

theorem base_scheme_prefixed (s rest : List Char) (hv : validSchemeText s = true)
    (hlow : pyLowerL s = s) (b : ParseResult)
    (hbp : urlparseL (s ++ ':' :: rest) [] = some b) : b.scheme = s := by
  obtain ⟨sr, hsr, hbs⟩ := urlparse_scheme _ _ _ hbp
  rcases urlsplit_scheme_cases _ _ _ hsr with hcase | ⟨hnone, _⟩
  · rw [schemeOf_of_pfx s rest hv hlow] at hcase
    injection hcase with hcase
    rw [hbs, ← hcase]
  · rw [schemeOf_of_pfx s rest hv hlow] at hnone
    exact Option.noConfusion hnone

theorem urljoin_hasScheme (s : List Char) (hv : validSchemeText s = true)
    (hlow : pyLowerL s = s) (hrel : usesRelative.contains s = true)
    (rest p out : List Char)
    (hj : urljoinL (s ++ ':' :: rest) p = some out) :
    urlHasScheme out = true := by
  have hsne : s ≠ [] := validScheme_ne_nil s hv
  rcases urljoinL_cases _ _ _ hj with ⟨hb0, _⟩ | ⟨_, _, ho⟩ | ⟨b, u, hbp, hup, hc⟩
  · exact absurd hb0 (by simp)
  · rw [ho]
    exact urlHasScheme_of_prefix s rest hv
  · have hbs2 : b.scheme = s := base_scheme_prefixed s rest hv hlow b hbp
    rcases hc with ⟨hcond, ho⟩ | ⟨hceq, _, n, p2, par, q, f, ho⟩
    · subst ho
      have hne : u.scheme ≠ s := by
        rcases hcond with hne | hnr
        · rw [hbs2] at hne
          exact hne
        · intro he
          rw [he, hrel] at hnr
          exact Bool.noConfusion hnr
      obtain ⟨sru, hsru, hbsu⟩ := urlparse_scheme _ _ _ hup
      rcases urlsplit_scheme_cases _ _ _ hsru with hcase | ⟨_, hd⟩
      · exact urlHasScheme_of_schemeOf _ _ hcase
      · exfalso
        apply hne
        rw [hbsu, hd, hbs2, dfltProcess_id s hv]
    · have hus : u.scheme = s := by rw [hceq, hbs2]
      rw [hus] at ho
      obtain ⟨t, ht⟩ := urlunparse_prefix s n p2 par q f hsne
      rw [ho, ht]
      exact urlHasScheme_of_prefix s t hv

theorem urljoin_next_good (s : List Char) (hv : validSchemeText s = true)
    (hlow : pyLowerL s = s) (hrel : usesRelative.contains s = true)
    (rest p nxt : List Char)
    (hp : schemeOf p = none ∨ schemeOf p = some s)
    (hj : urljoinL (s ++ ':' :: rest) p = some nxt) :
    ∃ t, nxt = s ++ ':' :: t := by
  have hsne : s ≠ [] := validScheme_ne_nil s hv
  rcases urljoinL_cases _ _ _ hj with ⟨hb0, _⟩ | ⟨_, _, ho⟩ | ⟨b, u, hbp, hup, hc⟩
  · exact absurd hb0 (by simp)
  · exact ⟨rest, ho⟩
  · have hbs2 : b.scheme = s := base_scheme_prefixed s rest hv hlow b hbp
    have hus : u.scheme = s := by
      obtain ⟨sru, hsru, hbsu⟩ := urlparse_scheme _ _ _ hup
      rcases urlsplit_scheme_cases _ _ _ hsru with hcase | ⟨_, hd⟩
      · rcases hp with hp0 | hp0
        · rw [hp0] at hcase
          exact Option.noConfusion hcase
        · rw [hp0] at hcase
          injection hcase with hcase
          rw [hbsu, ← hcase]
      · rw [hbsu, hd, hbs2, dfltProcess_id s hv]
    rcases hc with ⟨hcond, _⟩ | ⟨_, _, n, p2, par, q, f, ho⟩
    · exfalso
      rcases hcond with hne | hnr
      · rw [hus, hbs2] at hne
        exact hne rfl
      · rw [hus, hrel] at hnr
        exact Bool.noConfusion hnr
    · rw [hus] at ho
      obtain ⟨t, ht⟩ := urlunparse_prefix s n p2 par q f hsne
      exact ⟨t, by rw [ho, ht]⟩

theorem urljoin_data (a b r : String) (h : urljoin a b = some r) :
    urljoinL a.data b.data = some r.data := by
  unfold urljoin at h
  cases hj : urljoinL a.data b.data with
  | none => rw [hj] at h; exact Option.noConfusion h
  | some out =>
    rw [hj] at h
    injection h with h
    subst h
    rfl

-- ---------- crawl lemmas (C10): the post-set fold ----------

theorem setInsert_mem_iff (l : List String) (y x : String) :
    x ∈ setInsert l y ↔ x ∈ l ∨ x = y := by
  by_cases hc : l.contains y = true
  · rw [setInsert, if_pos hc]
    have hy : y ∈ l := by simpa using hc
    constructor
    · exact Or.inl
    · rintro (h | rfl)
      · exact h
      · exact hy
  · rw [setInsert, if_neg hc]
    simp

theorem setInsert_nodup (l : List String) (y : String) (h : l.Nodup) :
    (setInsert l y).Nodup := by
  by_cases hc : l.contains y = true
  · rw [setInsert, if_pos hc]
    exact h
  · rw [setInsert, if_neg hc]
    have hy : y ∉ l := by simpa using hc
    simp [List.nodup_append, h, hy]

theorem foldPosts_none_iff (url : String) :
    ∀ (l : List String) (a : List String),
      (l.foldlM (fun acc p => (urljoin url p).map (setInsert acc)) a = none) ↔
      ∃ p ∈ l, urljoin url p = none := by
  intro l
  induction l with
  | nil => intro a; simp
  | cons p ps ih =>
    intro a
    rw [List.foldlM_cons]
    cases hj : urljoin url p with
    | none => simp [hj]
    | some j =>
      simp only [hj, Option.map_some', Option.bind_eq_bind, Option.some_bind]
      rw [ih (setInsert a j)]
      simp [hj]

theorem foldPosts_mem (url : String) :
    ∀ (l : List String) (a res : List String),
      l.foldlM (fun acc p => (urljoin url p).map (setInsert acc)) a = some res →
      ∀ x, (x ∈ res ↔ x ∈ a ∨ ∃ p ∈ l, urljoin url p = some x) := by
  intro l
  induction l with
  | nil =>
    intro a res h x
    injection h with h
    subst h
    simp
  | cons p ps ih =>
    intro a res h x
    rw [List.foldlM_cons] at h
    cases hj : urljoin url p with
    | none =>
      rw [hj] at h
      exact absurd h (by simp)
    | some j =>
      rw [hj] at h
      simp only [Option.map_some', Option.bind_eq_bind, Option.some_bind] at h
      rw [ih _ _ h x, setInsert_mem_iff]
      constructor
      · rintro ((hx | rfl) | ⟨q, hq, hjq⟩)
        · exact Or.inl hx
        · exact Or.inr ⟨p, by simp, hj⟩
        · exact Or.inr ⟨q, by simp [hq], hjq⟩
      · rintro (hx | ⟨q, hq, hjq⟩)
        · exact Or.inl (Or.inl hx)
        · rcases List.mem_cons.mp hq with rfl | hq2
          · rw [hj] at hjq
            injection hjq with hjq
            exact Or.inl (Or.inr hjq.symm)
          · exact Or.inr ⟨q, hq2, hjq⟩

theorem foldPosts_nodup (url : String) :
    ∀ (l : List String) (a res : List String),
      l.foldlM (fun acc p => (urljoin url p).map (setInsert acc)) a = some res →
      a.Nodup → res.Nodup := by
  intro l
  induction l with
  | nil =>
    intro a res h ha
    injection h with h
    subst h
    exact ha
  | cons p ps ih =>
    intro a res h ha
    rw [List.foldlM_cons] at h
    cases hj : urljoin url p with
    | none =>
      rw [hj] at h
      exact absurd h (by simp)
    | some j =>
      rw [hj] at h
      simp only [Option.map_some', Option.bind_eq_bind, Option.some_bind] at h
      exact ih _ _ h (setInsert_nodup a j ha)

-- ---------- crawl lemmas (C10): the sorted output ----------

theorem char_eq_of_toNat (a b : Char) (h : a.toNat = b.toNat) : a = b := by
  apply Char.ext
  apply UInt32.ext
  exact h

theorem strLeB_iff : ∀ (x y : List Char), strLeB x y = true ↔ ¬ List.lt y x := by
  intro x
  induction x with
  | nil =>
    intro y
    constructor
    · intro _ h
      cases h
    · intro _
      rfl
  | cons c cs ih =>
    intro y
    cases y with
    | nil =>
      constructor
      · intro hb
        exact Bool.noConfusion hb
      · intro h
        exact absurd (List.lt.nil c cs) h
    | cons d ds =>
      rcases Nat.lt_trichotomy c.toNat d.toNat with h | h | h
      · constructor
        · intro _ hlt
          cases hlt with
          | head _ _ hdc => exact absurd (show d.toNat < c.toNat from hdc) (by omega)
          | tail h1 h2 h3 => exact h2 (show c < d from h)
        · intro _
          simp [strLeB, h]
      · have hcd : c = d := char_eq_of_toNat c d h
        subst hcd
        have hred : strLeB (c :: cs) (c :: ds) = strLeB cs ds := by
          simp [strLeB]
        rw [hred, ih ds]
        constructor
        · intro hnd hlt
          cases hlt with
          | head _ _ hcc => exact absurd (show c.toNat < c.toNat from hcc) (by omega)
          | tail _ _ h3 => exact hnd h3
        · intro hn h3
          exact hn (List.lt.tail
            (fun hc => absurd (show c.toNat < c.toNat from hc) (by omega))
            (fun hc => absurd (show c.toNat < c.toNat from hc) (by omega)) h3)
      · constructor
        · intro hb
          have hf : strLeB (c :: cs) (d :: ds) = false := by
            simp [strLeB, h, show ¬ c.toNat < d.toNat by omega]
          rw [hf] at hb
          exact Bool.noConfusion hb
        · intro hn
          exact absurd (List.lt.head _ _ (show d < c from h)) hn

theorem strLe_iff_le (a b : String) : strLe a b ↔ a ≤ b := by
  unfold strLe
  rw [String.le_iff_toList_le, strLeB_iff a.data b.data]
  constructor
  · intro h
    rcases lt_trichotomy a.toList b.toList with hl | he | hg
    · exact le_of_lt hl
    · exact le_of_eq he
    · exact absurd ((List.lt_iff_lex_lt b.toList a.toList).mpr hg) h
  · intro h hlt
    have hg : List.Lex (· < ·) b.toList a.toList :=
      (List.lt_iff_lex_lt b.toList a.toList).mp hlt
    have hlt2 : b.toList < a.toList := hg
    exact h.not_lt hlt2

theorem sortStrings_sorted_le (l : List String) :
    (sortStrings l).Sorted (fun a b : String => a ≤ b) := by
  have h := List.sorted_insertionSort strLe l
  exact h.imp (fun hab => (strLe_iff_le _ _).mp hab)

theorem sortStrings_sorted_lt (l : List String) (h : l.Nodup) :
    (sortStrings l).Sorted (· < ·) := by
  have hn : (sortStrings l).Nodup :=
    ((List.perm_insertionSort _ l).nodup_iff).mpr h
  exact (sortStrings_sorted_le l).lt_of_le hn

theorem sortStrings_eq_of (l1 l2 : List String) (h1 : l1.Nodup) (h2 : l2.Nodup)
    (hm : ∀ x, x ∈ l1 ↔ x ∈ l2) : sortStrings l1 = sortStrings l2 := by
  have hp : List.Perm l1 l2 := (List.perm_ext_iff_of_nodup h1 h2).mpr hm
  exact List.eq_of_perm_of_sorted
    (((List.perm_insertionSort _ l1).trans hp).trans
      (List.perm_insertionSort _ l2).symm)
    (sortStrings_sorted_le l1) (sortStrings_sorted_le l2)

theorem sortStrings_mem (l : List String) (x : String) :
    x ∈ sortStrings l ↔ x ∈ l :=
  (List.perm_insertionSort _ l).mem_iff

-- ---------- crawl lemmas (C10): the page walk ----------

theorem crawlGo_nodup (fetchO : String → Option String)
    (postsO : String → List String) (nextO : String → Option String) :
    ∀ (fuel : Nat) (st : CrawlState) (cur : Option String) (stf : CrawlState),
      st.allPosts.Nodup →
      crawlGo fetchO postsO nextO fuel st cur = some stf →
      stf.allPosts.Nodup := by
  intro fuel
  induction fuel with
  | zero =>
    intro st cur stf hA h
    simp only [crawlGo] at h
    injection h with h
    rw [← h]
    exact hA
  | succ fuel ih =>
    intro st cur stf hA h
    cases cur with
    | none =>
      simp only [crawlGo] at h
      injection h with h
      rw [← h]
      exact hA
    | some url =>
      simp only [crawlGo] at h
      by_cases hstop : (url = "" || st.seenPages.contains url) = true
      · rw [if_pos hstop] at h
        injection h with h
        rw [← h]
        exact hA
      · rw [if_neg hstop] at h
        cases hf : fetchO url with
        | none =>
          rw [hf] at h
          dsimp only at h
          injection h with h
          rw [← h]
          exact hA
        | some html =>
          rw [hf] at h
          dsimp only at h
          cases hfold : (postsO html).foldlM
              (fun acc p => (urljoin url p).map (setInsert acc))
              st.allPosts with
          | none => rw [hfold] at h; dsimp only at h; exact Option.noConfusion h
          | some all =>
            rw [hfold] at h
            dsimp only at h
            have hall : all.Nodup := foldPosts_nodup url _ _ _ hfold hA
            cases hn : nextO html with
            | none =>
              rw [hn] at h
              dsimp only at h
              exact ih _ _ _ hall h
            | some href =>
              rw [hn] at h
              dsimp only at h
              cases hjn : urljoin url (pyStrip href) with
              | none => rw [hjn] at h; dsimp only at h; exact Option.noConfusion h
              | some nxt =>
                rw [hjn] at h
                dsimp only at h
                exact ih _ _ _ hall h

theorem crawlGo_absolute (s : List Char) (hv : validSchemeText s = true)
    (hlow : pyLowerL s = s) (hrel : usesRelative.contains s = true)
    (fetchO : String → Option String) (postsO : String → List String)
    (nextO : String → Option String)
    (hNext : ∀ url html href, fetchO url = some html → nextO html = some href →
      schemeOf (pyStrip href).data = none ∨
        schemeOf (pyStrip href).data = some s) :
    ∀ (fuel : Nat) (st : CrawlState) (cur : Option String) (stf : CrawlState),
      (∀ x ∈ st.allPosts, urlHasScheme x.data = true) →
      (∀ u, cur = some u → ∃ t, u.data = s ++ ':' :: t) →
      crawlGo fetchO postsO nextO fuel st cur = some stf →
      ∀ x ∈ stf.allPosts, urlHasScheme x.data = true := by
  intro fuel
  induction fuel with
  | zero =>
    intro st cur stf hA hG h
    simp only [crawlGo] at h
    injection h with h
    rw [← h]
    exact hA
  | succ fuel ih =>
    intro st cur stf hA hG h
    cases cur with
    | none =>
      simp only [crawlGo] at h
      injection h with h
      rw [← h]
      exact hA
    | some url =>
      simp only [crawlGo] at h
      by_cases hstop : (url = "" || st.seenPages.contains url) = true
      · rw [if_pos hstop] at h
        injection h with h
        rw [← h]
        exact hA
      · rw [if_neg hstop] at h
        cases hf : fetchO url with
        | none =>
          rw [hf] at h
          dsimp only at h
          injection h with h
          rw [← h]
          exact hA
        | some html =>
          rw [hf] at h
          dsimp only at h
          obtain ⟨t0, hurl⟩ := hG url rfl
          cases hfold : (postsO html).foldlM
              (fun acc p => (urljoin url p).map (setInsert acc))
              st.allPosts with
          | none => rw [hfold] at h; dsimp only at h; exact Option.noConfusion h
          | some all =>
            rw [hfold] at h
            dsimp only at h
            have hall : ∀ x ∈ all, urlHasScheme x.data = true := by
              intro x hx
              rcases (foldPosts_mem url _ _ _ hfold x).mp hx with hx0 | ⟨p, _, hpj⟩
              · exact hA x hx0
              · have hd := urljoin_data _ _ _ hpj
                rw [hurl] at hd
                exact urljoin_hasScheme s hv hlow hrel t0 p.data x.data hd
            cases hn : nextO html with
            | none =>
              rw [hn] at h
              dsimp only at h
              exact ih _ _ _ hall (fun u hu => Option.noConfusion hu) h
            | some href =>
              rw [hn] at h
              dsimp only at h
              cases hjn : urljoin url (pyStrip href) with
              | none => rw [hjn] at h; dsimp only at h; exact Option.noConfusion h
              | some nxt =>
                rw [hjn] at h
                dsimp only at h
                have hd := urljoin_data _ _ _ hjn
                rw [hurl] at hd
                have hgn := urljoin_next_good s hv hlow hrel t0
                  (pyStrip href).data nxt.data (hNext url html href hf hn) hd
                exact ih _ _ _ hall
                  (fun u hu => by injection hu with hu; rw [← hu]; exact hgn) h

theorem crawlGo_perm (fetchO : String → Option String)
    (postsO postsO2 : String → List String) (nextO : String → Option String)
    (hperm : ∀ h, List.Perm (postsO2 h) (postsO h)) :
    ∀ (fuel : Nat) (st st2 : CrawlState) (cur : Option String) (stf : CrawlState),
      st.seenPages = st2.seenPages →
      st.allPosts.Nodup → st2.allPosts.Nodup →
      (∀ x, x ∈ st.allPosts ↔ x ∈ st2.allPosts) →
      crawlGo fetchO postsO nextO fuel st cur = some stf →
      ∃ stf2, crawlGo fetchO postsO2 nextO fuel st2 cur = some stf2 ∧
        stf.allPosts.Nodup ∧ stf2.allPosts.Nodup ∧
        (∀ x, x ∈ stf.allPosts ↔ x ∈ stf2.allPosts) := by
  intro fuel
  induction fuel with
  | zero =>
    intro st st2 cur stf hseen hA hA2 hm h
    simp only [crawlGo] at h ⊢
    injection h with h
    subst h
    exact ⟨st2, rfl, hA, hA2, hm⟩
  | succ fuel ih =>
    intro st st2 cur stf hseen hA hA2 hm h
    cases cur with
    | none =>
      simp only [crawlGo] at h ⊢
      injection h with h
      subst h
      exact ⟨st2, rfl, hA, hA2, hm⟩
    | some url =>
      simp only [crawlGo] at h ⊢
      rw [← hseen]
      by_cases hstop : (url = "" || st.seenPages.contains url) = true
      · rw [if_pos hstop] at h
        rw [if_pos hstop]
        injection h with h
        subst h
        exact ⟨st2, rfl, hA, hA2, hm⟩
      · rw [if_neg hstop] at h
        rw [if_neg hstop]
        cases hf : fetchO url with
        | none =>
          rw [hf] at h
          dsimp only at h
          dsimp only
          injection h with h
          subst h
          exact ⟨_, rfl, hA, hA2, hm⟩
        | some html =>
          rw [hf] at h
          dsimp only at h
          dsimp only
          cases hfold : (postsO html).foldlM
              (fun acc p => (urljoin url p).map (setInsert acc))
              st.allPosts with
          | none => rw [hfold] at h; dsimp only at h; exact Option.noConfusion h
          | some all =>
            rw [hfold] at h
            dsimp only at h
            have hnot2 : ¬ ((postsO2 html).foldlM
                (fun acc p => (urljoin url p).map (setInsert acc))
                st2.allPosts = none) := by
              rw [foldPosts_none_iff]
              rintro ⟨p, hp, hpj⟩
              have hp2 : p ∈ postsO html := (hperm html).mem_iff.mp hp
              have hc : (postsO html).foldlM
                  (fun acc p => (urljoin url p).map (setInsert acc))
                  st.allPosts = none :=
                (foldPosts_none_iff url _ _).mpr ⟨p, hp2, hpj⟩
              rw [hfold] at hc
              exact Option.noConfusion hc
            cases hfold2 : (postsO2 html).foldlM
                (fun acc p => (urljoin url p).map (setInsert acc))
                st2.allPosts with
            | none => exact absurd hfold2 hnot2
            | some all2 =>
              dsimp only
              have hallm : ∀ x, x ∈ all ↔ x ∈ all2 := by
                intro x
                rw [foldPosts_mem url _ _ _ hfold x,
                  foldPosts_mem url _ _ _ hfold2 x]
                constructor
                · rintro (hx | ⟨p, hp, hpj⟩)
                  · exact Or.inl ((hm x).mp hx)
                  · exact Or.inr ⟨p, (hperm html).mem_iff.mpr hp, hpj⟩
                · rintro (hx | ⟨p, hp, hpj⟩)
                  · exact Or.inl ((hm x).mpr hx)
                  · exact Or.inr ⟨p, (hperm html).mem_iff.mp hp, hpj⟩
              have hnd : all.Nodup := foldPosts_nodup url _ _ _ hfold hA
              have hnd2 : all2.Nodup := foldPosts_nodup url _ _ _ hfold2 hA2
              cases hn : nextO html with
              | none =>
                rw [hn] at h
                dsimp only at h
                dsimp only
                exact ih { allPosts := all, seenPages := st.seenPages ++ [url] }
                  { allPosts := all2, seenPages := st.seenPages ++ [url] }
                  none stf rfl hnd hnd2 hallm h
              | some href =>
                rw [hn] at h
                dsimp only at h
                dsimp only
                cases hjn : urljoin url (pyStrip href) with
                | none => rw [hjn] at h; dsimp only at h; exact Option.noConfusion h
                | some nxt =>
                  rw [hjn] at h
                  dsimp only at h
                  dsimp only
                  exact ih { allPosts := all, seenPages := st.seenPages ++ [url] }
                    { allPosts := all2, seenPages := st.seenPages ++ [url] }
                    (some nxt) stf rfl hnd hnd2 hallm h

/-- C10 counterexample: with a schemeless start URL the crawl happily
returns relative item URLs — `crawl_listing_posts` over a page whose single
link is `y` yields `["y"]`, which carries no scheme, refuting "always
returns absolute item URLs". -/
theorem crawl_absolute_cex :
    crawlListingPosts (fun _ => some "P") (fun _ => ["y"]) (fun _ => none)
      "x" 1 = some ["y"] ∧ urlHasScheme "y".data = false := ⟨rfl, rfl⟩

/-- C10 (amended): whenever `crawl_listing_posts` returns a list, that
list is strictly ascending in code-point order (hence duplicate-free); it
is unchanged when any listing page yields its links in a different order
(a pointwise permutation of the extractor oracle); and all its elements
are scheme-qualified absolute URLs provided the start URL begins with a
nonempty lowercase relative-capable scheme and every next-page link
carries either no scheme of its own or that same scheme. -/
theorem crawl_sorted_dedup_absolute
    (fetchO : String → Option String) (postsO postsO2 : String → List String)
    (nextO : String → Option String) (startUrl : String) (maxPages : Nat)
    (r : List String) (s : List Char)
    (hrun : crawlListingPosts fetchO postsO nextO startUrl maxPages = some r) :
    r.Sorted (· < ·) ∧
    (validSchemeText s = true → pyLowerL s = s →
      usesRelative.contains s = true →
      (∃ t, startUrl.data = s ++ ':' :: t) →
      (∀ url html href, fetchO url = some html → nextO html = some href →
        schemeOf (pyStrip href).data = none ∨
          schemeOf (pyStrip href).data = some s) →
      ∀ x ∈ r, urlHasScheme x.data = true) ∧
    ((∀ h, List.Perm (postsO2 h) (postsO h)) →
      crawlListingPosts fetchO postsO2 nextO startUrl maxPages = some r) := by
  unfold crawlListingPosts at hrun
  cases hgo : crawlGo fetchO postsO nextO maxPages ⟨[], []⟩ (some startUrl) with
  | none => rw [hgo] at hrun; exact Option.noConfusion hrun
  | some stf =>
    rw [hgo] at hrun
    simp only [Option.map_some'] at hrun
    injection hrun with hrun
    have hnd : stf.allPosts.Nodup :=
      crawlGo_nodup fetchO postsO nextO maxPages ⟨[], []⟩ (some startUrl) stf
        List.nodup_nil hgo
    refine ⟨?_, ?_, ?_⟩
    · rw [← hrun]
      exact sortStrings_sorted_lt _ hnd
    · intro hv hlow hrel hstart hNext x hx
      obtain ⟨t0, hstart0⟩ := hstart
      have habs := crawlGo_absolute s hv hlow hrel fetchO postsO nextO hNext
        maxPages ⟨[], []⟩ (some startUrl) stf (by simp)
        (fun u hu => by injection hu with hu; rw [← hu]; exact ⟨t0, hstart0⟩) hgo
      apply habs
      rw [← hrun] at hx
      exact (sortStrings_mem _ x).mp hx
    · intro hperm
      obtain ⟨stf2, hgo2, hnd1, hnd2, hmm⟩ :=
        crawlGo_perm fetchO postsO postsO2 nextO hperm maxPages ⟨[], []⟩
          ⟨[], []⟩ (some startUrl) stf rfl List.nodup_nil List.nodup_nil
          (fun _ => Iff.rfl) hgo
      unfold crawlListingPosts
      rw [hgo2]
      simp only [Option.map_some']
      rw [← hrun]
      exact congrArg some (sortStrings_eq_of _ _ hnd2 hnd1 (fun x => (hmm x).symm))

theorem crawl_sorted_dedup_absolute_wit :
    List.Sorted (· < ·) ["http://a/a", "http://a/b"] ∧
    (∀ x ∈ ["http://a/a", "http://a/b"], urlHasScheme x.data = true) ∧
    crawlListingPosts (fun _ => some "P") (fun _ => ["/a", "/b"])
      (fun _ => none) "http://a" 1 = some ["http://a/a", "http://a/b"] := by
  have hp : List.Perm (["/a", "/b"] : List String) ["/b", "/a"] := by decide
  have h := crawl_sorted_dedup_absolute (fun _ => some "P")
    (fun _ => ["/b", "/a"]) (fun _ => ["/a", "/b"]) (fun _ => none)
    "http://a" 1 ["http://a/a", "http://a/b"] "http".data (by rfl)
  exact ⟨h.1,
    h.2.1 (by decide) (by decide) (by decide) ⟨"//a".data, rfl⟩
      (fun url html href _ hc => Option.noConfusion hc),
    h.2.2 (fun _ => hp)⟩

-- ---------- normalize_url lemmas (C3, C6): UTF-8 roundtrip ----------

theorem toNat_ofNat_valid (n : Nat) (h : n.isValidChar) :
    (Char.ofNat n).toNat = n := by
  rw [Char.ofNat, dif_pos h]
  rfl

theorem char_valid_ranges (c : Char) :
    c.toNat < 0xD800 ∨ (0xDFFF < c.toNat ∧ c.toNat < 0x110000) := c.valid

theorem utf8DecStep_enc (c : Char) (rest : List Nat) (b : Nat) (bs : List Nat)
    (hbs : utf8EncodeChar c = b :: bs) :
    utf8DecStep b (bs ++ rest) = (c, bs.length) := by
  have hv : c.toNat < 0xD800 ∨ (0xDFFF < c.toNat ∧ c.toNat < 0x110000) := c.valid
  unfold utf8EncodeChar at hbs
  by_cases h1 : c.toNat < 0x80
  · rw [if_pos h1] at hbs
    injection hbs with hb hbs2
    subst hb
    subst hbs2
    unfold utf8DecStep
    rw [if_pos h1, Char.ofNat_toNat]
    rfl
  · rw [if_neg h1] at hbs
    by_cases h2 : c.toNat < 0x800
    · rw [if_pos h2] at hbs
      injection hbs with hb hbs2
      subst hb
      subst hbs2
      unfold utf8DecStep
      rw [if_neg (by omega)]
      rw [if_pos (by simp only [Bool.and_eq_true, decide_eq_true_eq]; omega)]
      dsimp only [List.cons_append]
      rw [if_pos (by simp only [isCont, Bool.and_eq_true, decide_eq_true_eq]; omega)]
      have hval : (0xC0 + c.toNat / 64 - 0xC0) * 64 + (0x80 + c.toNat % 64 - 0x80)
          = c.toNat := by omega
      rw [hval, Char.ofNat_toNat]
      rfl
    · by_cases h3 : c.toNat < 0x10000
      · rw [if_neg h2, if_pos h3] at hbs
        injection hbs with hb hbs2
        subst hb
        subst hbs2
        unfold utf8DecStep
        rw [if_neg (by omega)]
        rw [if_neg (by simp only [Bool.and_eq_true, decide_eq_true_eq]; omega)]
        rw [if_pos (by simp only [Bool.and_eq_true, decide_eq_true_eq]; omega)]
        dsimp only [List.cons_append]
        by_cases hE0 : c.toNat < 0x1000
        · rw [if_pos (by omega : 0xE0 + c.toNat / 4096 = 0xE0)]
          rw [if_neg (by omega : ¬ 0xE0 + c.toNat / 4096 = 0xED)]
          rw [if_pos (by simp only [Bool.and_eq_true, decide_eq_true_eq]; omega)]
          rw [if_pos (by simp only [isCont, Bool.and_eq_true, decide_eq_true_eq]; omega)]
          have hval : (0xE0 + c.toNat / 4096 - 0xE0) * 4096 +
              (0x80 + c.toNat / 64 % 64 - 0x80) * 64 +
              (0x80 + c.toNat % 64 - 0x80) = c.toNat := by omega
          rw [hval, Char.ofNat_toNat]
          rfl
        · by_cases hED : 0xD000 ≤ c.toNat ∧ c.toNat < 0xE000
          · rw [if_neg (by omega : ¬ 0xE0 + c.toNat / 4096 = 0xE0)]
            rw [if_pos (by omega : 0xE0 + c.toNat / 4096 = 0xED)]
            rw [if_pos (by
              simp only [Bool.and_eq_true, decide_eq_true_eq]
              omega)]
            rw [if_pos (by simp only [isCont, Bool.and_eq_true, decide_eq_true_eq]; omega)]
            have hval : (0xE0 + c.toNat / 4096 - 0xE0) * 4096 +
                (0x80 + c.toNat / 64 % 64 - 0x80) * 64 +
                (0x80 + c.toNat % 64 - 0x80) = c.toNat := by omega
            rw [hval, Char.ofNat_toNat]
            rfl
          · rw [if_neg (by omega : ¬ 0xE0 + c.toNat / 4096 = 0xE0)]
            rw [if_neg (by omega : ¬ 0xE0 + c.toNat / 4096 = 0xED)]
            rw [if_pos (by simp only [Bool.and_eq_true, decide_eq_true_eq]; omega)]
            rw [if_pos (by simp only [isCont, Bool.and_eq_true, decide_eq_true_eq]; omega)]
            have hval : (0xE0 + c.toNat / 4096 - 0xE0) * 4096 +
                (0x80 + c.toNat / 64 % 64 - 0x80) * 64 +
                (0x80 + c.toNat % 64 - 0x80) = c.toNat := by omega
            rw [hval, Char.ofNat_toNat]
            rfl
      · rw [if_neg h2, if_neg h3] at hbs
        injection hbs with hb hbs2
        subst hb
        subst hbs2
        have hup : c.toNat < 0x110000 := by omega
        unfold utf8DecStep
        rw [if_neg (by omega)]
        rw [if_neg (by simp only [Bool.and_eq_true, decide_eq_true_eq]; omega)]
        rw [if_neg (by simp only [Bool.and_eq_true, decide_eq_true_eq]; omega)]
        rw [if_pos (by simp only [Bool.and_eq_true, decide_eq_true_eq]; omega)]
        dsimp only [List.cons_append]
        by_cases hF0 : c.toNat < 0x40000
        · rw [if_pos (by omega : 0xF0 + c.toNat / 262144 = 0xF0)]
          rw [if_neg (by omega : ¬ 0xF0 + c.toNat / 262144 = 0xF4)]
          rw [if_pos (by simp only [Bool.and_eq_true, decide_eq_true_eq]; omega)]
          rw [if_pos (by simp only [isCont, Bool.and_eq_true, decide_eq_true_eq]; omega)]
          rw [if_pos (by simp only [isCont, Bool.and_eq_true, decide_eq_true_eq]; omega)]
          have hval : (0xF0 + c.toNat / 262144 - 0xF0) * 262144 +
              (0x80 + c.toNat / 4096 % 64 - 0x80) * 4096 +
              (0x80 + c.toNat / 64 % 64 - 0x80) * 64 +
              (0x80 + c.toNat % 64 - 0x80) = c.toNat := by omega
          rw [hval, Char.ofNat_toNat]
          rfl
        · by_cases hF4 : 0x100000 ≤ c.toNat
          · rw [if_neg (by omega : ¬ 0xF0 + c.toNat / 262144 = 0xF0)]
            rw [if_pos (by omega : 0xF0 + c.toNat / 262144 = 0xF4)]
            rw [if_pos (by simp only [Bool.and_eq_true, decide_eq_true_eq]; omega)]
            rw [if_pos (by simp only [isCont, Bool.and_eq_true, decide_eq_true_eq]; omega)]
            rw [if_pos (by simp only [isCont, Bool.and_eq_true, decide_eq_true_eq]; omega)]
            have hval : (0xF0 + c.toNat / 262144 - 0xF0) * 262144 +
                (0x80 + c.toNat / 4096 % 64 - 0x80) * 4096 +
                (0x80 + c.toNat / 64 % 64 - 0x80) * 64 +
                (0x80 + c.toNat % 64 - 0x80) = c.toNat := by omega
            rw [hval, Char.ofNat_toNat]
            rfl
          · rw [if_neg (by omega : ¬ 0xF0 + c.toNat / 262144 = 0xF0)]
            rw [if_neg (by omega : ¬ 0xF0 + c.toNat / 262144 = 0xF4)]
            rw [if_pos (by simp only [Bool.and_eq_true, decide_eq_true_eq]; omega)]
            rw [if_pos (by simp only [isCont, Bool.and_eq_true, decide_eq_true_eq]; omega)]
            rw [if_pos (by simp only [isCont, Bool.and_eq_true, decide_eq_true_eq]; omega)]
            have hval : (0xF0 + c.toNat / 262144 - 0xF0) * 262144 +
                (0x80 + c.toNat / 4096 % 64 - 0x80) * 4096 +
                (0x80 + c.toNat / 64 % 64 - 0x80) * 64 +
                (0x80 + c.toNat % 64 - 0x80) = c.toNat := by omega
            rw [hval, Char.ofNat_toNat]
            rfl

theorem utf8Encode_cons (c : Char) (cs : List Char) :
    utf8Encode (c :: cs) = utf8EncodeChar c ++ utf8Encode cs := by
  simp [utf8Encode]

theorem utf8EncodeChar_ne_nil (c : Char) : ∃ b bs, utf8EncodeChar c = b :: bs := by
  unfold utf8EncodeChar
  dsimp only
  split_ifs <;> exact ⟨_, _, rfl⟩

theorem utf8DecGo_enc : ∀ (l : List Char) (fuel : Nat),
    (utf8Encode l).length ≤ fuel → utf8DecGo fuel (utf8Encode l) = l := by
  intro l
  induction l with
  | nil =>
    intro fuel _
    cases fuel <;> rfl
  | cons c cs ih =>
    intro fuel hf
    obtain ⟨b, bs, hbs⟩ := utf8EncodeChar_ne_nil c
    rw [utf8Encode_cons, hbs] at hf ⊢
    cases fuel with
    | zero =>
      exfalso
      simp at hf
    | succ fuel =>
      rw [List.cons_append, utf8DecGo]
      rw [utf8DecStep_enc c (utf8Encode cs) b bs hbs]
      dsimp only
      rw [List.drop_left]
      rw [ih fuel (by simp at hf ⊢; omega)]

theorem utf8_roundtrip (l : List Char) : utf8Dec (utf8Encode l) = l :=
  utf8DecGo_enc l (utf8Encode l).length le_rfl

-- ---------- normalize_url lemmas (C3, C6): percent-codec roundtrip ----------

theorem utf8EncodeChar_lt (c : Char) : ∀ b ∈ utf8EncodeChar c, b < 0x100 := by
  have hv := char_valid_ranges c
  intro b hb
  unfold utf8EncodeChar at hb
  dsimp only at hb
  split_ifs at hb with h1 h2 h3
  · simp at hb
    omega
  · simp at hb
    rcases hb with rfl | rfl <;> omega
  · simp at hb
    rcases hb with rfl | rfl | rfl <;> omega
  · simp at hb
    rcases hb with rfl | rfl | rfl | rfl <;> omega

theorem utf8Encode_lt (l : List Char) : ∀ b ∈ utf8Encode l, b < 0x100 := by
  intro b hb
  unfold utf8Encode at hb
  rw [List.mem_flatten] at hb
  obtain ⟨piece, hpiece, hbp⟩ := hb
  rw [List.mem_map] at hpiece
  obtain ⟨c, _, hpe⟩ := hpiece
  subst hpe
  exact utf8EncodeChar_lt c b hbp

theorem hexDigitUpper_toNat (d : Nat) (h : d < 16) :
    (hexDigitUpper d).toNat = if d < 10 then 0x30 + d else 0x41 + d - 10 := by
  unfold hexDigitUpper
  by_cases h10 : d < 10
  · rw [if_pos h10, if_pos h10, toNat_ofNat_valid _ (Or.inl (by omega))]
  · rw [if_neg h10, if_neg h10, toNat_ofNat_valid _ (Or.inl (by omega))]

theorem hexDigitUpper_safe (d : Nat) (h : d < 16) :
    alwaysSafe (hexDigitUpper d).toNat = true := by
  rw [hexDigitUpper_toNat d h]
  simp only [alwaysSafe, Bool.or_eq_true, Bool.and_eq_true, decide_eq_true_eq]
  by_cases h10 : d < 10
  · rw [if_pos h10]
    omega
  · rw [if_neg h10]
    omega

theorem isHexDigit_hexDigitUpper (d : Nat) (h : d < 16) :
    isHexDigit (hexDigitUpper d) = true := by
  have ht := hexDigitUpper_toNat d h
  simp only [isHexDigit, isAsciiDigit, Bool.or_eq_true, Bool.and_eq_true,
    decide_eq_true_eq]
  by_cases h10 : d < 10
  · rw [if_pos h10] at ht
    exact Or.inl (Or.inl ⟨show 48 ≤ (hexDigitUpper d).toNat by omega,
      show (hexDigitUpper d).toNat ≤ 57 by omega⟩)
  · rw [if_neg h10] at ht
    exact Or.inr ⟨show 65 ≤ (hexDigitUpper d).toNat by omega,
      show (hexDigitUpper d).toNat ≤ 70 by omega⟩

theorem hexVal_hexDigitUpper (d : Nat) (h : d < 16) :
    hexVal (hexDigitUpper d) = d := by
  have ht := hexDigitUpper_toNat d h
  unfold hexVal
  by_cases h10 : d < 10
  · rw [if_pos h10] at ht
    rw [if_pos (by
      simp only [isAsciiDigit, Bool.and_eq_true, decide_eq_true_eq]
      exact ⟨show 48 ≤ (hexDigitUpper d).toNat by omega,
        show (hexDigitUpper d).toNat ≤ 57 by omega⟩)]
    omega
  · rw [if_neg h10] at ht
    rw [if_neg (by
      simp only [isAsciiDigit, Bool.and_eq_true, decide_eq_true_eq, not_and]
      intro h1 h2
      exact absurd (show (hexDigitUpper d).toNat ≤ 57 from h2) (by omega))]
    rw [if_neg (by
      simp only [Bool.and_eq_true, decide_eq_true_eq, not_and]
      intro h1
      exact absurd (show 97 ≤ (hexDigitUpper d).toNat from h1) (by omega))]
    omega

theorem alwaysSafe_facts (b : Nat) (h : alwaysSafe b = true) :
    0x2D ≤ b ∧ b ≤ 0x7E ∧ b ≠ 0x25 ∧ b ≠ 0x2B ∧ b ≠ 0x20 := by
  simp only [alwaysSafe, Bool.or_eq_true, Bool.and_eq_true, decide_eq_true_eq] at h
  omega

theorem hexDigitUpper_notin (d : Nat) (h : d < 16) :
    hexDigitUpper d ≠ '+' ∧ hexDigitUpper d ≠ '%' := by
  have ht := hexDigitUpper_toNat d h
  constructor <;> intro he <;> rw [he] at ht
  · have h43 : (43 : Nat) = _ := ht
    split_ifs at h43 <;> omega
  · have h37 : (37 : Nat) = _ := ht
    split_ifs at h37 <;> omega

theorem replace_quotePlus (v : List Char) :
    replaceCharL '+' ' ' (quotePlusL v) =
      ((utf8Encode v).map qpPiece).flatten := by
  unfold quotePlusL replaceCharL
  rw [List.map_flatten, List.map_map]
  congr 1
  apply List.map_congr_left
  intro b hb
  have hblt : b < 0x100 := utf8Encode_lt v b hb
  simp only [Function.comp]
  unfold qpPiece
  by_cases h20 : b = 0x20
  · subst h20
    simp
  · by_cases hsafe : alwaysSafe b = true
    · rw [if_neg h20, if_neg h20, if_pos hsafe]
      have hf := alwaysSafe_facts b hsafe
      have htn : (Char.ofNat b).toNat = b := toNat_ofNat_valid b (Or.inl (by omega))
      have hne : Char.ofNat b ≠ '+' := by
        intro he
        rw [he] at htn
        have h43 : (43 : Nat) = b := htn
        omega
      simp [hne]
    · rw [if_neg h20, if_neg h20, if_neg hsafe]
      unfold pctEscape
      have hne1 := (hexDigitUpper_notin (b / 16) (by omega)).1
      have hne2 := (hexDigitUpper_notin (b % 16) (by omega)).1
      simp [hne1, hne2]

theorem qpPiece_ascii (b : Nat) (hb : b < 0x100) :
    ∀ c ∈ qpPiece b, isAsciiChar c = true := by
  intro c hc
  unfold qpPiece at hc
  split_ifs at hc with h20 hsafe
  · simp at hc
    subst hc
    decide
  · simp at hc
    subst hc
    have hf := alwaysSafe_facts b hsafe
    have htn : (Char.ofNat b).toNat = b := toNat_ofNat_valid b (Or.inl (by omega))
    simp only [isAsciiChar, decide_eq_true_eq]
    omega
  · unfold pctEscape at hc
    simp at hc
    rcases hc with rfl | rfl | rfl
    · decide
    · have := hexDigitUpper_toNat (b / 16) (by omega)
      simp only [isAsciiChar, decide_eq_true_eq]
      split_ifs at this <;> omega
    · have := hexDigitUpper_toNat (b % 16) (by omega)
      simp only [isAsciiChar, decide_eq_true_eq]
      split_ifs at this <;> omega

theorem takeWhile_all (p : Char → Bool) (l : List Char)
    (h : ∀ c ∈ l, p c = true) : l.takeWhile p = l := by
  induction l with
  | nil => rfl
  | cons a t ih =>
    rw [List.takeWhile_cons, h a (by simp)]
    simp only [if_true]
    rw [ih (fun c hc => h c (by simp [hc]))]

theorem dropWhile_all (p : Char → Bool) (l : List Char)
    (h : ∀ c ∈ l, p c = true) : l.dropWhile p = [] := by
  induction l with
  | nil => rfl
  | cons a t ih =>
    rw [List.dropWhile_cons, h a (by simp)]
    exact ih (fun c hc => h c (by simp [hc]))

theorem unquoteGo_nil (fuel : Nat) : unquoteGo fuel [] = [] := by
  cases fuel <;> rfl

theorem unquote_ascii (w : List Char) (hw : ∀ c ∈ w, isAsciiChar c = true) :
    unquoteL w = utf8Dec (pctBytes w) := by
  cases w with
  | nil => rfl
  | cons c cs =>
    unfold unquoteL
    rw [List.length_cons, unquoteGo]
    rw [hw c (by simp)]
    simp only [if_true]
    rw [takeWhile_all _ _ hw, dropWhile_all _ _ hw, unquoteGo_nil]
    simp

theorem pctBytes_cons_nonpct (c : Char) (rest : List Char) (h : c ≠ '%') :
    pctBytes (c :: rest) = c.toNat :: pctBytes rest := by
  rcases rest with _ | ⟨h1, _ | ⟨h2, r⟩⟩ <;> simp [pctBytes, h]

theorem pctBytes_pct (h1 h2 : Char) (rest : List Char)
    (hh1 : isHexDigit h1 = true) (hh2 : isHexDigit h2 = true) :
    pctBytes ('%' :: h1 :: h2 :: rest) =
      (hexVal h1 * 16 + hexVal h2) :: pctBytes rest := by
  simp [pctBytes, hh1, hh2]

theorem pctBytes_qpPieces : ∀ (bytes : List Nat), (∀ b ∈ bytes, b < 0x100) →
    pctBytes ((bytes.map qpPiece).flatten) = bytes := by
  intro bytes
  induction bytes with
  | nil => intro _; rfl
  | cons b bs ih =>
    intro hlt
    have hblt : b < 0x100 := hlt b (by simp)
    rw [List.map_cons, List.flatten_cons]
    by_cases h20 : b = 0x20
    · rw [show qpPiece b = [' '] from by rw [qpPiece, if_pos h20]]
      rw [List.singleton_append]
      rw [pctBytes_cons_nonpct ' ' _ (by decide)]
      rw [ih (fun x hx => hlt x (by simp [hx]))]
      rw [h20]
      rfl
    · by_cases hsafe : alwaysSafe b = true
      · rw [show qpPiece b = [Char.ofNat b] from by
          rw [qpPiece, if_neg h20, if_pos hsafe]]
        rw [List.singleton_append]
        have hf := alwaysSafe_facts b hsafe
        have htn : (Char.ofNat b).toNat = b := toNat_ofNat_valid b (Or.inl (by omega))
        rw [pctBytes_cons_nonpct _ _ (by
          intro he
          rw [he] at htn
          have h37 : (37 : Nat) = b := htn
          omega)]
        rw [htn, ih (fun x hx => hlt x (by simp [hx]))]
      · rw [show qpPiece b = pctEscape b from by
          rw [qpPiece, if_neg h20, if_neg hsafe]]
        unfold pctEscape
        rw [List.cons_append, List.cons_append, List.cons_append]
        rw [pctBytes_pct _ _ _ (isHexDigit_hexDigitUpper _ (by omega))
          (isHexDigit_hexDigitUpper _ (by omega))]
        rw [hexVal_hexDigitUpper _ (by omega), hexVal_hexDigitUpper _ (by omega)]
        rw [List.nil_append]
        rw [ih (fun x hx => hlt x (by simp [hx]))]
        congr 1
        omega

theorem unquotePlus_quotePlus (v : List Char) :
    unquotePlusL (quotePlusL v) = v := by
  unfold unquotePlusL
  rw [replace_quotePlus]
  rw [unquote_ascii _ (by
    intro c hc
    rw [List.mem_flatten] at hc
    obtain ⟨piece, hpiece, hcp⟩ := hc
    rw [List.mem_map] at hpiece
    obtain ⟨b, hb, hpe⟩ := hpiece
    subst hpe
    exact qpPiece_ascii b (utf8Encode_lt v b hb) c hcp)]
  rw [pctBytes_qpPieces _ (utf8Encode_lt v)]
  exact utf8_roundtrip v

-- ---------- normalize_url lemmas (C3, C6): urlencode/parse_qsl roundtrip ----------

theorem quotePlus_mem (v : List Char) :
    ∀ c ∈ quotePlusL v, c = '+' ∨ c = '%' ∨ alwaysSafe c.toNat = true := by
  intro c hc
  unfold quotePlusL at hc
  rw [List.mem_flatten] at hc
  obtain ⟨piece, hpiece, hcp⟩ := hc
  rw [List.mem_map] at hpiece
  obtain ⟨b, hb, hpe⟩ := hpiece
  have hblt : b < 0x100 := utf8Encode_lt v b hb
  subst hpe
  split_ifs at hcp with h20 hsafe
  · simp at hcp
    subst hcp
    exact Or.inl rfl
  · simp at hcp
    subst hcp
    refine Or.inr (Or.inr ?_)
    rw [toNat_ofNat_valid b (Or.inl (by omega))]
    exact hsafe
  · unfold pctEscape at hcp
    simp at hcp
    rcases hcp with rfl | rfl | rfl
    · exact Or.inr (Or.inl rfl)
    · exact Or.inr (Or.inr (hexDigitUpper_safe _ (by omega)))
    · exact Or.inr (Or.inr (hexDigitUpper_safe _ (by omega)))

theorem encOK_bounds (c : Char)
    (h : c = '&' ∨ c = '=' ∨ c = '+' ∨ c = '%' ∨ alwaysSafe c.toNat = true) :
    33 ≤ c.toNat ∧ c.toNat ≤ 126 ∧ c.toNat ≠ 35 ∧ c.toNat ≠ 63 ∧
      c.toNat ≠ 58 ∧ c.toNat ≠ 47 := by
  rcases h with rfl | rfl | rfl | rfl | h
  · exact ⟨by decide, by decide, by decide, by decide, by decide, by decide⟩
  · exact ⟨by decide, by decide, by decide, by decide, by decide, by decide⟩
  · exact ⟨by decide, by decide, by decide, by decide, by decide, by decide⟩
  · exact ⟨by decide, by decide, by decide, by decide, by decide, by decide⟩
  · simp only [alwaysSafe, Bool.or_eq_true, Bool.and_eq_true,
      decide_eq_true_eq] at h
    omega

theorem encOK_charfacts (c : Char)
    (h : 33 ≤ c.toNat ∧ c.toNat ≤ 126 ∧ c.toNat ≠ 35 ∧ c.toNat ≠ 63 ∧
      c.toNat ≠ 58 ∧ c.toNat ≠ 47) :
    c ≠ '#' ∧ c ≠ '?' ∧ c ≠ ':' ∧ isUnsafeUrlByte c = false ∧
      isC0OrSpace c = false := by
  obtain ⟨h1, h2, h3, h4, h5, h6⟩ := h
  refine ⟨fun he => h3 (by rw [he]; rfl), fun he => h4 (by rw [he]; rfl),
    fun he => h5 (by rw [he]; rfl), ?_, ?_⟩
  · have h9 : c ≠ '\t' := fun he => absurd (he ▸ h1) (by decide)
    have h13 : c ≠ '\r' := fun he => absurd (he ▸ h1) (by decide)
    have h10 : c ≠ '\n' := fun he => absurd (he ▸ h1) (by decide)
    simp [isUnsafeUrlByte, h9, h13, h10]
  · simp only [isC0OrSpace, decide_eq_false_iff_not]
    omega

theorem quotePlus_ne (v : List Char) :
    ∀ c ∈ quotePlusL v, c ≠ '&' ∧ c ≠ '=' := by
  intro c hc
  rcases quotePlus_mem v c hc with rfl | rfl | h
  · exact ⟨by decide, by decide⟩
  · exact ⟨by decide, by decide⟩
  · have hf := alwaysSafe_facts c.toNat h
    simp only [alwaysSafe, Bool.or_eq_true, Bool.and_eq_true,
      decide_eq_true_eq] at h
    exact ⟨fun he => by rw [he] at h; simp at h,
      fun he => by rw [he] at h; simp at h⟩

theorem splitFirstL_append_gen (sep : Char) (s r : List Char)
    (hs : ∀ c ∈ s, c ≠ sep) : splitFirstL sep (s ++ sep :: r) = some (s, r) := by
  induction s with
  | nil => simp [splitFirstL]
  | cons c cs ih =>
    have hc : ¬ c = sep := hs c (by simp)
    simp [splitFirstL, hc, ih (fun x hx => hs x (by simp [hx]))]

theorem splitFirstL_none (sep : Char) (l : List Char)
    (h : ∀ c ∈ l, c ≠ sep) : splitFirstL sep l = none := by
  induction l with
  | nil => rfl
  | cons c cs ih =>
    have hc : ¬ c = sep := h c (by simp)
    simp [splitFirstL, hc, ih (fun x hx => h x (by simp [hx]))]

theorem splitOnChar_free (sep : Char) (l : List Char)
    (h : ∀ c ∈ l, c ≠ sep) : splitOnCharL sep l = [l] := by
  induction l with
  | nil => rfl
  | cons c cs ih =>
    have hc : ¬ c = sep := h c (by simp)
    rw [splitOnCharL, if_neg hc, ih (fun x hx => h x (by simp [hx]))]

theorem splitOnChar_append (sep : Char) (x R : List Char)
    (h : ∀ c ∈ x, c ≠ sep) :
    splitOnCharL sep (x ++ sep :: R) = x :: splitOnCharL sep R := by
  induction x with
  | nil => simp [splitOnCharL]
  | cons c cs ih =>
    have hc : ¬ c = sep := h c (by simp)
    rw [List.cons_append, splitOnCharL, if_neg hc,
      ih (fun y hy => h y (by simp [hy]))]

theorem intercalate_ne_nil (x : List Char) (t : List (List Char))
    (hx : x ≠ []) : intercalateL ['&'] (x :: t) ≠ [] := by
  cases t with
  | nil => exact hx
  | cons y t2 =>
    rw [intercalateL]
    simp [hx]

theorem encPiece_ne_nil (kv : List Char × List Char) : encPiece kv ≠ [] := by
  unfold encPiece
  simp

theorem encPiece_amp_free (kv : List Char × List Char) :
    ∀ c ∈ encPiece kv, c ≠ '&' := by
  intro c hc
  unfold encPiece at hc
  rw [List.mem_append, List.mem_cons] at hc
  rcases hc with hc | hc | hc
  · exact (quotePlus_ne _ c hc).1
  · subst hc
    decide
  · exact (quotePlus_ne _ c hc).1

theorem splitFirst_encPiece (kv : List Char × List Char) :
    splitFirstL '=' (encPiece kv) = some (quotePlusL kv.1, quotePlusL kv.2) :=
  splitFirstL_append_gen '=' _ _ (fun c hc => (quotePlus_ne _ c hc).2)

theorem parseQsl_fold (pairs : List (List Char × List Char)) :
    ((pairs.map encPiece).foldr (fun nv acc =>
      if nv = [] then acc
      else
        match splitFirstL '=' nv with
        | none => (unquotePlusL nv, []) :: acc
        | some (n, v) => (unquotePlusL n, unquotePlusL v) :: acc) []) = pairs := by
  induction pairs with
  | nil => rfl
  | cons kv rest ih =>
    rw [List.map_cons, List.foldr_cons, ih]
    rw [if_neg (encPiece_ne_nil kv), splitFirst_encPiece kv]
    dsimp only
    rw [unquotePlus_quotePlus, unquotePlus_quotePlus]

theorem splitOnChar_encPieces (pairs : List (List Char × List Char)) :
    pairs ≠ [] →
    splitOnCharL '&' (intercalateL ['&'] (pairs.map encPiece)) =
      pairs.map encPiece := by
  induction pairs with
  | nil => intro h; exact absurd rfl h
  | cons kv rest ih =>
    intro _
    cases rest with
    | nil =>
      rw [List.map_cons, List.map_nil, intercalateL]
      exact splitOnChar_free '&' _ (encPiece_amp_free kv)
    | cons kv2 rest2 =>
      rw [List.map_cons, List.map_cons]
      rw [intercalateL]
      rw [List.append_assoc, List.singleton_append]
      rw [splitOnChar_append '&' _ _ (encPiece_amp_free kv)]
      rw [← List.map_cons encPiece kv2 rest2]
      rw [ih (by simp)]

theorem parseQsl_urlencode (pairs : List (List Char × List Char)) :
    parseQsl (urlencodeL pairs) = pairs := by
  cases hp : pairs with
  | nil => rfl
  | cons kv rest =>
    have henc : urlencodeL (kv :: rest) =
        intercalateL ['&'] ((kv :: rest).map encPiece) := rfl
    unfold parseQsl
    rw [henc]
    rw [if_neg (by
      rw [List.map_cons]
      exact intercalate_ne_nil _ _ (encPiece_ne_nil kv))]
    rw [splitOnChar_encPieces (kv :: rest) (by simp)]
    exact parseQsl_fold (kv :: rest)

-- ---------- normalize_url lemmas (C3, C6): the pair order and normQuery ----------

theorem strLeB_total (x y : List Char) :
    strLeB x y = true ∨ strLeB y x = true :=
  total_of strLe ⟨x⟩ ⟨y⟩

theorem strLeB_trans (x y z : List Char) (h1 : strLeB x y = true)
    (h2 : strLeB y z = true) : strLeB x z = true :=
  @IsTrans.trans String strLe _ ⟨x⟩ ⟨y⟩ ⟨z⟩ h1 h2

theorem strLeB_refl (x : List Char) : strLeB x x = true :=
  (strLeB_total x x).elim id id

theorem strLeB_antisymm (x y : List Char) (h1 : strLeB x y = true)
    (h2 : strLeB y x = true) : x = y := by
  have he : (⟨x⟩ : String) = ⟨y⟩ :=
    le_antisymm ((strLe_iff_le _ _).mp h1) ((strLe_iff_le _ _).mp h2)
  injection he

theorem strLeB_of_false (x y : List Char) (h : strLeB x y = false) :
    strLeB y x = true :=
  (strLeB_total x y).resolve_left (by simp [h])

theorem pairLe_total (a b : List Char × List Char) : pairLe a b ∨ pairLe b a := by
  unfold pairLe
  cases hab : strLeB a.1 b.1 with
  | false => exact Or.inr (Or.inl rfl)
  | true =>
    cases hba : strLeB b.1 a.1 with
    | false => exact Or.inl (Or.inl rfl)
    | true =>
      have he : a.1 = b.1 := strLeB_antisymm _ _ hab hba
      rcases strLeB_total a.2 b.2 with hv | hv
      · exact Or.inl (Or.inr ⟨he, hv⟩)
      · exact Or.inr (Or.inr ⟨he.symm, hv⟩)

theorem pairLe_trans (a b c : List Char × List Char)
    (h1 : pairLe a b) (h2 : pairLe b c) : pairLe a c := by
  unfold pairLe at h1 h2 ⊢
  rcases h1 with h1 | ⟨he1, hv1⟩ <;> rcases h2 with h2 | ⟨he2, hv2⟩
  · left
    cases hca : strLeB c.1 a.1 with
    | false => rfl
    | true =>
      exfalso
      have hab : strLeB a.1 b.1 = true := strLeB_of_false _ _ h1
      have hcb : strLeB c.1 b.1 = true := strLeB_trans _ _ _ hca hab
      rw [h2] at hcb
      exact Bool.noConfusion hcb
  · left
    rw [← he2]
    exact h1
  · left
    rw [he1]
    exact h2
  · exact Or.inr ⟨he1.trans he2, strLeB_trans _ _ _ hv1 hv2⟩

theorem pairLe_antisymm (a b : List Char × List Char)
    (h1 : pairLe a b) (h2 : pairLe b a) : a = b := by
  unfold pairLe at h1 h2
  rcases h1 with h1 | ⟨he1, hv1⟩ <;> rcases h2 with h2 | ⟨he2, hv2⟩
  · have := strLeB_of_false _ _ h1
    rw [h2] at this
    exact Bool.noConfusion this
  · rw [he2] at h1
    rw [strLeB_refl] at h1
    exact Bool.noConfusion h1
  · rw [he1] at h2
    rw [strLeB_refl] at h2
    exact Bool.noConfusion h2
  · have hv : a.2 = b.2 := strLeB_antisymm _ _ hv1 hv2
    exact Prod.ext he1 hv

theorem pairLe_isTotal : IsTotal (List Char × List Char) pairLe := ⟨pairLe_total⟩

theorem pairLe_isTrans : IsTrans (List Char × List Char) pairLe :=
  ⟨pairLe_trans⟩

theorem sortPairs_sorted (l : List (List Char × List Char)) :
    List.Sorted pairLe (sortPairs l) :=
  @List.sorted_insertionSort _ pairLe _ pairLe_isTotal pairLe_isTrans l

theorem sortPairs_of_sorted (l : List (List Char × List Char))
    (h : List.Sorted pairLe l) : sortPairs l = l :=
  List.Sorted.insertionSort_eq h

theorem sortPairs_perm (l : List (List Char × List Char)) :
    List.Perm (sortPairs l) l :=
  List.perm_insertionSort pairLe l

theorem normQuery_pairs (q : List Char) :
    parseQsl (normQuery q) = sortPairs ((parseQsl q).filter
      (fun kv => !dropParams.contains (pyLowerL kv.1))) := by
  unfold normQuery
  exact parseQsl_urlencode _

theorem normQuery_idem (q : List Char) :
    normQuery (normQuery q) = normQuery q := by
  conv_lhs => rw [normQuery]
  rw [normQuery_pairs q]
  have hfil : (sortPairs ((parseQsl q).filter
      (fun kv => !dropParams.contains (pyLowerL kv.1)))).filter
      (fun kv => !dropParams.contains (pyLowerL kv.1)) =
      sortPairs ((parseQsl q).filter
        (fun kv => !dropParams.contains (pyLowerL kv.1))) := by
    apply List.filter_eq_self.mpr
    intro kv hkv
    have hkv2 := (sortPairs_perm _).mem_iff.mp hkv
    exact (List.mem_filter.mp hkv2).2
  rw [hfil, sortPairs_of_sorted _ (sortPairs_sorted _)]
  rfl

-- ---------- normalize_url lemmas (C3, C6): lowercase map facts ----------

theorem isAsciiUpper_bounds (c : Char) (h : isAsciiUpper c = true) :
    65 ≤ c.toNat ∧ c.toNat ≤ 90 := by
  simp only [isAsciiUpper, Bool.and_eq_true, decide_eq_true_eq] at h
  exact ⟨h.1, h.2⟩

theorem isAsciiUpper_of_bounds (c : Char)
    (h : c.toNat < 65 ∨ 90 < c.toNat) : isAsciiUpper c = false := by
  cases hb : isAsciiUpper c with
  | false => rfl
  | true =>
    exfalso
    have := isAsciiUpper_bounds c hb
    omega

theorem pyLowerChar_toNat (c : Char) :
    (pyLowerChar c).toNat =
      if isAsciiUpper c = true then c.toNat + 32 else c.toNat := by
  unfold pyLowerChar
  by_cases h : isAsciiUpper c = true
  · rw [if_pos h, if_pos h]
    have hb := isAsciiUpper_bounds c h
    exact toNat_ofNat_valid _ (Or.inl (by omega))
  · rw [if_neg h, if_neg h]

theorem pyLowerChar_of_notUpper (c : Char) (h : isAsciiUpper c = false) :
    pyLowerChar c = c := by
  unfold pyLowerChar
  rw [h]
  simp

theorem pyLowerChar_idem (c : Char) :
    pyLowerChar (pyLowerChar c) = pyLowerChar c := by
  by_cases h : isAsciiUpper c = true
  · apply pyLowerChar_of_notUpper
    apply isAsciiUpper_of_bounds
    rw [pyLowerChar_toNat, if_pos h]
    have := isAsciiUpper_bounds c h
    omega
  · have hc : pyLowerChar c = c :=
      pyLowerChar_of_notUpper c (by
        cases hb : isAsciiUpper c with
        | false => rfl
        | true => exact absurd hb h)
    rw [hc]
    exact hc

theorem pyLowerL_idem (l : List Char) : pyLowerL (pyLowerL l) = pyLowerL l := by
  unfold pyLowerL
  rw [List.map_map]
  apply List.map_congr_left
  intro c _
  exact pyLowerChar_idem c

theorem pyLowerChar_ne (c : Char) (ch : Char)
    (hch : ch.toNat < 65 ∨ (90 < ch.toNat ∧ ch.toNat < 97) ∨ 122 < ch.toNat) :
    (pyLowerChar c = ch) ↔ (c = ch) := by
  by_cases h : isAsciiUpper c = true
  · have hb := isAsciiUpper_bounds c h
    have ht : (pyLowerChar c).toNat = c.toNat + 32 := by
      rw [pyLowerChar_toNat, if_pos h]
    constructor
    · intro he
      exfalso
      rw [he] at ht
      omega
    · intro he
      exfalso
      rw [he] at hb
      omega
  · rw [pyLowerChar_of_notUpper c (by
      cases hb : isAsciiUpper c with
      | false => rfl
      | true => exact absurd hb h)]

theorem pyLower_contains (l : List Char) (ch : Char)
    (hch : ch.toNat < 65 ∨ (90 < ch.toNat ∧ ch.toNat < 97) ∨ 122 < ch.toNat) :
    (pyLowerL l).contains ch = l.contains ch := by
  induction l with
  | nil => rfl
  | cons c cs ih =>
    show ((pyLowerChar c :: pyLowerL cs).contains ch) = _
    rw [List.contains_cons, List.contains_cons, ih]
    congr 1
    by_cases he : c = ch
    · rw [(pyLowerChar_ne c ch hch).mpr he, he]
    · have h1 : pyLowerChar c ≠ ch := fun hx => he ((pyLowerChar_ne c ch hch).mp hx)
      simp [Ne.symm h1, Ne.symm he]

theorem pyLowerChar_gt32 (c : Char) (h : 32 < c.toNat) :
    32 < (pyLowerChar c).toNat := by
  rw [pyLowerChar_toNat]
  split_ifs <;> omega

theorem pyLowerChar_netlocEnd (c : Char) (h : isNetlocEnd c = false) :
    isNetlocEnd (pyLowerChar c) = false := by
  by_cases hu : isAsciiUpper c = true
  · have hb := isAsciiUpper_bounds c hu
    have ht : (pyLowerChar c).toNat = c.toNat + 32 := by
      rw [pyLowerChar_toNat, if_pos hu]
    have h47 : pyLowerChar c ≠ '/' := fun he => by
      rw [he] at ht
      have hb2 : (47 : Nat) = c.toNat + 32 := ht
      omega
    have h63 : pyLowerChar c ≠ '?' := fun he => by
      rw [he] at ht
      have hb2 : (63 : Nat) = c.toNat + 32 := ht
      omega
    have h35 : pyLowerChar c ≠ '#' := fun he => by
      rw [he] at ht
      have hb2 : (35 : Nat) = c.toNat + 32 := ht
      omega
    simp [isNetlocEnd, h47, h63, h35]
  · rw [pyLowerChar_of_notUpper c (by
      cases hb : isAsciiUpper c with
      | false => rfl
      | true => exact absurd hb hu)]
    exact h

theorem pyLowerChar_unsafe (c : Char) (h : isUnsafeUrlByte c = false) :
    isUnsafeUrlByte (pyLowerChar c) = false := by
  by_cases hu : isAsciiUpper c = true
  · have hb := isAsciiUpper_bounds c hu
    have ht : (pyLowerChar c).toNat = c.toNat + 32 := by
      rw [pyLowerChar_toNat, if_pos hu]
    have h9 : pyLowerChar c ≠ '\t' := fun he => by
      rw [he] at ht
      have hb2 : (9 : Nat) = c.toNat + 32 := ht
      omega
    have h13 : pyLowerChar c ≠ '\r' := fun he => by
      rw [he] at ht
      have hb2 : (13 : Nat) = c.toNat + 32 := ht
      omega
    have h10 : pyLowerChar c ≠ '\n' := fun he => by
      rw [he] at ht
      have hb2 : (10 : Nat) = c.toNat + 32 := ht
      omega
    simp [isUnsafeUrlByte, h9, h13, h10]
  · rw [pyLowerChar_of_notUpper c (by
      cases hb : isAsciiUpper c with
      | false => rfl
      | true => exact absurd hb hu)]
    exact h

theorem isAsciiAlpha_pyLower (c : Char) (h : isAsciiAlpha c = true) :
    isAsciiAlpha (pyLowerChar c) = true := by
  by_cases hu : isAsciiUpper c = true
  · have hb := isAsciiUpper_bounds c hu
    have ht : (pyLowerChar c).toNat = c.toNat + 32 := by
      rw [pyLowerChar_toNat, if_pos hu]
    simp only [isAsciiAlpha, isAsciiUpper, isAsciiLower, Bool.or_eq_true,
      Bool.and_eq_true, decide_eq_true_eq]
    right
    exact ⟨show 97 ≤ (pyLowerChar c).toNat by omega,
      show (pyLowerChar c).toNat ≤ 122 by omega⟩
  · rw [pyLowerChar_of_notUpper c (by
      cases hb : isAsciiUpper c with
      | false => rfl
      | true => exact absurd hb hu)]
    exact h

theorem isSchemeChar_pyLower (c : Char) (h : isSchemeChar c = true) :
    isSchemeChar (pyLowerChar c) = true := by
  simp only [isSchemeChar, Bool.or_eq_true] at h ⊢
  rcases h with ((((ha | hd) | hp) | hm) | hdot)
  · exact Or.inl (Or.inl (Or.inl (Or.inl (isAsciiAlpha_pyLower c ha))))
  · rw [pyLowerChar_of_notUpper c (by
      apply isAsciiUpper_of_bounds
      simp only [isAsciiDigit, Bool.and_eq_true, decide_eq_true_eq] at hd
      have h1 : 48 ≤ c.toNat := hd.1
      have h2 : c.toNat ≤ 57 := hd.2
      omega)]
    exact Or.inl (Or.inl (Or.inl (Or.inr hd)))
  · rw [pyLowerChar_of_notUpper c (by
      apply isAsciiUpper_of_bounds
      simp only [decide_eq_true_eq] at hp
      subst hp
      decide)]
    exact Or.inl (Or.inl (Or.inr hp))
  · rw [pyLowerChar_of_notUpper c (by
      apply isAsciiUpper_of_bounds
      simp only [decide_eq_true_eq] at hm
      subst hm
      decide)]
    exact Or.inl (Or.inr hm)
  · rw [pyLowerChar_of_notUpper c (by
      apply isAsciiUpper_of_bounds
      simp only [decide_eq_true_eq] at hdot
      subst hdot
      decide)]
    exact Or.inr hdot

theorem validSchemeText_pyLower (s : List Char) (h : validSchemeText s = true) :
    validSchemeText (pyLowerL s) = true := by
  match s, h with
  | c0 :: tail, h =>
    simp only [validSchemeText, Bool.and_eq_true] at h
    show validSchemeText (pyLowerChar c0 :: pyLowerL tail) = true
    simp only [validSchemeText, Bool.and_eq_true]
    refine ⟨isAsciiAlpha_pyLower c0 h.1, ?_⟩
    rw [List.all_eq_true]
    intro c hc
    unfold pyLowerL at hc
    rw [List.mem_map] at hc
    obtain ⟨c0, hc0, rfl⟩ := hc
    exact isSchemeChar_pyLower c0 (List.all_eq_true.mp h.2 c0 hc0)

theorem schemeSplit_shape (l : List Char) (s r : List Char)
    (h : schemeSplit l = some (s, r)) :
    validSchemeText s = true ∧ pyLowerL s = s := by
  unfold schemeSplit at h
  cases hsp : splitFirstL ':' l with
  | none => rw [hsp] at h; exact Option.noConfusion h
  | some pr =>
    obtain ⟨pre, rest⟩ := pr
    rw [hsp] at h
    dsimp only at h
    cases pre with
    | nil => exact Option.noConfusion h
    | cons c0 tail =>
      dsimp only at h
      by_cases hvc : (isAsciiAlpha c0 && tail.all isSchemeChar) = true
      · rw [if_pos hvc] at h
        injection h with h
        injection h with h1 h2
        subst h1
        simp only [Bool.and_eq_true] at hvc
        constructor
        · exact validSchemeText_pyLower (c0 :: tail) (by
            simp only [validSchemeText, Bool.and_eq_true]
            exact hvc)
        · exact pyLowerL_idem (c0 :: tail)
      · rw [if_neg hvc] at h
        exact Option.noConfusion h

-- ---------- normalize_url lemmas (C6): list and split helpers ----------

theorem removeUnsafe_eq_self (l : List Char)
    (h : ∀ c ∈ l, isUnsafeUrlByte c = false) : removeUnsafe l = l :=
  List.filter_eq_self.mpr (fun c hc => by simp [h c hc])

theorem takeWhile_append_stop (p : Char → Bool) (a b : List Char)
    (ha : ∀ c ∈ a, p c = true)
    (hb : b = [] ∨ ∃ c t, b = c :: t ∧ p c = false) :
    (a ++ b).takeWhile p = a ∧ (a ++ b).dropWhile p = b := by
  induction a with
  | nil =>
    rcases hb with rfl | ⟨c, t, rfl, hc⟩
    · exact ⟨rfl, rfl⟩
    · rw [List.nil_append]
      rw [List.takeWhile_cons, List.dropWhile_cons, hc]
      exact ⟨by simp, by simp⟩
  | cons x xs ih =>
    have hx : p x = true := ha x (by simp)
    have ih2 := ih (fun c hc => ha c (by simp [hc]))
    rw [List.cons_append, List.takeWhile_cons, List.dropWhile_cons, hx]
    exact ⟨by simp [ih2.1], by simp [ih2.2]⟩

theorem splitFirstL_eq (sep : Char) :
    ∀ (l a b : List Char), splitFirstL sep l = some (a, b) →
      l = a ++ sep :: b ∧ ∀ c ∈ a, c ≠ sep
  | [], a, b, h => by exact Option.noConfusion h
  | c :: cs, a, b, h => by
    by_cases hc : c = sep
    · rw [splitFirstL, if_pos hc] at h
      injection h with h
      injection h with h1 h2
      subst h1
      subst h2
      subst hc
      exact ⟨rfl, by simp⟩
    · rw [splitFirstL, if_neg hc] at h
      cases hsp : splitFirstL sep cs with
      | none => rw [hsp] at h; exact Option.noConfusion h
      | some pr =>
        obtain ⟨a2, b2⟩ := pr
        rw [hsp] at h
        rw [Option.map_some'] at h
        injection h with h
        injection h with h1 h2
        obtain ⟨he, hfree⟩ := splitFirstL_eq sep cs a2 b2 hsp
        subst h2
        subst h1
        constructor
        · rw [List.cons_append, he]
        · intro c2 hc2
          rcases List.mem_cons.mp hc2 with rfl | hc2
          · exact hc
          · exact hfree c2 hc2

theorem splitFirstL_none_mem (sep : Char) :
    ∀ (l : List Char), splitFirstL sep l = none → ∀ c ∈ l, c ≠ sep
  | [], _, c, hc => by simp at hc
  | c0 :: cs, h, c, hc => by
    by_cases hc0 : c0 = sep
    · rw [splitFirstL, if_pos hc0] at h
      exact Option.noConfusion h
    · rw [splitFirstL, if_neg hc0] at h
      cases hsp : splitFirstL sep cs with
      | some pr =>
        rw [hsp, Option.map_some'] at h
        exact Option.noConfusion h
      | none =>
        rcases List.mem_cons.mp hc with rfl | hc2
        · exact hc0
        · exact splitFirstL_none_mem sep cs hsp c hc2

theorem splitFirst_cons_ne (sep c : Char) (l : List Char) (h : ¬ c = sep) :
    splitFirstL sep (c :: l) =
      (splitFirstL sep l).map (fun pr => (c :: pr.1, pr.2)) := by
  rw [splitFirstL, if_neg h]

theorem splitFirst_append_left (sep : Char) (p t a b : List Char)
    (h : splitFirstL sep p = some (a, b)) :
    splitFirstL sep (p ++ t) = some (a, b ++ t) := by
  obtain ⟨he, hfree⟩ := splitFirstL_eq sep p a b h
  rw [he, List.append_assoc]
  exact splitFirstL_append_gen sep a (b ++ t) hfree

theorem schemeSplit_ne_nil (l s r : List Char)
    (h : schemeSplit l = some (s, r)) : s ≠ [] := by
  unfold schemeSplit at h
  cases hsp : splitFirstL ':' l with
  | none => rw [hsp] at h; exact Option.noConfusion h
  | some pr =>
    obtain ⟨pre, rest⟩ := pr
    rw [hsp] at h
    dsimp only at h
    cases pre with
    | nil => exact Option.noConfusion h
    | cons c0 tail =>
      dsimp only at h
      by_cases hvc : (isAsciiAlpha c0 && tail.all isSchemeChar) = true
      · rw [if_pos hvc] at h
        injection h with h
        injection h with h1 h2
        intro hnil
        rw [← h1] at hnil
        exact absurd hnil (by simp [pyLowerL])
      · rw [if_neg hvc] at h
        exact Option.noConfusion h

theorem schemeSplit_decomp (l s r : List Char)
    (h : schemeSplit l = some (s, r)) : ∃ pre, l = pre ++ ':' :: r := by
  unfold schemeSplit at h
  cases hsp : splitFirstL ':' l with
  | none => rw [hsp] at h; exact Option.noConfusion h
  | some pr =>
    obtain ⟨pre, rest⟩ := pr
    rw [hsp] at h
    dsimp only at h
    cases pre with
    | nil => exact Option.noConfusion h
    | cons c0 tail =>
      dsimp only at h
      by_cases hvc : (isAsciiAlpha c0 && tail.all isSchemeChar) = true
      · rw [if_pos hvc] at h
        injection h with h
        injection h with h1 h2
        obtain ⟨he, _⟩ := splitFirstL_eq ':' l (c0 :: tail) rest hsp
        exact ⟨c0 :: tail, by rw [he, h2]⟩
      · rw [if_neg hvc] at h
        exact Option.noConfusion h

theorem schemeSplit_none_of_head (c : Char) (l : List Char)
    (ha : isAsciiAlpha c = false) (hc : ¬ c = ':') :
    schemeSplit (c :: l) = none := by
  unfold schemeSplit
  rw [splitFirst_cons_ne ':' c l hc]
  cases hsp : splitFirstL ':' l with
  | none => rfl
  | some pr =>
    obtain ⟨a, b⟩ := pr
    rw [Option.map_some']
    dsimp only
    simp [ha]

theorem schemeSplit_none_extend (p t1 t2 : List Char)
    (h1 : schemeSplit (p ++ t1) = none) (h2 : ∀ c ∈ t2, c ≠ ':') :
    schemeSplit (p ++ t2) = none := by
  cases hsp : splitFirstL ':' p with
  | none =>
    have hfree := splitFirstL_none_mem ':' p hsp
    unfold schemeSplit
    rw [splitFirstL_none ':' (p ++ t2) (by
      intro c hc
      rcases List.mem_append.mp hc with hc | hc
      · exact hfree c hc
      · exact h2 c hc)]
  | some pr =>
    obtain ⟨a, b⟩ := pr
    have he1 := splitFirst_append_left ':' p t1 a b hsp
    have he2 := splitFirst_append_left ':' p t2 a b hsp
    unfold schemeSplit at h1 ⊢
    rw [he1] at h1
    rw [he2]
    dsimp only at h1 ⊢
    cases a with
    | nil => rfl
    | cons c0 tail =>
      dsimp only at h1 ⊢
      by_cases hvc : (isAsciiAlpha c0 && tail.all isSchemeChar) = true
      · rw [if_pos hvc] at h1
        exact Option.noConfusion h1
      · rw [if_neg hvc]

theorem isPfxL_two (a b c1 c2 : Char) (t : List Char) :
    isPfxL [a, b] (c1 :: c2 :: t) = (decide (a = c1) && decide (b = c2)) := by
  simp [isPfxL]

theorem isPfx_ss_append (p qt : List Char)
    (hp : isPfxL ['/', '/'] p = false)
    (hqt : qt = [] ∨ ∃ t, qt = '?' :: t) :
    isPfxL ['/', '/'] (p ++ qt) = false := by
  match p with
  | [] =>
    rcases hqt with rfl | ⟨t, rfl⟩
    · rfl
    · simp [isPfxL]
  | [c] =>
    rcases hqt with rfl | ⟨t, rfl⟩
    · simp [isPfxL]
    · rw [List.cons_append, List.nil_append, isPfxL_two]
      simp
  | c1 :: c2 :: t0 =>
    rw [show (c1 :: c2 :: t0) ++ qt = c1 :: c2 :: (t0 ++ qt) from rfl, isPfxL_two]
    rw [isPfxL_two] at hp
    exact hp

theorem head_url1 (l : List Char) :
    ∀ c t, removeUnsafe (l.dropWhile isC0OrSpace) = c :: t →
      isC0OrSpace c = false := by
  induction l with
  | nil => intro c t h; exact absurd h (by simp [removeUnsafe])
  | cons x xs ih =>
    intro c t h
    rw [List.dropWhile_cons] at h
    by_cases hx : isC0OrSpace x = true
    · rw [if_pos hx] at h
      exact ih c t h
    · rw [if_neg hx] at h
      have hxu : isUnsafeUrlByte x = false := by
        cases hu : isUnsafeUrlByte x with
        | false => rfl
        | true =>
          exfalso
          simp only [isUnsafeUrlByte, Bool.or_eq_true, decide_eq_true_eq] at hu
          rcases hu with (rfl | rfl) | rfl <;> exact hx (by decide)
      unfold removeUnsafe at h
      rw [List.filter_cons, show (!isUnsafeUrlByte x) = true from by rw [hxu]; rfl] at h
      simp only [if_true] at h
      injection h with h1 h2
      rw [← h1]
      cases hb : isC0OrSpace x with
      | false => rfl
      | true => exact absurd hb hx

theorem padSlash_head (p : List Char) :
    (p = [] ∧ padSlash p = []) ∨ ∃ t, padSlash p = '/' :: t := by
  cases p with
  | nil => exact Or.inl ⟨rfl, rfl⟩
  | cons c t =>
    unfold padSlash
    by_cases hpf : isPfxL ['/'] (c :: t) = true
    · rw [if_neg (by simp [hpf])]
      have hc : ('/' : Char) = c := by
        rw [show isPfxL ['/'] (c :: t) =
          (decide (('/' : Char) = c) && isPfxL [] t) from rfl] at hpf
        rw [show isPfxL ([] : List Char) t = true from rfl, Bool.and_true] at hpf
        exact of_decide_eq_true hpf
      exact Or.inr ⟨t, by rw [← hc]⟩
    · rw [if_pos (by simp [hpf])]
      exact Or.inr ⟨c :: t, rfl⟩

theorem padSlash_idem (p : List Char) : padSlash (padSlash p) = padSlash p := by
  rcases padSlash_head p with ⟨rfl, h⟩ | ⟨t, h⟩
  · rw [h]
    exact h
  · rw [h]
    unfold padSlash
    rw [if_neg (by simp [isPfxL])]

theorem padSlash_noss (p : List Char) (hp : isPfxL ['/', '/'] p = false) :
    isPfxL ['/', '/'] (padSlash p) = false := by
  cases p with
  | nil => rfl
  | cons c t =>
    unfold padSlash
    by_cases hpf : isPfxL ['/'] (c :: t) = true
    · rw [if_neg (by simp [hpf])]
      exact hp
    · rw [if_pos (by simp [hpf])]
      rw [isPfxL_two]
      have hcn : decide (('/' : Char) = c) = false := by
        cases hd : decide (('/' : Char) = c) with
        | false => rfl
        | true =>
          exact absurd (show isPfxL ['/'] (c :: t) = true by
            rw [show isPfxL ['/'] (c :: t) =
              (decide (('/' : Char) = c) && isPfxL [] t) from rfl, hd]
            rfl) hpf
      simp [hcn]

theorem dropWhile_head_not (p : Char → Bool) :
    ∀ (l : List Char) c t, l.dropWhile p = c :: t → p c = false := by
  intro l
  induction l with
  | nil => intro c t h; exact absurd h (by simp)
  | cons x xs ih =>
    intro c t h
    rw [List.dropWhile_cons] at h
    by_cases hx : p x = true
    · rw [if_pos hx] at h
      exact ih c t h
    · rw [if_neg hx] at h
      injection h with h1 h2
      rw [← h1]
      cases hb : p x with
      | false => rfl
      | true => exact absurd hb hx

theorem dropWhile_dropWhile (p : Char → Bool) (l : List Char) :
    (l.dropWhile p).dropWhile p = l.dropWhile p := by
  cases hd : l.dropWhile p with
  | nil => rfl
  | cons c t =>
    have hc := dropWhile_head_not p l c t hd
    rw [List.dropWhile_cons, hc]
    simp

theorem dropWhileEnd_prefix (p : Char → Bool) (m : List Char) :
    ∃ r, m = dropWhileEnd p m ++ r := by
  refine ⟨(m.reverse.takeWhile p).reverse, ?_⟩
  unfold dropWhileEnd
  have h1 : m.reverse.takeWhile p ++ m.reverse.dropWhile p = m.reverse :=
    List.takeWhile_append_dropWhile p m.reverse
  have h2 : m = (m.reverse.takeWhile p ++ m.reverse.dropWhile p).reverse := by
    rw [h1, List.reverse_reverse]
  rw [List.reverse_append] at h2
  exact h2

theorem dropWhileEnd_idem (p : Char → Bool) (m : List Char) :
    dropWhileEnd p (dropWhileEnd p m) = dropWhileEnd p m := by
  unfold dropWhileEnd
  rw [List.reverse_reverse, dropWhile_dropWhile]

theorem dropWhile_prefix_fix (p : Char → Bool) (s r : List Char)
    (h : (s ++ r).dropWhile p = s ++ r) : s.dropWhile p = s := by
  cases s with
  | nil => rfl
  | cons c t =>
    rw [List.cons_append, List.dropWhile_cons] at h
    by_cases hc : p c = true
    · rw [if_pos hc] at h
      exfalso
      have hlen := congrArg List.length h
      have hle : ((t ++ r).dropWhile p).length ≤ (t ++ r).length :=
        (List.dropWhile_sublist p).length_le
      rw [List.length_cons] at hlen
      omega
    · rw [List.dropWhile_cons, if_neg hc]

theorem pyStrip_idem (l : List Char) : pyStripL (pyStripL l) = pyStripL l := by
  unfold pyStripL
  have hm : (l.dropWhile isPySpace).dropWhile isPySpace = l.dropWhile isPySpace :=
    dropWhile_dropWhile _ l
  obtain ⟨r, hr⟩ := dropWhileEnd_prefix isPySpace (l.dropWhile isPySpace)
  have hfix : (dropWhileEnd isPySpace (l.dropWhile isPySpace)).dropWhile isPySpace =
      dropWhileEnd isPySpace (l.dropWhile isPySpace) :=
    dropWhile_prefix_fix isPySpace _ r (by rw [← hr]; exact hm)
  rw [hfix, dropWhileEnd_idem]

theorem mem_intercalate_amp :
    ∀ (L : List (List Char)) (c : Char), c ∈ intercalateL ['&'] L →
      c = '&' ∨ ∃ x ∈ L, c ∈ x
  | [], c, h => by simp [intercalateL] at h
  | [x], c, h => Or.inr ⟨x, by simp, h⟩
  | x :: y :: t, c, h => by
    rw [intercalateL] at h
    rcases List.mem_append.mp h with h1 | h2
    · rcases List.mem_append.mp h1 with h1 | h1
      · exact Or.inr ⟨x, by simp, h1⟩
      · exact Or.inl (by simpa using h1)
    · rcases mem_intercalate_amp (y :: t) c h2 with h3 | ⟨z, hz, hcz⟩
      · exact Or.inl h3
      · exact Or.inr ⟨z, List.mem_cons_of_mem x hz, hcz⟩

theorem normQuery_mem (q0 : List Char) :
    ∀ c ∈ normQuery q0,
      c = '&' ∨ c = '=' ∨ c = '+' ∨ c = '%' ∨ alwaysSafe c.toNat = true := by
  intro c hc
  unfold normQuery urlencodeL at hc
  rcases mem_intercalate_amp _ c hc with rfl | ⟨x, hx, hcx⟩
  · exact Or.inl rfl
  · rw [List.mem_map] at hx
    obtain ⟨kv, _, rfl⟩ := hx
    rcases List.mem_append.mp hcx with hcx | hcx
    · rcases quotePlus_mem _ c hcx with h | h | h
      · exact Or.inr (Or.inr (Or.inl h))
      · exact Or.inr (Or.inr (Or.inr (Or.inl h)))
      · exact Or.inr (Or.inr (Or.inr (Or.inr h)))
    · rcases List.mem_cons.mp hcx with rfl | hcx
      · exact Or.inr (Or.inl rfl)
      · rcases quotePlus_mem _ c hcx with h | h | h
        · exact Or.inr (Or.inr (Or.inl h))
        · exact Or.inr (Or.inr (Or.inr (Or.inl h)))
        · exact Or.inr (Or.inr (Or.inr (Or.inr h)))

theorem normQuery_charfacts (q0 : List Char) :
    ∀ c ∈ normQuery q0,
      c ≠ '#' ∧ c ≠ ':' ∧ c ≠ '/' ∧ isUnsafeUrlByte c = false ∧
        isC0OrSpace c = false := by
  intro c hc
  have hb := encOK_bounds c (normQuery_mem q0 c hc)
  have hf := encOK_charfacts c hb
  refine ⟨hf.1, hf.2.2.1, fun he => hb.2.2.2.2.2 (by rw [he]; rfl),
    hf.2.2.2.1, hf.2.2.2.2⟩

theorem pyLowerL_nil_iff (l : List Char) : pyLowerL l = [] ↔ l = [] := by
  unfold pyLowerL
  exact List.map_eq_nil_iff

theorem urlunsplit_true (s n p q : List Char) (h : unsplitCond s n p = true) :
    urlunsplitL s n p q [] =
      ((if s = [] then [] else s ++ [':']) ++
        (('/' :: ('/' :: (n ++ padSlash p))) ++
          (if q = [] then [] else ('?' :: q)))) := by
  unfold unsplitCond at h
  unfold urlunsplitL padSlash
  dsimp only
  rw [if_pos h]
  rw [if_neg (show ¬ (([] : List Char) ≠ []) from by simp)]
  by_cases hs : s = []
  · rw [if_neg (show ¬ s ≠ [] from by simp [hs]), if_pos hs]
    by_cases hq : q = []
    · rw [if_neg (show ¬ q ≠ [] from by simp [hq]), if_pos hq]
      simp
    · rw [if_pos (show q ≠ [] from hq), if_neg hq]
      simp
  · rw [if_pos (show s ≠ [] from hs), if_neg hs]
    by_cases hq : q = []
    · rw [if_neg (show ¬ q ≠ [] from by simp [hq]), if_pos hq]
      simp
    · rw [if_pos (show q ≠ [] from hq), if_neg hq]
      simp

theorem urlunsplit_false (s n p q : List Char) (h : unsplitCond s n p = false) :
    urlunsplitL s n p q [] =
      ((if s = [] then [] else s ++ [':']) ++
        (p ++ (if q = [] then [] else ('?' :: q)))) := by
  unfold unsplitCond at h
  unfold urlunsplitL
  dsimp only
  rw [show (if (decide (n ≠ []) ||
      (decide (s ≠ []) && usesNetloc.contains s && !isPfxL ['/', '/'] p)) = true then
      '/' :: '/' :: (n ++ if p ≠ [] && !isPfxL ['/'] p then '/' :: p else p)
      else p) = p from by rw [h]; simp]
  rw [if_neg (show ¬ (([] : List Char) ≠ []) from by simp)]
  by_cases hs : s = []
  · rw [if_neg (show ¬ s ≠ [] from by simp [hs]), if_pos hs]
    by_cases hq : q = []
    · rw [if_neg (show ¬ q ≠ [] from by simp [hq]), if_pos hq]
      simp
    · rw [if_pos (show q ≠ [] from hq), if_neg hq]
      simp
  · rw [if_pos (show s ≠ [] from hs), if_neg hs]
    by_cases hq : q = []
    · rw [if_neg (show ¬ q ≠ [] from by simp [hq]), if_pos hq]
      simp
    · rw [if_pos (show q ≠ [] from hq), if_neg hq]
      simp

theorem urlsplitL_as_tail (u d : List Char) :
    urlsplitL u d =
      (match schemeSplit (removeUnsafe (u.dropWhile isC0OrSpace)) with
       | some (s, r) => urlsplitTail s r
       | none =>
         urlsplitTail
           (removeUnsafe (dropWhileEnd isC0OrSpace (d.dropWhile isC0OrSpace)))
           (removeUnsafe (u.dropWhile isC0OrSpace))) := by
  unfold urlsplitL urlsplitTail
  dsimp only
  cases hss : schemeSplit (removeUnsafe (u.dropWhile isC0OrSpace)) with
  | none => rfl
  | some pr =>
    obtain ⟨a, b⟩ := pr
    rfl

theorem takeWhile_nil_cases (p : Char → Bool) (X : List Char)
    (h : X.takeWhile p = []) : X = [] ∨ ∃ c t, X = c :: t ∧ p c = false := by
  cases X with
  | nil => exact Or.inl rfl
  | cons c t =>
    rw [List.takeWhile_cons] at h
    by_cases hc : p c = true
    · rw [if_pos hc] at h
      exact absurd h (by simp)
    · refine Or.inr ⟨c, t, rfl, ?_⟩
      cases hb : p c with
      | false => rfl
      | true => exact absurd hb hc

theorem urlsplitTail_destruct (s0 r0 : List Char) (parts : SplitResult)
    (h : urlsplitTail s0 r0 = some parts) :
    parts.scheme = s0 ∧
    ∃ rest2 a : List Char,
      ((isPfxL ['/', '/'] r0 = true ∧
        parts.netloc = (r0.drop 2).takeWhile (fun c => !isNetlocEnd c) ∧
        rest2 = (r0.drop 2).dropWhile (fun c => !isNetlocEnd c) ∧
        parts.netloc.contains '[' = parts.netloc.contains ']') ∨
       (isPfxL ['/', '/'] r0 = false ∧ parts.netloc = [] ∧ rest2 = r0)) ∧
      ((splitFirstL '#' rest2 = some (a, parts.fragment)) ∨
       (splitFirstL '#' rest2 = none ∧ a = rest2 ∧ parts.fragment = [])) ∧
      ((splitFirstL '?' a = some (parts.path, parts.query)) ∨
       (splitFirstL '?' a = none ∧ parts.path = a ∧ parts.query = [])) := by
  unfold urlsplitTail at h
  by_cases hpfx : isPfxL ['/', '/'] r0 = true
  · rw [if_pos hpfx] at h
    dsimp only at h
    by_cases hbad : (((r0.drop 2).takeWhile (fun c => !isNetlocEnd c)).contains '[' !=
        ((r0.drop 2).takeWhile (fun c => !isNetlocEnd c)).contains ']') = true
    · rw [if_pos hbad] at h
      exact Option.noConfusion h
    · rw [if_neg hbad] at h
      have hbeq : ((r0.drop 2).takeWhile (fun c => !isNetlocEnd c)).contains '[' =
          ((r0.drop 2).takeWhile (fun c => !isNetlocEnd c)).contains ']' := by
        have hb2 : (((r0.drop 2).takeWhile (fun c => !isNetlocEnd c)).contains '[' !=
            ((r0.drop 2).takeWhile (fun c => !isNetlocEnd c)).contains ']') = false :=
          Bool.not_eq_true _ ▸ eq_false_of_ne_true hbad
        exact bne_eq_false_iff_eq.mp hb2
      cases hfr : splitFirstL '#' ((r0.drop 2).dropWhile (fun c => !isNetlocEnd c)) with
      | some prf =>
        obtain ⟨a1, f1⟩ := prf
        rw [hfr] at h
        dsimp only at h
        cases hq : splitFirstL '?' a1 with
        | some prq =>
          obtain ⟨p1, q1⟩ := prq
          rw [hq] at h
          dsimp only at h
          injection h with h
          subst h
          exact ⟨rfl, _, a1, Or.inl ⟨hpfx, rfl, rfl, hbeq⟩, Or.inl hfr, Or.inl hq⟩
        | none =>
          rw [hq] at h
          dsimp only at h
          injection h with h
          subst h
          exact ⟨rfl, _, a1, Or.inl ⟨hpfx, rfl, rfl, hbeq⟩, Or.inl hfr,
            Or.inr ⟨hq, rfl, rfl⟩⟩
      | none =>
        rw [hfr] at h
        dsimp only at h
        cases hq : splitFirstL '?' ((r0.drop 2).dropWhile (fun c => !isNetlocEnd c)) with
        | some prq =>
          obtain ⟨p1, q1⟩ := prq
          rw [hq] at h
          dsimp only at h
          injection h with h
          subst h
          exact ⟨rfl, _, _, Or.inl ⟨hpfx, rfl, rfl, hbeq⟩,
            Or.inr ⟨hfr, rfl, rfl⟩, Or.inl hq⟩
        | none =>
          rw [hq] at h
          dsimp only at h
          injection h with h
          subst h
          exact ⟨rfl, _, _, Or.inl ⟨hpfx, rfl, rfl, hbeq⟩,
            Or.inr ⟨hfr, rfl, rfl⟩, Or.inr ⟨hq, rfl, rfl⟩⟩
  · rw [if_neg hpfx] at h
    dsimp only at h
    rw [if_neg (show ¬ (false = true) from by simp)] at h
    have hpfx2 : isPfxL ['/', '/'] r0 = false := eq_false_of_ne_true hpfx
    cases hfr : splitFirstL '#' r0 with
    | some prf =>
      obtain ⟨a1, f1⟩ := prf
      rw [hfr] at h
      dsimp only at h
      cases hq : splitFirstL '?' a1 with
      | some prq =>
        obtain ⟨p1, q1⟩ := prq
        rw [hq] at h
        dsimp only at h
        injection h with h
        subst h
        exact ⟨rfl, r0, a1, Or.inr ⟨hpfx2, rfl, rfl⟩, Or.inl hfr, Or.inl hq⟩
      | none =>
        rw [hq] at h
        dsimp only at h
        injection h with h
        subst h
        exact ⟨rfl, r0, a1, Or.inr ⟨hpfx2, rfl, rfl⟩, Or.inl hfr,
          Or.inr ⟨hq, rfl, rfl⟩⟩
    | none =>
      rw [hfr] at h
      dsimp only at h
      cases hq : splitFirstL '?' r0 with
      | some prq =>
        obtain ⟨p1, q1⟩ := prq
        rw [hq] at h
        dsimp only at h
        injection h with h
        subst h
        exact ⟨rfl, r0, r0, Or.inr ⟨hpfx2, rfl, rfl⟩,
          Or.inr ⟨hfr, rfl, rfl⟩, Or.inl hq⟩
      | none =>
        rw [hq] at h
        dsimp only at h
        injection h with h
        subst h
        exact ⟨rfl, r0, r0, Or.inr ⟨hpfx2, rfl, rfl⟩,
          Or.inr ⟨hfr, rfl, rfl⟩, Or.inr ⟨hq, rfl, rfl⟩⟩

theorem urlsplit_scheme_split (u d : List Char) (parts : SplitResult)
    (h : urlsplitL u d = some parts) :
    ∃ rest, urlsplitTail parts.scheme rest = some parts ∧
      (schemeSplit (removeUnsafe (u.dropWhile isC0OrSpace)) = some (parts.scheme, rest) ∨
       (schemeSplit (removeUnsafe (u.dropWhile isC0OrSpace)) = none ∧
        parts.scheme = removeUnsafe (dropWhileEnd isC0OrSpace (d.dropWhile isC0OrSpace)) ∧
        rest = removeUnsafe (u.dropWhile isC0OrSpace))) := by
  rw [urlsplitL_as_tail] at h
  cases hss : schemeSplit (removeUnsafe (u.dropWhile isC0OrSpace)) with
  | none =>
    rw [hss] at h
    dsimp only at h
    have hsch : parts.scheme =
        removeUnsafe (dropWhileEnd isC0OrSpace (d.dropWhile isC0OrSpace)) :=
      ((urlsplitTail_destruct _ _ parts h).1)
    refine ⟨removeUnsafe (u.dropWhile isC0OrSpace), ?_, Or.inr ⟨rfl, hsch, rfl⟩⟩
    rw [hsch]
    exact h
  | some pr =>
    obtain ⟨s0, r0⟩ := pr
    rw [hss] at h
    dsimp only at h
    have hsch : parts.scheme = s0 := (urlsplitTail_destruct s0 r0 parts h).1
    refine ⟨r0, ?_, Or.inl ?_⟩
    · rw [hsch]
      exact h
    · rw [hsch]

theorem urlsplit_component_facts (u d : List Char) (parts : SplitResult)
    (h : urlsplitL u d = some parts) :
    (∀ c ∈ parts.netloc, isNetlocEnd c = false) ∧
    (∀ c ∈ parts.netloc, isUnsafeUrlByte c = false) ∧
    (parts.netloc.contains '[' = parts.netloc.contains ']') ∧
    (∀ c ∈ parts.path, c ≠ '#') ∧
    (∀ c ∈ parts.path, c ≠ '?') ∧
    (∀ c ∈ parts.path, isUnsafeUrlByte c = false) := by
  obtain ⟨rest, htail, hsch⟩ := urlsplit_scheme_split u d parts h
  obtain ⟨-, rest2, a, hnet, hfrag, hquer⟩ := urlsplitTail_destruct _ _ parts htail
  have hrest_sub : ∀ c ∈ rest, c ∈ removeUnsafe (u.dropWhile isC0OrSpace) := by
    rcases hsch with hs | ⟨-, -, rfl⟩
    · obtain ⟨pre, hpre⟩ := schemeSplit_decomp _ _ _ hs
      intro c hc
      rw [hpre]
      simp [hc]
    · exact fun c hc => hc
  have hrest_unsafe : ∀ c ∈ rest, isUnsafeUrlByte c = false := by
    intro c hc
    have h2 := List.mem_filter.mp (hrest_sub c hc)
    cases hu : isUnsafeUrlByte c with
    | false => rfl
    | true =>
      exfalso
      have h3 := h2.2
      rw [hu] at h3
      exact Bool.noConfusion h3
  have hnl_sub : ∀ c ∈ parts.netloc, c ∈ rest ∧ isNetlocEnd c = false := by
    rcases hnet with ⟨hpfx, hnl, hr2, hbr⟩ | ⟨-, hnl, -⟩
    · intro c hc
      rw [hnl] at hc
      refine ⟨List.mem_of_mem_drop ((List.takeWhile_sublist _).subset hc), ?_⟩
      have h2 := List.mem_takeWhile_imp hc
      simpa using h2
    · intro c hc
      rw [hnl] at hc
      simp at hc
  have hrest2_sub : ∀ c ∈ rest2, c ∈ rest := by
    rcases hnet with ⟨hpfx, hnl, hr2, hbr⟩ | ⟨-, -, hr2⟩
    · intro c hc
      rw [hr2] at hc
      exact List.mem_of_mem_drop ((List.dropWhile_sublist _).subset hc)
    · intro c hc
      rw [hr2] at hc
      exact hc
  have ha_sub : ∀ c ∈ a, c ∈ rest2 ∧ c ≠ '#' := by
    rcases hfrag with hf | ⟨hf, rfl, -⟩
    · obtain ⟨he, hfree⟩ := splitFirstL_eq '#' rest2 a parts.fragment hf
      intro c hc
      exact ⟨by rw [he]; simp [hc], hfree c hc⟩
    · intro c hc
      exact ⟨hc, splitFirstL_none_mem '#' a hf c hc⟩
  have hp_sub : ∀ c ∈ parts.path, c ∈ a ∧ c ≠ '?' := by
    rcases hquer with hq | ⟨hq, hpa, -⟩
    · obtain ⟨he, hfree⟩ := splitFirstL_eq '?' a parts.path parts.query hq
      intro c hc
      exact ⟨by rw [he]; simp [hc], hfree c hc⟩
    · intro c hc
      rw [hpa] at hc
      exact ⟨hc, splitFirstL_none_mem '?' a hq c hc⟩
  refine ⟨fun c hc => (hnl_sub c hc).2,
    fun c hc => hrest_unsafe c (hnl_sub c hc).1,
    ?_,
    fun c hc => (ha_sub c (hp_sub c hc).1).2,
    fun c hc => (hp_sub c hc).2,
    fun c hc => hrest_unsafe c (hrest2_sub c (ha_sub c (hp_sub c hc).1).1)⟩
  rcases hnet with ⟨-, -, -, hbr⟩ | ⟨-, hnl, -⟩
  · exact hbr
  · rw [hnl]
    rfl

theorem urlsplit_schemeless_path (u : List Char) (parts : SplitResult)
    (h : urlsplitL u [] = some parts)
    (hs : parts.scheme = []) (hn : parts.netloc = []) :
    ((∃ t, schemeSplit (parts.path ++ t) = none) ∨ parts.path = [] ∨
      (∃ c tl, parts.path = c :: tl ∧ isAsciiAlpha c = false ∧ ¬ c = ':')) ∧
    (∀ c tl, parts.path = c :: tl → isC0OrSpace c = false) := by
  obtain ⟨rest, htail, hsch⟩ := urlsplit_scheme_split u [] parts h
  obtain ⟨-, rest2, a, hnet, hfrag, hquer⟩ := urlsplitTail_destruct _ _ parts htail
  have hssnone : schemeSplit (removeUnsafe (u.dropWhile isC0OrSpace)) = none ∧
      rest = removeUnsafe (u.dropWhile isC0OrSpace) := by
    rcases hsch with hsome | ⟨hnone, -, hrest⟩
    · exact absurd hs (schemeSplit_ne_nil _ _ _ hsome)
    · exact ⟨hnone, hrest⟩
  rcases hnet with ⟨hpfx, hnl, hr2, -⟩ | ⟨hpfx, -, hr2⟩
  · -- the `//` branch was taken with an empty netloc
    obtain ⟨X0, hX0⟩ := isPfxL_exists ['/', '/'] rest hpfx
    have hdrop : rest.drop 2 = X0 := by rw [hX0]; rfl
    have htw : X0.takeWhile (fun c => !isNetlocEnd c) = [] := by
      rw [← hdrop, ← hnl, hn]
    rcases takeWhile_nil_cases _ X0 htw with rfl | ⟨c, t, rfl, hcend⟩
    · -- rest2 = [], so path = []
      have hr2nil : rest2 = [] := by rw [hr2, hdrop]; rfl
      have hanil : a = [] := by
        rcases hfrag with hf | ⟨-, hae, -⟩
        · rw [hr2nil] at hf
          exact Option.noConfusion hf
        · rw [hae, hr2nil]
      have hpnil : parts.path = [] := by
        rcases hquer with hq | ⟨-, hpa, -⟩
        · rw [hanil] at hq
          exact Option.noConfusion hq
        · rw [hpa, hanil]
      refine ⟨Or.inr (Or.inl hpnil), ?_⟩
      intro c2 tl2 he
      rw [hpnil] at he
      exact absurd he (by simp)
    · -- rest2 starts with a netloc-ending character
      have hcE : isNetlocEnd c = true := by
        cases hb : isNetlocEnd c with
        | true => rfl
        | false =>
          exfalso
          rw [hb] at hcend
          exact Bool.noConfusion hcend
      have hr2c : rest2 = c :: t := by
        rw [hr2, hdrop, List.dropWhile_cons, hcend]
        simp
      have hhead_a : a = [] ∨ ∃ ta, a = c :: ta := by
        rcases hfrag with hf | ⟨-, hae, -⟩
        · obtain ⟨he, hfree⟩ := splitFirstL_eq '#' rest2 a parts.fragment hf
          cases a with
          | nil => exact Or.inl rfl
          | cons d ta =>
            rw [hr2c] at he
            injection he with he1 he2
            exact Or.inr ⟨ta, by rw [he1]⟩
        · exact Or.inr ⟨t, by rw [hae, hr2c]⟩
      have hhead_p : parts.path = [] ∨ ∃ tp, parts.path = c :: tp := by
        rcases hquer with hq | ⟨-, hpa, -⟩
        · obtain ⟨he, hfree⟩ := splitFirstL_eq '?' a parts.path parts.query hq
          cases hpp : parts.path with
          | nil => exact Or.inl rfl
          | cons d tp =>
            rcases hhead_a with rfl | ⟨ta, rfl⟩
            · rw [hpp] at he
              exact absurd he (by simp)
            · rw [hpp] at he
              injection he with he1 he2
              exact Or.inr ⟨tp, by rw [he1]⟩
        · rcases hhead_a with rfl | ⟨ta, rfl⟩
          · exact Or.inl hpa
          · exact Or.inr ⟨ta, hpa⟩
      -- the head character cannot be '#' or '?' in a nonempty path
      have hkey : parts.path = [] ∨ ∃ tp, parts.path = '/' :: tp := by
        simp only [isNetlocEnd, Bool.or_eq_true, decide_eq_true_eq] at hcE
        rcases hcE with (rfl | rfl) | rfl
        · rcases hhead_p with hp0 | ⟨tp, hp1⟩
          · exact Or.inl hp0
          · exact Or.inr ⟨tp, hp1⟩
        · -- c = '?': the query split would have consumed it
          left
          rcases hquer with hq | ⟨hq, hpa, -⟩
          · obtain ⟨he, hfree⟩ := splitFirstL_eq '?' a parts.path parts.query hq
            rcases hhead_a with rfl | ⟨ta, rfl⟩
            · cases hpp : parts.path with
              | nil => rfl
              | cons d tp =>
                rw [hpp] at he
                exact absurd he (by simp)
            · cases hpp : parts.path with
              | nil => rfl
              | cons d tp =>
                rw [hpp] at he
                injection he with he1 he2
                exact absurd (hfree d (by rw [hpp]; simp)) (by
                  intro hne
                  exact hne (by rw [← he1]))
          · rcases hhead_a with rfl | ⟨ta, rfl⟩
            · exact hpa
            · exact absurd (splitFirstL_none_mem '?' _ hq '?' (by simp)) (by simp)
        · -- c = '#': the fragment split would have consumed it
          left
          have hanil : a = [] := by
            rcases hfrag with hf | ⟨hf, hae, -⟩
            · obtain ⟨he, hfree⟩ := splitFirstL_eq '#' rest2 a parts.fragment hf
              cases ha2 : a with
              | nil => rfl
              | cons d ta =>
                rw [hr2c, ha2] at he
                injection he with he1 he2
                exact absurd (hfree d (by rw [ha2]; simp)) (by
                  intro hne
                  exact hne (by rw [← he1]))
            · exact absurd (splitFirstL_none_mem '#' _ hf '#' (by rw [hr2c]; simp)) (by simp)
          rcases hquer with hq | ⟨-, hpa, -⟩
          · rw [hanil] at hq
            exact Option.noConfusion hq
          · rw [hpa, hanil]
      rcases hkey with hp0 | ⟨tp, hp1⟩
      · refine ⟨Or.inr (Or.inl hp0), ?_⟩
        intro c2 tl2 he
        rw [hp0] at he
        exact absurd he (by simp)
      · refine ⟨Or.inr (Or.inr ⟨'/', tp, hp1, by decide, by decide⟩), ?_⟩
        intro c2 tl2 he
        rw [hp1] at he
        injection he with he1 he2
        rw [← he1]
        decide
  · -- no authority: the path is a prefix of the preprocessed url
    have hdec : ∃ t, rest = parts.path ++ t := by
      rcases hfrag with hf | ⟨-, hae, -⟩
      · obtain ⟨he, -⟩ := splitFirstL_eq '#' rest2 a parts.fragment hf
        rcases hquer with hq | ⟨-, hpa, -⟩
        · obtain ⟨he2, -⟩ := splitFirstL_eq '?' a parts.path parts.query hq
          refine ⟨('?' :: parts.query) ++ ('#' :: parts.fragment), ?_⟩
          rw [← hr2, he, he2, List.append_assoc]
        · refine ⟨'#' :: parts.fragment, ?_⟩
          rw [← hr2, he, hpa]
      · rcases hquer with hq | ⟨-, hpa, -⟩
        · obtain ⟨he2, -⟩ := splitFirstL_eq '?' a parts.path parts.query hq
          refine ⟨'?' :: parts.query, ?_⟩
          rw [← hr2, ← hae, he2]
        · refine ⟨[], ?_⟩
          rw [← hr2, ← hae, hpa, List.append_nil]
    obtain ⟨t, ht⟩ := hdec
    refine ⟨Or.inl ⟨t, by rw [← ht, hssnone.2]; exact hssnone.1⟩, ?_⟩
    intro c2 tl2 he
    have hu1 : removeUnsafe (u.dropWhile isC0OrSpace) = c2 :: (tl2 ++ t) := by
      rw [← hssnone.2, ht, he]
      rfl
    exact head_url1 u c2 (tl2 ++ t) hu1

theorem urlsplitTail_authority (s0 n p q : List Char)
    (HnE : ∀ c ∈ n, isNetlocEnd c = false)
    (Hbr : n.contains '[' = n.contains ']')
    (HpH : ∀ c ∈ p, c ≠ '#')
    (HpQ : ∀ c ∈ p, c ≠ '?')
    (HqH : ∀ c ∈ q, c ≠ '#') :
    urlsplitTail s0
      ('/' :: '/' :: ((n ++ padSlash p) ++ (if q = [] then [] else '?' :: q))) =
      some ⟨s0, n, padSlash p, q, []⟩ := by
  have hpad_mem : ∀ c ∈ padSlash p, c = '/' ∨ c ∈ p := by
    unfold padSlash
    split_ifs with h1
    · intro c hc
      rcases List.mem_cons.mp hc with rfl | hc
      · exact Or.inl rfl
      · exact Or.inr hc
    · exact fun c hc => Or.inr hc
  have hpadH : ∀ c ∈ padSlash p, c ≠ '#' := by
    intro c hc
    rcases hpad_mem c hc with rfl | hm
    · decide
    · exact HpH c hm
  have hpadQ : ∀ c ∈ padSlash p, c ≠ '?' := by
    intro c hc
    rcases hpad_mem c hc with rfl | hm
    · decide
    · exact HpQ c hm
  have hqt_h : ∀ c ∈ (if q = [] then ([] : List Char) else '?' :: q), c ≠ '#' := by
    by_cases hq : q = []
    · rw [if_pos hq]
      intro c hc
      simp at hc
    · rw [if_neg hq]
      intro c hc
      rcases List.mem_cons.mp hc with rfl | hc
      · decide
      · exact HqH c hc
  unfold urlsplitTail
  rw [if_pos (show isPfxL ['/', '/']
      ('/' :: '/' :: ((n ++ padSlash p) ++ (if q = [] then [] else '?' :: q))) = true
    from by simp [isPfxL])]
  dsimp only
  rw [show List.drop 2
      ('/' :: '/' :: ((n ++ padSlash p) ++ (if q = [] then [] else '?' :: q))) =
      (n ++ padSlash p) ++ (if q = [] then [] else '?' :: q) from rfl]
  rw [List.append_assoc]
  obtain ⟨htk, hdw⟩ := takeWhile_append_stop (fun c => !isNetlocEnd c) n
    (padSlash p ++ (if q = [] then [] else '?' :: q))
    (fun c hc => by simp [HnE c hc])
    (by
      rcases padSlash_head p with ⟨-, hpad⟩ | ⟨t2, hpad⟩
      · rw [hpad, List.nil_append]
        by_cases hq : q = []
        · rw [if_pos hq]
          exact Or.inl rfl
        · rw [if_neg hq]
          exact Or.inr ⟨'?', q, rfl, by decide⟩
      · rw [hpad, List.cons_append]
        exact Or.inr ⟨'/', t2 ++ (if q = [] then [] else '?' :: q), rfl, by decide⟩)
  rw [htk, hdw]
  rw [Hbr, bne_self_eq_false]
  rw [if_neg (show ¬ (false = true) from by simp)]
  rw [splitFirstL_none '#' (padSlash p ++ (if q = [] then [] else '?' :: q)) (by
    intro c hc
    rcases List.mem_append.mp hc with hc | hc
    · exact hpadH c hc
    · exact hqt_h c hc)]
  dsimp only
  by_cases hq : q = []
  · rw [if_pos hq, List.append_nil]
    rw [splitFirstL_none '?' (padSlash p) hpadQ]
    dsimp only
    rw [hq]
  · rw [if_neg hq]
    rw [splitFirstL_append_gen '?' (padSlash p) q hpadQ]

theorem urlsplitTail_noauthority (s0 p q : List Char)
    (hnp : isPfxL ['/', '/'] (p ++ (if q = [] then [] else '?' :: q)) = false)
    (HpH : ∀ c ∈ p, c ≠ '#')
    (HpQ : ∀ c ∈ p, c ≠ '?')
    (HqH : ∀ c ∈ q, c ≠ '#') :
    urlsplitTail s0 (p ++ (if q = [] then [] else '?' :: q)) =
      some ⟨s0, [], p, q, []⟩ := by
  have hqt_h : ∀ c ∈ (if q = [] then ([] : List Char) else '?' :: q), c ≠ '#' := by
    by_cases hq : q = []
    · rw [if_pos hq]
      intro c hc
      simp at hc
    · rw [if_neg hq]
      intro c hc
      rcases List.mem_cons.mp hc with rfl | hc
      · decide
      · exact HqH c hc
  unfold urlsplitTail
  rw [if_neg (show ¬ (isPfxL ['/', '/']
      (p ++ (if q = [] then [] else '?' :: q)) = true) from by rw [hnp]; simp)]
  dsimp only
  rw [if_neg (show ¬ (false = true) from by simp)]
  rw [splitFirstL_none '#' (p ++ (if q = [] then [] else '?' :: q)) (by
    intro c hc
    rcases List.mem_append.mp hc with hc | hc
    · exact HpH c hc
    · exact hqt_h c hc)]
  dsimp only
  by_cases hq : q = []
  · rw [if_pos hq, List.append_nil]
    rw [splitFirstL_none '?' p HpQ]
    dsimp only
    rw [hq]
  · rw [if_neg hq]
    rw [splitFirstL_append_gen '?' p q HpQ]

theorem urlsplit_unsplit (s n p q : List Char)
    (Hs : s = [] ∨ (validSchemeText s = true ∧ pyLowerL s = s))
    (HnE : ∀ c ∈ n, isNetlocEnd c = false)
    (HnU : ∀ c ∈ n, isUnsafeUrlByte c = false)
    (Hbr : n.contains '[' = n.contains ']')
    (HpH : ∀ c ∈ p, c ≠ '#')
    (HpQ : ∀ c ∈ p, c ≠ '?')
    (HpU : ∀ c ∈ p, isUnsafeUrlByte c = false)
    (HqH : ∀ c ∈ q, c ≠ '#')
    (HqU : ∀ c ∈ q, isUnsafeUrlByte c = false)
    (HB : ¬(n = [] ∧ isPfxL ['/', '/'] p = true))
    (Hphead : s = [] → n = [] → ∀ c t, p = c :: t → isC0OrSpace c = false)
    (Hss : s = [] → n = [] →
      schemeSplit (p ++ (if q = [] then [] else '?' :: q)) = none) :
    urlsplitL (urlunsplitL s n p q []) [] =
      some ⟨s, n, (if unsplitCond s n p then padSlash p else p), q, []⟩ := by
  have hqt_shape : (if q = [] then ([] : List Char) else '?' :: q) = [] ∨
      ∃ t2, (if q = [] then ([] : List Char) else '?' :: q) = '?' :: t2 := by
    by_cases hq : q = []
    · rw [if_pos hq]
      exact Or.inl rfl
    · rw [if_neg hq]
      exact Or.inr ⟨q, rfl⟩
  have hqt_u : ∀ c ∈ (if q = [] then ([] : List Char) else '?' :: q),
      isUnsafeUrlByte c = false := by
    by_cases hq : q = []
    · rw [if_pos hq]
      intro c hc
      simp at hc
    · rw [if_neg hq]
      intro c hc
      rcases List.mem_cons.mp hc with rfl | hc
      · decide
      · exact HqU c hc
  have hpad_mem : ∀ c ∈ padSlash p, c = '/' ∨ c ∈ p := by
    unfold padSlash
    split_ifs with h1
    · intro c hc
      rcases List.mem_cons.mp hc with rfl | hc
      · exact Or.inl rfl
      · exact Or.inr hc
    · exact fun c hc => Or.inr hc
  have hpadU : ∀ c ∈ padSlash p, isUnsafeUrlByte c = false := by
    intro c hc
    rcases hpad_mem c hc with rfl | hm
    · decide
    · exact HpU c hm
  have hAu : ∀ c ∈ '/' :: '/' :: ((n ++ padSlash p) ++ (if q = [] then [] else '?' :: q)),
      isUnsafeUrlByte c = false := by
    intro c hc
    rcases List.mem_cons.mp hc with rfl | hc
    · decide
    rcases List.mem_cons.mp hc with rfl | hc
    · decide
    rcases List.mem_append.mp hc with hc | hc
    · rcases List.mem_append.mp hc with hc | hc
      · exact HnU c hc
      · exact hpadU c hc
    · exact hqt_u c hc
  have hNu : ∀ c ∈ p ++ (if q = [] then [] else '?' :: q),
      isUnsafeUrlByte c = false := by
    intro c hc
    rcases List.mem_append.mp hc with hc | hc
    · exact HpU c hc
    · exact hqt_u c hc
  by_cases hcond : unsplitCond s n p = true
  · rcases Hs with rfl | ⟨hv, hlow⟩
    · have hout2 : urlunsplitL [] n p q [] =
          '/' :: '/' :: ((n ++ padSlash p) ++ (if q = [] then [] else '?' :: q)) := by
        rw [urlunsplit_true [] n p q hcond, if_pos rfl, List.nil_append]
        rfl
      have hdrw : ('/' :: '/' :: ((n ++ padSlash p) ++
            (if q = [] then [] else '?' :: q))).dropWhile isC0OrSpace =
          '/' :: '/' :: ((n ++ padSlash p) ++ (if q = [] then [] else '?' :: q)) := by
        rw [List.dropWhile_cons, show isC0OrSpace '/' = false from by decide]
        simp
      have hss2 : schemeSplit ('/' :: '/' :: ((n ++ padSlash p) ++
          (if q = [] then [] else '?' :: q))) = none :=
        schemeSplit_none_of_head '/' _ (by decide) (by decide)
      rw [hout2, urlsplitL_as_tail, hdrw, removeUnsafe_eq_self _ hAu, hss2]
      dsimp only
      rw [show removeUnsafe (dropWhileEnd isC0OrSpace
        (List.dropWhile isC0OrSpace ([] : List Char))) = ([] : List Char) from rfl]
      rw [if_pos hcond]
      exact urlsplitTail_authority [] n p q HnE Hbr HpH HpQ HqH
    · have hsne : s ≠ [] := validScheme_ne_nil s hv
      have hout2 : urlunsplitL s n p q [] =
          s ++ ':' :: ('/' :: '/' :: ((n ++ padSlash p) ++
            (if q = [] then [] else '?' :: q))) := by
        rw [urlunsplit_true s n p q hcond, if_neg hsne, List.append_assoc]
        rfl
      rw [hout2, urlsplitL_as_tail, preprocess_scheme_pfx s _ hv,
        removeUnsafe_eq_self _ hAu, schemeSplit_prefixed s _ hv, hlow]
      dsimp only
      rw [if_pos hcond]
      exact urlsplitTail_authority s n p q HnE Hbr HpH HpQ HqH
  · have hcondF : unsplitCond s n p = false := eq_false_of_ne_true hcond
    have hn0 : n = [] := by
      by_cases hn : n = []
      · exact hn
      · exfalso
        unfold unsplitCond at hcondF
        rw [decide_eq_true hn] at hcondF
        simp at hcondF
    have hppfx : isPfxL ['/', '/'] p = false := by
      by_cases hpp : isPfxL ['/', '/'] p = true
      · exact absurd ⟨hn0, hpp⟩ HB
      · exact eq_false_of_ne_true hpp
    have hnp : isPfxL ['/', '/'] (p ++ (if q = [] then [] else '?' :: q)) = false :=
      isPfx_ss_append p _ hppfx (by
        rcases hqt_shape with h1 | ⟨t2, h1⟩
        · exact Or.inl h1
        · exact Or.inr ⟨t2, h1⟩)
    subst hn0
    rcases Hs with rfl | ⟨hv, hlow⟩
    · have hout2 : urlunsplitL [] [] p q [] =
          p ++ (if q = [] then [] else '?' :: q) := by
        rw [urlunsplit_false [] [] p q hcondF, if_pos rfl, List.nil_append]
      have hdrw : (p ++ (if q = [] then [] else '?' :: q)).dropWhile isC0OrSpace =
          p ++ (if q = [] then [] else '?' :: q) := by
        cases hp : p with
        | nil =>
          rw [List.nil_append]
          rcases hqt_shape with hZ | ⟨t2, hZ⟩
          · rw [hZ]
            rfl
          · rw [hZ, List.dropWhile_cons, show isC0OrSpace '?' = false from by decide]
            simp
        | cons c t =>
          rw [List.cons_append, List.dropWhile_cons, Hphead rfl rfl c t hp]
          simp
      have hss2 := Hss rfl rfl
      rw [hout2, urlsplitL_as_tail, hdrw, removeUnsafe_eq_self _ hNu, hss2]
      dsimp only
      rw [show removeUnsafe (dropWhileEnd isC0OrSpace
        (List.dropWhile isC0OrSpace ([] : List Char))) = ([] : List Char) from rfl]
      rw [if_neg (show ¬ unsplitCond [] [] p = true from by rw [hcondF]; simp)]
      exact urlsplitTail_noauthority [] p q hnp HpH HpQ HqH
    · have hsne : s ≠ [] := validScheme_ne_nil s hv
      have hout2 : urlunsplitL s [] p q [] =
          s ++ ':' :: (p ++ (if q = [] then [] else '?' :: q)) := by
        rw [urlunsplit_false s [] p q hcondF, if_neg hsne, List.append_assoc]
        rfl
      rw [hout2, urlsplitL_as_tail, preprocess_scheme_pfx s _ hv,
        removeUnsafe_eq_self _ hNu, schemeSplit_prefixed s _ hv, hlow]
      dsimp only
      rw [if_neg (show ¬ unsplitCond s [] p = true from by rw [hcondF]; simp)]
      exact urlsplitTail_noauthority s p q hnp HpH HpQ HqH

theorem normalize_unsplit (s n p q : List Char)
    (Hs : s = [] ∨ (validSchemeText s = true ∧ pyLowerL s = s))
    (HnE : ∀ c ∈ n, isNetlocEnd c = false)
    (HnU : ∀ c ∈ n, isUnsafeUrlByte c = false)
    (Hbr : n.contains '[' = n.contains ']')
    (HpH : ∀ c ∈ p, c ≠ '#')
    (HpQ : ∀ c ∈ p, c ≠ '?')
    (HpU : ∀ c ∈ p, isUnsafeUrlByte c = false)
    (HqH : ∀ c ∈ q, c ≠ '#')
    (HqU : ∀ c ∈ q, isUnsafeUrlByte c = false)
    (HB : ¬(n = [] ∧ isPfxL ['/', '/'] p = true))
    (Hphead : s = [] → n = [] → ∀ c t, p = c :: t → isC0OrSpace c = false)
    (Hss : s = [] → n = [] →
      schemeSplit (p ++ (if q = [] then [] else '?' :: q)) = none)
    (HnL : pyLowerL n = n)
    (HqN : normQuery q = q)
    (Hstrip : pyStripL (urlunsplitL s n p q []) = urlunsplitL s n p q []) :
    normalizeUrlL (urlunsplitL s n p q []) = urlunsplitL s n p q [] := by
  unfold normalizeUrlL
  dsimp only
  rw [Hstrip]
  by_cases hout : urlunsplitL s n p q [] = []
  · rw [if_pos hout, hout]
  · rw [if_neg hout]
    rw [urlsplit_unsplit s n p q Hs HnE HnU Hbr HpH HpQ HpU HqH HqU HB Hphead Hss]
    dsimp only
    have hsl : pyLowerL s = s := by
      rcases Hs with rfl | ⟨-, hlow⟩
      · rfl
      · exact hlow
    rw [hsl, HnL, HqN]
    by_cases hcond : unsplitCond s n p = true
    · rw [if_pos hcond]
      have hcond2 : unsplitCond s n (padSlash p) = true := by
        unfold unsplitCond at hcond ⊢
        cases hdn : decide (n ≠ []) with
        | true => simp
        | false =>
          rw [hdn] at hcond
          simp only [Bool.false_or] at hcond ⊢
          have hp2 : isPfxL ['/', '/'] p = false := by
            cases hb : isPfxL ['/', '/'] p with
            | false => rfl
            | true =>
              rw [hb] at hcond
              simp at hcond
          have h1 : (decide (s ≠ []) && usesNetloc.contains s) = true := by
            cases hb : (decide (s ≠ []) && usesNetloc.contains s) with
            | true => rfl
            | false =>
              rw [hb] at hcond
              simp at hcond
          rw [padSlash_noss p hp2]
          simp only [Bool.false_or, Bool.not_false, Bool.and_true]
          exact h1
      rw [urlunsplit_true s n p q hcond, urlunsplit_true s n (padSlash p) q hcond2,
        padSlash_idem]
    · rw [if_neg hcond]

/-- C6 (corrected): `normalize_url` is idempotent on every input whose
normalized form is strip-stable (dropping the fragment can expose trailing
whitespace that only a second pass strips, as in `normalize_url("a #")`)
and whose first parse does not pair an empty authority with a path
beginning in `//`. -/
theorem normalize_idempotent_on_stable (u : String)
    (hA : pyStrip (normalize_url u) = normalize_url u)
    (hB : ∀ parts, urlsplitL (pyStripL u.data) [] = some parts →
      ¬(parts.netloc = [] ∧ isPfxL ['/', '/'] parts.path = true)) :
    normalize_url (normalize_url u) = normalize_url u := by
  have hA2 : pyStripL (normalizeUrlL u.data) = normalizeUrlL u.data :=
    congrArg String.data hA
  suffices hmain : normalizeUrlL (normalizeUrlL u.data) = normalizeUrlL u.data by
    exact congrArg String.mk hmain
  by_cases h0 : pyStripL u.data = []
  · have hL : normalizeUrlL u.data = [] := by
      unfold normalizeUrlL
      dsimp only
      rw [h0]
      rfl
    rw [hL]
    rfl
  · cases hps : urlsplitL (pyStripL u.data) [] with
    | none =>
      have hL : normalizeUrlL u.data = pyStripL u.data := by
        unfold normalizeUrlL
        dsimp only
        rw [if_neg h0, hps]
      rw [hL]
      unfold normalizeUrlL
      dsimp only
      rw [pyStrip_idem, if_neg h0, hps]
    | some parts =>
      have hL : normalizeUrlL u.data =
          urlunsplitL (pyLowerL parts.scheme) (pyLowerL parts.netloc) parts.path
            (normQuery parts.query) [] := by
        unfold normalizeUrlL
        dsimp only
        rw [if_neg h0, hps]
      obtain ⟨hnE0, hnU0, hbr0, hpH0, hpQ0, hpU0⟩ :=
        urlsplit_component_facts _ _ parts hps
      have hsfact : pyLowerL parts.scheme = [] ∨
          (validSchemeText (pyLowerL parts.scheme) = true ∧
           pyLowerL (pyLowerL parts.scheme) = pyLowerL parts.scheme) := by
        rcases urlsplit_scheme_cases _ _ parts hps with hsome | ⟨-, hdflt⟩
        · unfold schemeOf at hsome
          cases hss2 : schemeSplit
              (removeUnsafe ((pyStripL u.data).dropWhile isC0OrSpace)) with
          | none =>
            rw [hss2] at hsome
            exact Option.noConfusion hsome
          | some pr =>
            obtain ⟨s1, r1⟩ := pr
            rw [hss2, Option.map_some'] at hsome
            injection hsome with hsome
            obtain ⟨hval, hlow1⟩ := schemeSplit_shape _ _ _ hss2
            right
            rw [← hsome, hlow1]
            exact ⟨hval, hlow1⟩
        · left
          rw [hdflt]
          rfl
      have hnE : ∀ c ∈ pyLowerL parts.netloc, isNetlocEnd c = false := by
        intro c hc
        unfold pyLowerL at hc
        rw [List.mem_map] at hc
        obtain ⟨c0, hc0, rfl⟩ := hc
        exact pyLowerChar_netlocEnd c0 (hnE0 c0 hc0)
      have hnU : ∀ c ∈ pyLowerL parts.netloc, isUnsafeUrlByte c = false := by
        intro c hc
        unfold pyLowerL at hc
        rw [List.mem_map] at hc
        obtain ⟨c0, hc0, rfl⟩ := hc
        exact pyLowerChar_unsafe c0 (hnU0 c0 hc0)
      have hbr : (pyLowerL parts.netloc).contains '[' =
          (pyLowerL parts.netloc).contains ']' := by
        rw [pyLower_contains _ '[' (by decide), pyLower_contains _ ']' (by decide),
          hbr0]
      have hB2 : ¬(pyLowerL parts.netloc = [] ∧
          isPfxL ['/', '/'] parts.path = true) := by
        rintro ⟨hn1, hp1⟩
        exact hB parts hps ⟨(pyLowerL_nil_iff _).mp hn1, hp1⟩
      have hphead : pyLowerL parts.scheme = [] → pyLowerL parts.netloc = [] →
          ∀ c t, parts.path = c :: t → isC0OrSpace c = false := by
        intro hs1 hn1
        exact (urlsplit_schemeless_path _ parts hps ((pyLowerL_nil_iff _).mp hs1)
          ((pyLowerL_nil_iff _).mp hn1)).2
      have hss : pyLowerL parts.scheme = [] → pyLowerL parts.netloc = [] →
          schemeSplit (parts.path ++
            (if normQuery parts.query = [] then []
             else '?' :: normQuery parts.query)) = none := by
        intro hs1 hn1
        have hqfree : ∀ c ∈ (if normQuery parts.query = [] then ([] : List Char)
            else '?' :: normQuery parts.query), c ≠ ':' := by
          by_cases hq : normQuery parts.query = []
          · rw [if_pos hq]
            intro c hc
            simp at hc
          · rw [if_neg hq]
            intro c hc
            rcases List.mem_cons.mp hc with rfl | hc
            · decide
            · exact (normQuery_charfacts _ c hc).2.1
        rcases (urlsplit_schemeless_path _ parts hps ((pyLowerL_nil_iff _).mp hs1)
            ((pyLowerL_nil_iff _).mp hn1)).1 with
          ⟨t, hnone⟩ | hpnil | ⟨c, tl, hpc, hna, hnc⟩
        · exact schemeSplit_none_extend parts.path t _ hnone hqfree
        · rw [hpnil, List.nil_append]
          by_cases hq : normQuery parts.query = []
          · rw [if_pos hq]
            rfl
          · rw [if_neg hq]
            exact schemeSplit_none_of_head '?' _ (by decide) (by decide)
        · rw [hpc, List.cons_append]
          exact schemeSplit_none_of_head c _ hna hnc
      have hqH : ∀ c ∈ normQuery parts.query, c ≠ '#' :=
        fun c hc => (normQuery_charfacts _ c hc).1
      have hqU : ∀ c ∈ normQuery parts.query, isUnsafeUrlByte c = false :=
        fun c hc => (normQuery_charfacts _ c hc).2.2.2.1
      rw [hL] at hA2 ⊢
      exact normalize_unsplit _ _ _ _ hsfact hnE hnU hbr hpH0 hpQ0 hpU0 hqH hqU
        hB2 hphead hss (pyLowerL_idem _) (normQuery_idem _) hA2

theorem normalize_idempotent_on_stable_wit :
    pyStrip (normalize_url "https://A.com/p?b=2&a=1#f") =
      normalize_url "https://A.com/p?b=2&a=1#f" ∧
    normalize_url (normalize_url "https://A.com/p?b=2&a=1#f") =
      normalize_url "https://A.com/p?b=2&a=1#f" :=
  ⟨rfl, normalize_idempotent_on_stable "https://A.com/p?b=2&a=1#f" rfl (by
    intro parts h
    have h3 := h
    rw [show urlsplitL (pyStripL ("https://A.com/p?b=2&a=1#f" : String).data) [] =
      some (⟨"https".data, "A.com".data, "/p".data, "b=2&a=1".data,
        "f".data⟩ : SplitResult) from rfl] at h3
    injection h3 with h3
    subst h3
    rintro ⟨h1, -⟩
    exact List.noConfusion h1)⟩

-- ---------- C3: normalize_url canonical form ----------

/-- A URL whose authority contains a lone `[`: `urlsplit` raises
`ValueError`, the `except` branch returns the stripped input unchanged,
and the fragment and tracking parameter survive — so the universal
clause of the claim fails on unparseable inputs. -/
theorem normalize_fragment_cex :
    normalize_url "http://[/p?utm_source=x#f" = "http://[/p?utm_source=x#f" ∧
    '#' ∈ (normalize_url "http://[/p?utm_source=x#f").data :=
  ⟨rfl, by decide⟩

/-- C3 (corrected): on every input whose preprocessed form `urlsplit`
accepts, `normalize_url` rebuilds the URL from the lowercased scheme, the
lowercased netloc, the path, the normalized query and an empty fragment;
the normalized query parses back to exactly the original parameters with
the tracking denylist removed, sorted as pairs; and the two URLs of the
claim normalize identically.  (On a failing parse the stripped input is
returned unchanged instead.) -/
theorem normalize_url_canonicalizes :
    (∀ (u : String) (parts : SplitResult), pyStripL u.data ≠ [] →
      urlsplitL (pyStripL u.data) [] = some parts →
      normalize_url u = ⟨urlunsplitL (pyLowerL parts.scheme)
        (pyLowerL parts.netloc) parts.path (normQuery parts.query) []⟩) ∧
    (∀ q : List Char,
      parseQsl (normQuery q) = sortPairs ((parseQsl q).filter
        (fun kv => !dropParams.contains (pyLowerL kv.1))) ∧
      List.Sorted pairLe (parseQsl (normQuery q)) ∧
      ∀ kv ∈ parseQsl (normQuery q),
        dropParams.contains (pyLowerL kv.1) = false) ∧
    normalize_url "https://a.com/p?b=2&a=1&utm_source=x" =
      normalize_url "https://a.com/p?a=1&b=2" := by
  refine ⟨?_, ?_, rfl⟩
  · intro u parts hne hparse
    unfold normalize_url normalizeUrlL
    dsimp only
    rw [if_neg hne, hparse]
  · intro q
    refine ⟨normQuery_pairs q, ?_, ?_⟩
    · rw [normQuery_pairs]
      exact sortPairs_sorted _
    · rw [normQuery_pairs]
      intro kv hkv
      have h2 := (sortPairs_perm _).mem_iff.mp hkv
      have h3 := (List.mem_filter.mp h2).2
      cases hb : dropParams.contains (pyLowerL kv.1) with
      | false => rfl
      | true =>
        rw [hb] at h3
        exact Bool.noConfusion h3

theorem normalize_url_canonicalizes_wit :
    pyStripL ("https://A.com/p?b=2&a=1#f" : String).data ≠ [] ∧
    normalize_url "https://A.com/p?b=2&a=1#f" =
      ⟨urlunsplitL (pyLowerL "https".data) (pyLowerL "A.com".data) "/p".data
        (normQuery "b=2&a=1".data) []⟩ :=
  ⟨by decide,
    normalize_url_canonicalizes.1 "https://A.com/p?b=2&a=1#f"
      ⟨"https".data, "A.com".data, "/p".data, "b=2&a=1".data, "f".data⟩
      (by decide) rfl⟩

end AutoJav
